import Mathlib

/-!
# arduinoFFT (C port): shallow embedding and verification

The embedding follows `src/arduinoFFT.c`.

* `double` is an arbitrary field `α` (exact arithmetic); the functions `sqrt`,
  `cos` and `abs` and the constants `twoPi` and `fourPi`, none of which is
  declared in the source file, are parameters, instantiated in the theorems
  with `Real.sqrt`, `Real.cos`, the absolute value, `2 π` and `4 π`.
* `uint16_t` and `uint8_t` values are natural numbers; the updates that can
  leave the type's range are reduced modulo `2 ^ 16` or `2 ^ 8` explicitly.
* A buffer is a list; every read and write is bounds-checked and an access
  outside the buffer (undefined behaviour in C) makes the operation return
  `none`.
* The division of `FFT_Windowing` on Reverse, whose divisor is a window weight
  and can be zero, is checked: a zero divisor, for which the doubles of the
  source store an infinity or a NaN, makes the operation return `none`.
* A loop whose termination is not evident from its header is run with fuel and
  returns `none` when the fuel is used up.
-/

namespace ArduinoFFT

/-! ## Data model -/

/-- Modelled from the spec: the header `arduinoFFT.h` with the constants
`FFT_FORWARD` and `FFT_REVERSE` is missing; the spec describes the transform
direction as a two-valued tag, Forward or Reverse. -/
inductive Direction where
  | FFT_FORWARD
  | FFT_REVERSE
  deriving DecidableEq, Repr

/-- Modelled from the spec: the header `arduinoFFT.h` with the constants
`FFT_WIN_TYP_*` is missing; the spec describes the window type as a closed set
of seven variants. -/
inductive WindowType where
  | FFT_WIN_TYP_RECTANGLE
  | FFT_WIN_TYP_HAMMING
  | FFT_WIN_TYP_HANN
  | FFT_WIN_TYP_TRIANGLE
  | FFT_WIN_TYP_BLACKMAN
  | FFT_WIN_TYP_FLT_TOP
  | FFT_WIN_TYP_WELCH
  deriving DecidableEq, Repr

/-- The file-level variables `_vReal`, `_vImag`, `_samples`,
`_samplingFrequency` and `_power` of the source. -/
structure Globals (α : Type) where
  _vReal : List α
  _vImag : List α
  _samples : Nat
  _samplingFrequency : α
  _power : Nat

/-- Checked read `buf[i]`. -/
def rd {α : Type} (buf : List α) (i : Nat) : Option α := buf[i]?

/-- Checked write `buf[i] = v`. -/
def wr {α : Type} (buf : List α) (i : Nat) (v : α) : Option (List α) :=
  if i < buf.length then some (buf.set i v) else none

/-- Loop `for (i = lo; i < lo + n; i++) body` over a state `σ`; the argument `n`
is the number of iterations. -/
def forLoop {σ : Type} (body : Nat → σ → Option σ) : Nat → Nat → σ → Option σ
  | 0, _, s => some s
  | n + 1, i, s => (body i s).bind (forLoop body n (i + 1))

/-- Loop `while (cond) body` over a state `σ`, run with fuel: every evaluation
of the condition costs one unit, and `none` is returned when none is left. -/
def whileLoop {σ : Type} (cond : σ → Bool) (body : σ → Option σ) : Nat → σ → Option σ
  | 0, _ => none
  | fuel + 1, s => if cond s then (body s).bind (whileLoop cond body fuel) else some s

/-! ## The operations -/

/-- Source `Exponent`: `while (((value >> result) & 1) != 1) result++;` with
`uint8_t result`.  The shift is the shift of natural numbers, so a shift by the
width of the type or more, which C leaves undefined, yields 0. -/
def Exponent (fuel : Nat) (value : Nat) : Option Nat :=
  whileLoop (fun result => decide (((value >>> result) &&& 1) ≠ 1))
    (fun result => some ((result + 1) % 2 ^ 8)) fuel 0

/-- Source `FFT_Init`: records the arguments and the exponent of `samples`. -/
def FFT_Init {α : Type} (fuel : Nat) (vReal vImag : List α) (samples : Nat)
    (samplingFrequency : α) : Option (Globals α) :=
  (Exponent fuel samples).bind fun power =>
    some { _vReal := vReal, _vImag := vImag, _samples := samples,
           _samplingFrequency := samplingFrequency, _power := power }

/-- Source `Swap`, applied to the elements `i` and `j` of one buffer. -/
def Swap {α : Type} (buf : List α) (i j : Nat) : Option (List α) :=
  (rd buf i).bind fun temp =>
  (rd buf j).bind fun y =>
  (wr buf i y).bind fun buf1 =>
  wr buf1 j temp

/-- The carry loop `while (k <= j) { j -= k; k >>= 1; }` on the state `(k, j)`. -/
def carryLoop (fuel : Nat) (k j : Nat) : Option (Nat × Nat) :=
  whileLoop (fun s => decide (s.1 ≤ s.2)) (fun s => some (s.1 >>> 1, s.2 - s.1)) fuel (k, j)

/-- One iteration of the bit-reversal loop of `FFT_Compute` (source lines
49-59) on the state `(j, vReal, vImag)`. -/
def reverseBitsBody {α : Type} (fuel : Nat) (dir : Direction) (samples : Nat) (i : Nat)
    (s : Nat × List α × List α) : Option (Nat × List α × List α) :=
  let j := s.1
  (if i < j then
      (Swap s.2.1 i j).bind fun re =>
      (if dir = Direction.FFT_REVERSE then Swap s.2.2 i j else some s.2.2).bind fun im =>
      some (re, im)
    else some (s.2.1, s.2.2)).bind fun bufs =>
  (carryLoop fuel (samples >>> 1) j).bind fun kj =>
  some ((kj.2 + kj.1) % 2 ^ 16, bufs.1, bufs.2)

/-- The bit-reversal loop of `FFT_Compute` (source lines 47-60):
`for (uint16_t i = 0; i < (_samples - 1); i++)`, with `j = 0` before it.  The
bound `_samples - 1` is the truncated difference, so the loop does not run for
`_samples = 0`. -/
def reverseBits {α : Type} (fuel : Nat) (dir : Direction) (samples : Nat)
    (vReal vImag : List α) : Option (Nat × List α × List α) :=
  forLoop (reverseBitsBody fuel dir samples) (samples - 1) 0 (0, vReal, vImag)

/-- The body of the innermost loop of `FFT_Compute` (source lines 72-78) with
the loop increment `i += l2`, on the state `(i, vReal, vImag)`. -/
def butterflyBody {α : Type} [Field α] (l1 l2 : Nat) (u1 u2 : α)
    (s : Nat × List α × List α) : Option (Nat × List α × List α) :=
  let i := s.1
  let i1 := (i + l1) % 2 ^ 16
  (rd s.2.1 i1).bind fun r1 =>
  (rd s.2.2 i1).bind fun m1 =>
  let t1 := u1 * r1 - u2 * m1
  let t2 := u1 * m1 + u2 * r1
  (rd s.2.1 i).bind fun r0 =>
  (wr s.2.1 i1 (r0 - t1)).bind fun re1 =>
  (rd s.2.2 i).bind fun m0 =>
  (wr s.2.2 i1 (m0 - t2)).bind fun im1 =>
  (rd re1 i).bind fun r0a =>
  (wr re1 i (r0a + t1)).bind fun re2 =>
  (rd im1 i).bind fun m0a =>
  (wr im1 i (m0a + t2)).bind fun im2 =>
  some ((i + l2) % 2 ^ 16, re2, im2)

/-- The innermost loop `for (uint16_t i = j; i < _samples; i += l2)`. -/
def butterflyLoop {α : Type} [Field α] (fuel : Nat) (samples l1 l2 : Nat) (u1 u2 : α) (j : Nat)
    (vReal vImag : List α) : Option (Nat × List α × List α) :=
  whileLoop (fun s => decide (s.1 < samples)) (butterflyBody l1 l2 u1 u2) fuel (j, vReal, vImag)

/-- One iteration of the loop over `j` (source lines 71-82) on the state
`(u1, u2, vReal, vImag)`. -/
def groupBody {α : Type} [Field α] (fuel : Nat) (samples l1 l2 : Nat) (c1 c2 : α) (j : Nat)
    (s : α × α × List α × List α) : Option (α × α × List α × List α) :=
  let u1 := s.1
  let u2 := s.2.1
  (butterflyLoop fuel samples l1 l2 u1 u2 j s.2.2.1 s.2.2.2).bind fun r =>
  let z := (u1 * c1) - (u2 * c2)
  some (z, (u1 * c2) + (u2 * c1), r.2.1, r.2.2)

/-- One iteration of the loop over the stages `l` (source lines 66-88) on the
state `(c1, c2, l2, vReal, vImag)`. -/
def stageBody {α : Type} [Field α] (sqrt : α → α) (fuel : Nat) (dir : Direction)
    (samples : Nat) (_l : Nat) (s : α × α × Nat × List α × List α) :
    Option (α × α × Nat × List α × List α) :=
  let c1 := s.1
  let c2 := s.2.1
  let l1 := s.2.2.1
  let l2 := (l1 <<< 1) % 2 ^ 16
  (forLoop (groupBody fuel samples l1 l2 c1 c2) l1 0 (1, 0, s.2.2.2.1, s.2.2.2.2)).bind fun r =>
  let c2a := sqrt ((1 - c1) / 2)
  let c2b := if dir = Direction.FFT_FORWARD then -c2a else c2a
  some (sqrt ((1 + c1) / 2), c2b, l2, r.2.2.1, r.2.2.2)

/-- The scaling loop of the reverse transform (source lines 92-95), one
iteration on the state `(vReal, vImag)`. -/
def scaleBody {α : Type} [Field α] (samples : Nat) (i : Nat) (s : List α × List α) :
    Option (List α × List α) :=
  (rd s.1 i).bind fun r =>
  (wr s.1 i (r / (samples : α))).bind fun re =>
  (rd s.2 i).bind fun m =>
  (wr s.2 i (m / (samples : α))).bind fun im =>
  some (re, im)

/-- Source `FFT_Compute`. -/
def FFT_Compute {α : Type} [Field α] (sqrt : α → α) (fuel : Nat) (dir : Direction)
    (g : Globals α) : Option (Globals α) :=
  (reverseBits fuel dir g._samples g._vReal g._vImag).bind fun b =>
  (forLoop (stageBody sqrt fuel dir g._samples) g._power 0
      (-1, 0, 1, b.2.1, b.2.2)).bind fun s =>
  (if dir ≠ Direction.FFT_FORWARD then
      forLoop (scaleBody g._samples) g._samples 0 (s.2.2.2.1, s.2.2.2.2)
    else some (s.2.2.2.1, s.2.2.2.2)).bind fun r =>
  some { g with _vReal := r.1, _vImag := r.2 }

/-! ## Windowing -/

/-- The macro `sq(x)` of the source, `((x)*(x))`. -/
def sq {α : Type} [Mul α] (x : α) : α := x * x

/-- The weighing factor that one iteration of the loop of `FFT_Windowing` computes
(source lines 109-137).  The constants `twoPi` and `fourPi` of the missing header
`arduinoFFT.h` and the functions `cos` and `abs`, whose declarations are not in
the source, are parameters. -/
def weighingFactor {α : Type} [Field α] (cos abs : α → α) (twoPi fourPi : α)
    (windowType : WindowType) (samples i : Nat) : α :=
  let samplesMinusOne := ((samples : α) - 1)
  let indexMinusOne := (i : α)
  let ratio := indexMinusOne / samplesMinusOne
  match windowType with
  | WindowType.FFT_WIN_TYP_RECTANGLE => 1
  | WindowType.FFT_WIN_TYP_HAMMING => 0.54 - (0.46 * cos (twoPi * ratio))
  | WindowType.FFT_WIN_TYP_HANN => 0.54 * (1 - cos (twoPi * ratio))
  | WindowType.FFT_WIN_TYP_TRIANGLE =>
      1 - ((2 * abs (indexMinusOne - (samplesMinusOne / 2))) / samplesMinusOne)
  | WindowType.FFT_WIN_TYP_BLACKMAN =>
      0.42323 - (0.49755 * (cos (twoPi * ratio))) + (0.07922 * (cos (fourPi * ratio)))
  | WindowType.FFT_WIN_TYP_FLT_TOP =>
      0.2810639 - (0.5208972 * cos (twoPi * ratio)) + (0.1980399 * cos (fourPi * ratio))
  | WindowType.FFT_WIN_TYP_WELCH =>
      1 - sq ((indexMinusOne - samplesMinusOne / 2) / (samplesMinusOne / 2))

/-- The division `a / w` of lines 143-144, checked: a zero divisor has no
quotient in exact arithmetic (the doubles of the source store an infinity or a
NaN there), so the operation returns `none`. -/
def divide {α : Type} [Field α] [DecidableEq α] (a w : α) : Option α :=
  if w = 0 then none else some (a / w)

/-- One iteration of the loop of `FFT_Windowing` (source lines 111-145) on the
real buffer. -/
def windowBody {α : Type} [Field α] [DecidableEq α] (cos abs : α → α) (twoPi fourPi : α)
    (windowType : WindowType) (dir : Direction) (samples : Nat) (i : Nat) (vReal : List α) :
    Option (List α) :=
  let w := weighingFactor cos abs twoPi fourPi windowType samples i
  if dir = Direction.FFT_FORWARD then
    (rd vReal i).bind fun a =>
    (wr vReal i (a * w)).bind fun v1 =>
    (rd v1 (samples - (i + 1))).bind fun b =>
    wr v1 (samples - (i + 1)) (b * w)
  else
    (rd vReal i).bind fun a =>
    (divide a w).bind fun q =>
    (wr vReal i q).bind fun v1 =>
    (rd v1 (samples - (i + 1))).bind fun b =>
    (divide b w).bind fun r =>
    wr v1 (samples - (i + 1)) r

/-- Source `FFT_Windowing`. -/
def FFT_Windowing {α : Type} [Field α] [DecidableEq α] (cos abs : α → α) (twoPi fourPi : α)
    (windowType : WindowType) (dir : Direction) (g : Globals α) : Option (Globals α) :=
  (forLoop (windowBody cos abs twoPi fourPi windowType dir g._samples) (g._samples >>> 1) 0
      g._vReal).bind fun re =>
  some { g with _vReal := re }

/-! ## Magnitude and peak -/

/-- One iteration of the loop of `FFT_ComplexToMagnitude` (source line 102) on
the real buffer. -/
def magnitudeBody {α : Type} [Field α] (sqrt : α → α) (vImag : List α) (i : Nat)
    (vReal : List α) : Option (List α) :=
  (rd vReal i).bind fun r =>
  (rd vImag i).bind fun m =>
  wr vReal i (sqrt (sq r + sq m))

/-- Source `FFT_ComplexToMagnitude`. -/
def FFT_ComplexToMagnitude {α : Type} [Field α] (sqrt : α → α) (g : Globals α) :
    Option (Globals α) :=
  (forLoop (magnitudeBody sqrt g._vImag) g._samples 0 g._vReal).bind fun re =>
  some { g with _vReal := re }

/-- Checked read `buf[i]` at an index of type `int`, which can be negative. -/
def rdI {α : Type} (buf : List α) (i : Int) : Option α :=
  if 0 ≤ i then rd buf i.toNat else none

/-- One iteration of the scan of `FFT_MajorPeak` (source lines 156-161) on the
state `(maxY, IndexOfMaxY)`; the right operand of `&&` is read only when the
left one holds. -/
def peakScanBody {α : Type} [LinearOrderedField α] (vReal : List α) (i : Nat)
    (s : α × Nat) : Option (α × Nat) :=
  (rdI vReal ((i : Int) - 1)).bind fun a =>
  (rd vReal i).bind fun c =>
  if a < c then
    (rd vReal (i + 1)).bind fun b =>
    if c > b then
      if c > s.1 then some (c, i) else some s
    else some s
  else some s

/-- The scan of `FFT_MajorPeak` (source lines 151-162):
`for (uint16_t i = 1; i < ((_samples >> 1) + 1); i++)` from `maxY = 0`,
`IndexOfMaxY = 0`. -/
def majorPeakScan {α : Type} [LinearOrderedField α] (g : Globals α) : Option (α × Nat) :=
  forLoop (peakScanBody g._vReal) (((g._samples >>> 1) + 1) - 1) 1 (0, 0)

/-- The value assigned to `delta` (source line 163) from `a = _vReal[m-1]`,
`c = _vReal[m]` and `b = _vReal[m+1]`. -/
def interpolationDelta {α : Type} [Field α] (a c b : α) : α :=
  0.5 * ((a - b) / (a - (2 * c) + b))

/-- Source `FFT_MajorPeak`: the scan, then the interpolation around
`IndexOfMaxY` (source lines 163-168).  The index `IndexOfMaxY-1` and the divisor
`_samples-1` are computed in `int`. -/
def FFT_MajorPeak {α : Type} [LinearOrderedField α] (g : Globals α) : Option α :=
  (majorPeakScan g).bind fun s =>
  let IndexOfMaxY := s.2
  (rdI g._vReal ((IndexOfMaxY : Int) - 1)).bind fun a =>
  (rd g._vReal (IndexOfMaxY + 1)).bind fun b =>
  (rd g._vReal IndexOfMaxY).bind fun c =>
  let delta := interpolationDelta a c b
  let interpolatedX :=
    (((IndexOfMaxY : α) + delta) * g._samplingFrequency) / (((g._samples : Int) - 1 : Int) : α)
  if IndexOfMaxY = g._samples >>> 1 then
    some ((((IndexOfMaxY : α) + delta) * g._samplingFrequency) / (g._samples : α))
  else some interpolatedX

open Finset

/-! ## Notions used in the statements and proofs -/

/-- The number obtained by reversing the `p`-bit binary representation of `i`:
the lowest bit of `i` becomes bit `p - 1`. -/
def bitrev : Nat → Nat → Nat
  | 0, _ => 0
  | p + 1, i => (i % 2) * 2 ^ p + bitrev p (i / 2)

/-- The state of one buffer after the iterations `0 .. i - 1` of the reordering loop. -/
def RevUpTo {α : Type} (p i : Nat) (buf0 buf : List α) : Prop :=
  ∀ m, m < 2 ^ p →
    buf[m]? = if m < i ∨ bitrev p m < i then buf0[bitrev p m]? else buf0[m]?

/-- The complex number held at index `m` of a pair of real buffers. -/
def cbuf (re im : List ℝ) (m : Nat) : ℂ := ⟨re.getD m 0, im.getD m 0⟩

/-- One radix-2 butterfly pass with a single twiddle factor `U`, read at index
`m`: the sum output in the lower half of each block of `2 * l1`, the difference
output in the upper half. -/
def bfly (Z : Nat → ℂ) (U : ℂ) (l1 m : Nat) : ℂ :=
  if m % (2 * l1) < l1 then Z m + U * Z (m + l1) else Z (m - l1) - U * Z m

/-- One complete butterfly stage with the twiddle factors `W ^ (m % l1)`. -/
def bflyW (Z : Nat → ℂ) (W : ℂ) (l1 m : Nat) : ℂ :=
  if m % (2 * l1) < l1 then Z m + W ^ (m % l1) * Z (m + l1)
  else Z (m - l1) - W ^ (m % l1) * Z m

/-- The state after `l` butterfly stages: every block of `2 ^ l` consecutive
elements holds the transform of size `2 ^ l` of that block of the reordered
input `Z`, read in bit-reversed order, with the root `ρ l`. -/
def blockDFT {R : Type} [CommSemiring R] (ρ : Nat → R) (Z : Nat → R) (l m : Nat) : R :=
  ∑ n in range (2 ^ l), Z ((m / 2 ^ l) * 2 ^ l + bitrev l n) * (ρ l) ^ ((m % 2 ^ l) * n)

/-- Sign of the exponent of the transform: `-1` for Forward, `+1` for Reverse. -/
def dirSign (dir : Direction) : ℤ :=
  if dir = Direction.FFT_FORWARD then -1 else 1

/-- The complex input seen by the butterfly stages of `FFT_Compute`: the
imaginary buffer is read in its own order on Reverse and in bit-reversed order
on Forward, where the reordering loop does not move it. -/
def inputOf (dir : Direction) (p : Nat) (re im : List ℝ) (n : Nat) : ℂ :=
  ⟨re.getD n 0, if dir = Direction.FFT_REVERSE then im.getD n 0 else im.getD (bitrev p n) 0⟩

/-- The operation that `FFT_Windowing` applies to an element and its weight:
multiplication on Forward, division otherwise. -/
def windowOp {α : Type} [Field α] (dir : Direction) (a w : α) : α :=
  if dir = Direction.FFT_FORWARD then a * w else a / w

/-- The state of a `while` loop at the head of its iteration number `n`: the
body has run `n` times and the condition held before each run. -/
def iterWhile {σ : Type} (cond : σ → Bool) (body : σ → Option σ) : Nat → σ → Option σ
  | 0, s => some s
  | n + 1, s => if cond s then (body s).bind (iterWhile cond body n) else none

/-- Index `i` is a strict local maximum of the buffer:
`buf[i-1] < buf[i]` and `buf[i] > buf[i+1]`. -/
def IsPeak {α : Type} [LinearOrderedField α] (buf : List α) (i : Nat) : Prop :=
  buf.getD (i - 1) 0 < buf.getD i 0 ∧ buf.getD i 0 > buf.getD (i + 1) 0

instance IsPeak.decidable {α : Type} [LinearOrderedField α] (buf : List α) (i : Nat) :
    Decidable (IsPeak buf i) :=
  inferInstanceAs (Decidable (buf.getD (i - 1) 0 < buf.getD i 0 ∧ buf.getD i 0 > buf.getD (i + 1) 0))

/-- What the scan of `FFT_MajorPeak` holds in `(maxY, IndexOfMaxY)` before it
looks at index `i`: either nothing was recorded, and no strict local maximum
below `i` has a positive value, or the recorded index is the first strict local
maximum of greatest value below `i`. -/
def ScanUpTo {α : Type} [LinearOrderedField α] (buf : List α) (i : Nat) (s : α × Nat) : Prop :=
  (s.2 = 0 ∧ s.1 = 0 ∧ ∀ t, 1 ≤ t → t < i → IsPeak buf t → buf.getD t 0 ≤ 0) ∨
  (1 ≤ s.2 ∧ s.2 < i ∧ IsPeak buf s.2 ∧ s.1 = buf.getD s.2 0 ∧ 0 < s.1 ∧
    ∀ t, 1 ≤ t → t < i → IsPeak buf t →
      buf.getD t 0 ≤ s.1 ∧ (t < s.2 → buf.getD t 0 < s.1))

/-! ## Loop rules -/

theorem forLoop_inv {σ : Type} (body : Nat → σ → Option σ) (Inv : Nat → σ → Prop) :
    ∀ (n lo : Nat) (s : σ),
      (∀ i s, lo ≤ i → i < lo + n → Inv i s → ∃ s', body i s = some s' ∧ Inv (i + 1) s') →
      Inv lo s → ∃ s', forLoop body n lo s = some s' ∧ Inv (lo + n) s' := by
  intro n
  induction n with
  | zero => intro lo s _ h0; exact ⟨s, rfl, by simpa using h0⟩
  | succ n ih =>
    intro lo s hstep h0
    obtain ⟨s1, hb, h1⟩ := hstep lo s (le_refl _) (by omega) h0
    obtain ⟨s2, hl, h2⟩ := ih (lo + 1) s1
      (fun i s hi hlt hinv => hstep i s (by omega) (by omega) hinv) h1
    refine ⟨s2, ?_, ?_⟩
    · simp [forLoop, hb, hl]
    · have : lo + (n + 1) = lo + 1 + n := by omega
      rw [this]; exact h2

theorem whileLoop_inv {σ : Type} (cond : σ → Bool) (body : σ → Option σ)
    (Inv : Nat → σ → Prop) (T : Nat)
    (hstep : ∀ t s, t < T → Inv t s → cond s = true ∧ ∃ s', body s = some s' ∧ Inv (t + 1) s')
    (hexit : ∀ s, Inv T s → cond s = false) :
    ∀ (fuel t : Nat) (s : σ), t ≤ T → Inv t s → T - t < fuel →
      ∃ s', whileLoop cond body fuel s = some s' ∧ Inv T s' := by
  intro fuel
  induction fuel with
  | zero => intro t s _ _ h; omega
  | succ fuel ih =>
    intro t s htT hinv hfuel
    rcases Nat.lt_or_ge t T with hlt | hge
    · obtain ⟨hc, s1, hb, h1⟩ := hstep t s hlt hinv
      obtain ⟨s2, hl, h2⟩ := ih (t + 1) s1 hlt h1 (by omega)
      exact ⟨s2, by simp [whileLoop, hc, hb, hl], h2⟩
    · have : t = T := by omega
      subst this
      exact ⟨s, by simp [whileLoop, hexit s hinv], hinv⟩

theorem whileLoop_diverge {σ : Type} (cond : σ → Bool) (body : σ → Option σ)
    (Inv : σ → Prop)
    (hstep : ∀ s, Inv s → cond s = true ∧ ∀ s', body s = some s' → Inv s') :
    ∀ (fuel : Nat) (s : σ), Inv s → whileLoop cond body fuel s = none := by
  intro fuel
  induction fuel with
  | zero => intro s _; rfl
  | succ fuel ih =>
    intro s hinv
    obtain ⟨hc, hb⟩ := hstep s hinv
    simp only [whileLoop, hc, if_true]
    cases h : body s with
    | none => rfl
    | some s' => exact ih s' (hb s' h)

/-! ## Exponent -/

theorem Exponent_zero (fuel : Nat) : Exponent fuel 0 = none := by
  unfold Exponent
  exact whileLoop_diverge _ _ (fun _ => True) (fun s _ => ⟨by simp, fun _ _ => trivial⟩) fuel 0 trivial

theorem Exponent_lowest_bit (v : Nat) (hv0 : 0 < v) (hv : v < 2 ^ 16) :
    ∃ r, r < 16 ∧ v.testBit r = true ∧ (∀ i, i < r → v.testBit i = false) ∧
      ∀ fuel, r < fuel → Exponent fuel v = some r := by
  have hex : ∃ i, v.testBit i = true := Nat.ne_zero_implies_bit_true (by omega)
  have hr : v.testBit (Nat.find hex) = true := Nat.find_spec hex
  have hmin : ∀ i, i < Nat.find hex → v.testBit i = false := fun i hi => by
    simpa using Nat.find_min hex hi
  have hr16 : Nat.find hex < 16 := by
    by_contra hge
    have h1 : v < 2 ^ Nat.find hex :=
      lt_of_lt_of_le hv (Nat.pow_le_pow_right (by norm_num) (by omega))
    rw [Nat.testBit_lt_two_pow h1] at hr
    exact absurd hr (by simp)
  have hbit : ∀ i, ((v >>> i) &&& 1) = 1 ↔ v.testBit i = true := by
    intro i
    rw [Nat.testBit_to_div_mod, Nat.and_one_is_mod, Nat.shiftRight_eq_div_pow]
    simp
  refine ⟨Nat.find hex, hr16, hr, hmin, ?_⟩
  intro fuel hfuel
  obtain ⟨s', hs, hinv⟩ := whileLoop_inv
    (fun result => decide (((v >>> result) &&& 1) ≠ 1))
    (fun result => some ((result + 1) % 2 ^ 8)) (fun t result => result = t) (Nat.find hex)
    (by
      intro t s ht hs
      subst hs
      refine ⟨?_, (s + 1) % 2 ^ 8, rfl, ?_⟩
      · have := hmin s ht
        simp only [ne_eq, decide_eq_true_eq]
        rw [hbit, this]; simp
      · apply Nat.mod_eq_of_lt; omega)
    (by
      intro s hs
      subst hs
      simp only [ne_eq, decide_eq_false_iff_not, not_not]
      exact (hbit _).2 hr)
    fuel 0 0 (Nat.zero_le _) rfl (by omega)
  subst hinv
  exact hs

theorem Exponent_two_pow (p : Nat) (hp : p ≤ 15) (fuel : Nat) (hfuel : p < fuel) :
    Exponent fuel (2 ^ p) = some p := by
  obtain ⟨r, _, hbit, _, he⟩ := Exponent_lowest_bit (2 ^ p) (Nat.pos_pow_of_pos _ (by norm_num))
    (Nat.pow_lt_pow_right (by norm_num) (by omega))
  rw [Nat.testBit_two_pow] at hbit
  simp at hbit
  subst hbit
  exact he fuel hfuel

/-! ## Bit reversal of an index -/

theorem bitrev_lt (p i : Nat) : bitrev p i < 2 ^ p := by
  induction p generalizing i with
  | zero => simp [bitrev]
  | succ p ih =>
    have h1 := ih (i / 2)
    have h2 : i % 2 < 2 := Nat.mod_lt _ (by norm_num)
    simp only [bitrev, pow_succ]
    nlinarith

theorem bitrev_top (p i : Nat) (hi : i < 2 ^ (p + 1)) :
    bitrev (p + 1) i = 2 * bitrev p (i % 2 ^ p) + i / 2 ^ p := by
  induction p generalizing i with
  | zero =>
    simp only [bitrev, pow_zero, Nat.mod_one, Nat.div_one]
    omega
  | succ p ih =>
    have hi2 : i / 2 < 2 ^ (p + 1) := by
      rw [Nat.div_lt_iff_lt_mul (by norm_num)]; rw [pow_succ] at hi; exact hi
    have e1 : (i % 2 ^ (p + 1)) % 2 = i % 2 := by
      rw [pow_succ, mul_comm]; exact Nat.mod_mul_right_mod i 2 (2 ^ p)
    have e2 : (i % 2 ^ (p + 1)) / 2 = (i / 2) % 2 ^ p := by
      rw [pow_succ, mul_comm]; exact Nat.mod_mul_right_div_self i 2 (2 ^ p)
    have e3 : i / 2 / 2 ^ p = i / 2 ^ (p + 1) := by
      rw [Nat.div_div_eq_div_mul, pow_succ, mul_comm]
    rw [bitrev, ih (i / 2) hi2]
    conv_rhs => rw [bitrev, e1, e2]
    rw [e3]
    ring

theorem bitrev_bitrev (p i : Nat) (hi : i < 2 ^ p) : bitrev p (bitrev p i) = i := by
  induction p generalizing i with
  | zero => simp at hi; simp [bitrev, hi]
  | succ p ih =>
    have hi2 : i / 2 < 2 ^ p := by
      rw [Nat.div_lt_iff_lt_mul (by norm_num)]; rw [pow_succ] at hi; exact hi
    have hlt := bitrev_lt p (i / 2)
    have hb : i % 2 < 2 := Nat.mod_lt _ (by norm_num)
    rw [bitrev_top p _ (bitrev_lt (p + 1) i)]
    have e1 : bitrev (p + 1) i % 2 ^ p = bitrev p (i / 2) := by
      rw [bitrev, Nat.mul_add_mod_of_lt hlt]
    have e2 : bitrev (p + 1) i / 2 ^ p = i % 2 := by
      rw [bitrev, Nat.add_comm, Nat.add_mul_div_right _ _ (by positivity), Nat.div_eq_of_lt hlt]
      simp
    rw [e1, e2, ih _ hi2]
    omega

theorem bitrev_even (p n : Nat) : bitrev (p + 1) (2 * n) = bitrev p n := by
  simp [bitrev]

theorem bitrev_odd (p n : Nat) : bitrev (p + 1) (2 * n + 1) = 2 ^ p + bitrev p n := by
  have h1 : (2 * n + 1) % 2 = 1 := by omega
  have h2 : (2 * n + 1) / 2 = n := by omega
  simp [bitrev, h1, h2]

theorem bitrev_succ (p i : Nat) : bitrev (p + 1) i = (i % 2) * 2 ^ p + bitrev p (i / 2) := rfl

theorem carryLoop_exit (fuel k j : Nat) (h : j < k) : carryLoop (fuel + 1) k j = some (k, j) := by
  simp [carryLoop, whileLoop, h]

theorem carryLoop_step (fuel k j : Nat) (h : k ≤ j) :
    carryLoop (fuel + 1) k j = carryLoop fuel (k >>> 1) (j - k) := by
  simp [carryLoop, whileLoop, h]

theorem carryLoop_bitrev (p : Nat) : ∀ (i fuel : Nat), i + 1 < 2 ^ (p + 1) → p < fuel →
    ∃ k j, carryLoop fuel (2 ^ p) (bitrev (p + 1) i) = some (k, j) ∧
      0 < k ∧ j + k = bitrev (p + 1) (i + 1) := by
  induction p with
  | zero =>
    intro i fuel hi hf
    have hi0 : i = 0 := by norm_num at hi; omega
    subst hi0
    obtain ⟨f, rfl⟩ : ∃ f, fuel = f + 1 := ⟨fuel - 1, by omega⟩
    exact ⟨1, 0, by simp [bitrev, carryLoop, whileLoop], by norm_num, by simp [bitrev]⟩
  | succ q ih =>
    intro i fuel hi hf
    obtain ⟨f, rfl⟩ : ∃ f, fuel = f + 1 := ⟨fuel - 1, by omega⟩
    have hlt := bitrev_lt (q + 1) (i / 2)
    rcases Nat.mod_two_eq_zero_or_one i with h0 | h1
    · refine ⟨2 ^ (q + 1), bitrev (q + 1) (i / 2), ?_, by positivity, ?_⟩
      · rw [carryLoop_exit]
        · rw [bitrev_succ (q + 1) i, h0]; simp
        · rw [bitrev_succ (q + 1) i, h0]; simpa using hlt
      · have e1 : (i + 1) % 2 = 1 := by omega
        have e2 : (i + 1) / 2 = i / 2 := by omega
        rw [bitrev_succ (q + 1) (i + 1), e1, e2]; ring
    · have hi2 : i / 2 + 1 < 2 ^ (q + 1) := by
        have : 2 ^ (q + 1 + 1) = 2 * 2 ^ (q + 1) := by ring
        omega
      obtain ⟨k, j, hc, hk, hjk⟩ := ih (i / 2) f hi2 (by omega)
      refine ⟨k, j, ?_, hk, ?_⟩
      · have hb : bitrev (q + 1 + 1) i = 2 ^ (q + 1) + bitrev (q + 1) (i / 2) := by
          rw [bitrev_succ (q + 1) i, h1]; ring
        rw [carryLoop_step _ _ _ (by rw [hb]; omega), hb]
        have e : 2 ^ (q + 1) >>> 1 = 2 ^ q := by
          rw [Nat.shiftRight_eq_div_pow, pow_succ]; simp
        rw [e, Nat.add_sub_cancel_left]
        exact hc
      · have e1 : (i + 1) % 2 = 0 := by omega
        have e2 : (i + 1) / 2 = i / 2 + 1 := by omega
        rw [hjk]
        rw [bitrev_succ (q + 1) (i + 1), e1, e2]
        simp

/-! ## Buffers -/

theorem rd_eq {α : Type} (buf : List α) (i : Nat) (h : i < buf.length) :
    rd buf i = some (buf.get ⟨i, h⟩) := by
  simp [rd, List.getElem?_eq_getElem h]

theorem wr_eq {α : Type} (buf : List α) (i : Nat) (v : α) (h : i < buf.length) :
    wr buf i v = some (buf.set i v) := by
  simp [wr, h]

theorem Swap_spec {α : Type} (buf : List α) (i j : Nat) (hi : i < buf.length)
    (hj : j < buf.length) :
    ∃ buf', Swap buf i j = some buf' ∧ buf'.length = buf.length ∧
      ∀ m, buf'[m]? = if m = j then buf[i]? else if m = i then buf[j]? else buf[m]? := by
  refine ⟨(buf.set i (buf.get ⟨j, hj⟩)).set j (buf.get ⟨i, hi⟩), ?_, by simp, ?_⟩
  · simp [Swap, rd_eq _ _ hi, rd_eq _ _ hj, wr, hi, hj]
  · intro m
    by_cases hmj : m = j
    · subst hmj
      simp [List.getElem?_set, hj, List.getElem?_eq_getElem hi]
    · by_cases hmi : m = i
      · subst hmi
        simp [List.getElem?_set, hmj, Ne.symm hmj, hi, List.getElem?_eq_getElem hj]
      · simp [List.getElem?_set, hmj, hmi, Ne.symm hmj, Ne.symm hmi]

theorem RevUpTo_swap {α : Type} (p i : Nat) (hi : i < 2 ^ p) (buf0 buf buf' : List α)
    (h : RevUpTo p i buf0 buf) (hlt : i < bitrev p i)
    (hs : ∀ m, buf'[m]? = if m = bitrev p i then buf[i]? else
      if m = i then buf[bitrev p i]? else buf[m]?) :
    RevUpTo p (i + 1) buf0 buf' := by
  intro m hm
  have hj := bitrev_lt p i
  have hjj := bitrev_bitrev p i hi
  rw [hs m]
  by_cases hmj : m = bitrev p i
  · subst hmj
    rw [if_pos rfl, h i hi, hjj, if_neg (by omega), if_pos (by omega)]
  · rw [if_neg hmj]
    by_cases hmi : m = i
    · subst hmi
      rw [if_pos rfl, h _ hj, hjj, if_neg (by omega), if_pos (by omega)]
    · rw [if_neg hmi, h m hm]
      have hne : bitrev p m ≠ i := by
        intro e
        apply hmj
        rw [← e, bitrev_bitrev p m hm]
      by_cases hc : m < i ∨ bitrev p m < i
      · rw [if_pos hc, if_pos (by omega)]
      · rw [if_neg hc, if_neg (by omega)]

theorem RevUpTo_keep {α : Type} (p i : Nat) (hi : i < 2 ^ p) (buf0 buf : List α)
    (h : RevUpTo p i buf0 buf) (hlt : ¬ i < bitrev p i) :
    RevUpTo p (i + 1) buf0 buf := by
  intro m hm
  have hj := bitrev_lt p i
  have hjj := bitrev_bitrev p i hi
  rw [h m hm]
  by_cases hmi : m = i
  · subst hmi
    rw [if_pos (Or.inl (by omega) : m < m + 1 ∨ bitrev p m < m + 1)]
    by_cases hc : bitrev p m < m
    · rw [if_pos (Or.inr hc)]
    · have : bitrev p m = m := by omega
      rw [if_neg (by omega), this]
  · by_cases hmj : bitrev p m = i
    · have : m = bitrev p i := by rw [← hmj, bitrev_bitrev p m hm]
      rw [if_pos (by omega), if_pos (by omega)]
    · by_cases hc : m < i ∨ bitrev p m < i
      · rw [if_pos hc, if_pos (by omega)]
      · rw [if_neg hc, if_neg (by omega)]

theorem RevUpTo_final {α : Type} (p : Nat) (buf0 buf : List α)
    (h : RevUpTo p (2 ^ p - 1) buf0 buf) (m : Nat) (hm : m < 2 ^ p) :
    buf[m]? = buf0[bitrev p m]? := by
  rw [h m hm]
  by_cases hc : m < 2 ^ p - 1 ∨ bitrev p m < 2 ^ p - 1
  · rw [if_pos hc]
  · rw [if_neg hc]
    have := bitrev_lt p m
    have : bitrev p m = m := by omega
    rw [this]

theorem shiftRight_two_pow_succ (q : Nat) : 2 ^ (q + 1) >>> 1 = 2 ^ q := by
  rw [Nat.shiftRight_eq_div_pow, pow_succ]; simp

theorem bitrev_zero (p : Nat) : bitrev p 0 = 0 := by
  induction p with
  | zero => rfl
  | succ p ih => simp [bitrev, ih]

theorem reverseBits_spec {α : Type} (p : Nat) (hp : p ≤ 15) (dir : Direction)
    (re im : List α) (hre : re.length = 2 ^ p) (him : im.length = 2 ^ p)
    (fuel : Nat) (hfuel : p ≤ fuel) :
    ∃ j re' im', reverseBits fuel dir (2 ^ p) re im = some (j, re', im') ∧
      re'.length = 2 ^ p ∧ im'.length = 2 ^ p ∧
      (∀ m, m < 2 ^ p → re'[m]? = re[bitrev p m]?) ∧
      (dir = Direction.FFT_REVERSE → ∀ m, m < 2 ^ p → im'[m]? = im[bitrev p m]?) ∧
      (dir = Direction.FFT_FORWARD → im' = im) := by
  have hN : 2 ^ p ≤ 2 ^ 15 := Nat.pow_le_pow_right (by norm_num) hp
  obtain ⟨s', hs, hj, hl1, hl2, hR, hI, hF⟩ := forLoop_inv (reverseBitsBody fuel dir (2 ^ p))
    (fun i (s : Nat × List α × List α) =>
      s.1 = bitrev p i ∧ s.2.1.length = 2 ^ p ∧ s.2.2.length = 2 ^ p ∧
      RevUpTo p i re s.2.1 ∧
      (dir = Direction.FFT_REVERSE → RevUpTo p i im s.2.2) ∧
      (dir = Direction.FFT_FORWARD → s.2.2 = im))
    (2 ^ p - 1) 0 (0, re, im)
    (by
      rintro i ⟨j, re1, im1⟩ _ hi ⟨hj, hl1, hl2, hR, hI, hF⟩
      simp only at hj hl1 hl2 hR hI hF
      subst hj
      have hi' : i < 2 ^ p := by omega
      have hjlt := bitrev_lt p i
      -- the carry loop
      obtain ⟨q, rfl⟩ : ∃ q, p = q + 1 := by
        rcases p with _ | q
        · simp at hi
        · exact ⟨q, rfl⟩
      obtain ⟨k, j', hc, _, hjk⟩ := carryLoop_bitrev q i fuel (by omega) (by omega)
      have hmod : (j' + k) % 65536 = bitrev (q + 1) (i + 1) := by
        rw [hjk]; apply Nat.mod_eq_of_lt
        have := bitrev_lt (q + 1) (i + 1)
        omega
      by_cases hlt : i < bitrev (q + 1) i
      · obtain ⟨re2, hs1, hlen1, hget1⟩ := Swap_spec re1 i (bitrev (q + 1) i) (by omega) (by omega)
        have hR2 := RevUpTo_swap (q + 1) i hi' re re1 re2 hR hlt hget1
        cases dir with
        | FFT_FORWARD =>
          refine ⟨(bitrev (q + 1) (i + 1), re2, im1), ?_, rfl, hlen1.trans hl1, hl2, hR2,
            (by intro h; cases h), fun _ => hF rfl⟩
          simp [reverseBitsBody, hlt, hs1, shiftRight_two_pow_succ, hc, hmod]
        | FFT_REVERSE =>
          obtain ⟨im2, hs2, hlen2, hget2⟩ :=
            Swap_spec im1 i (bitrev (q + 1) i) (by omega) (by omega)
          have hI2 := RevUpTo_swap (q + 1) i hi' im im1 im2 (hI rfl) hlt hget2
          refine ⟨(bitrev (q + 1) (i + 1), re2, im2), ?_, rfl, hlen1.trans hl1,
            hlen2.trans hl2, hR2, fun _ => hI2, (by intro h; cases h)⟩
          simp [reverseBitsBody, hlt, hs1, hs2, shiftRight_two_pow_succ, hc, hmod]
      · refine ⟨(bitrev (q + 1) (i + 1), re1, im1), ?_, rfl, hl1, hl2,
          RevUpTo_keep (q + 1) i hi' re re1 hR hlt,
          fun h => RevUpTo_keep (q + 1) i hi' im im1 (hI h) hlt, hF⟩
        simp [reverseBitsBody, hlt, shiftRight_two_pow_succ, hc, hmod])
    (by
      refine ⟨?_, hre, him, ?_, ?_, fun _ => rfl⟩
      · exact (bitrev_zero p).symm
      · intro m _; simp
      · intro _ m _; simp)
  obtain ⟨j, re', im'⟩ := s'
  simp only [Nat.zero_add] at hj hl1 hl2 hR hI hF
  exact ⟨j, re', im', hs, hl1, hl2, fun m hm => RevUpTo_final p re re' hR m hm,
    fun h m hm => RevUpTo_final p im im' (hI h) m hm, hF⟩

theorem getD_set_eq {α : Type} (buf : List α) (i m : Nat) (v d : α) (hi : i < buf.length) :
    (buf.set i v).getD m d = if m = i then v else buf.getD m d := by
  simp only [List.getD_eq_getElem?_getD, List.getElem?_set]
  by_cases h : m = i
  · subst h; simp [hi]
  · simp [h, Ne.symm h]

theorem rd_getD {α : Type} (buf : List α) (i : Nat) (d : α) (h : i < buf.length) :
    rd buf i = some (buf.getD i d) := by
  simp [rd, List.getD_eq_getElem?_getD, List.getElem?_eq_getElem h]

theorem butterflyBody_spec (l1 l2 : Nat) (u1 u2 : ℝ) (i : Nat) (re im : List ℝ) (N : Nat)
    (hre : re.length = N) (him : im.length = N) (hl1 : 0 < l1) (hi1 : i + l1 < N)
    (hN : N ≤ 2 ^ 16) (hi2 : i + l2 < 2 ^ 16) :
    ∃ re' im', butterflyBody l1 l2 u1 u2 (i, re, im) = some (i + l2, re', im') ∧
      re'.length = N ∧ im'.length = N ∧
      ∀ m, cbuf re' im' m =
        if m = i then cbuf re im i + (⟨u1, u2⟩ : ℂ) * cbuf re im (i + l1)
        else if m = i + l1 then cbuf re im i - (⟨u1, u2⟩ : ℂ) * cbuf re im (i + l1)
        else cbuf re im m := by
  have hi : i < N := by omega
  have e1 : (i + l1) % 2 ^ 16 = i + l1 := Nat.mod_eq_of_lt (by omega)
  have e2 : (i + l2) % 2 ^ 16 = i + l2 := Nat.mod_eq_of_lt hi2
  have hne : i ≠ i + l1 := by omega
  refine ⟨(re.set (i + l1) (re.getD i 0 - (u1 * re.getD (i + l1) 0 - u2 * im.getD (i + l1) 0))).set i
      (re.getD i 0 + (u1 * re.getD (i + l1) 0 - u2 * im.getD (i + l1) 0)),
    (im.set (i + l1) (im.getD i 0 - (u1 * im.getD (i + l1) 0 + u2 * re.getD (i + l1) 0))).set i
      (im.getD i 0 + (u1 * im.getD (i + l1) 0 + u2 * re.getD (i + l1) 0)), ?_, by simpa using hre,
    by simpa using him, ?_⟩
  · unfold butterflyBody
    simp only [e1, e2]
    rw [rd_getD re (i + l1) 0 (by omega), rd_getD im (i + l1) 0 (by omega),
      rd_getD re i 0 (by omega), rd_getD im i 0 (by omega)]
    simp only [Option.some_bind, Option.bind_eq_bind]
    rw [wr_eq _ _ _ (by omega), wr_eq _ _ _ (by omega)]
    simp only [Option.some_bind, Option.bind_eq_bind]
    rw [rd_getD _ i 0 (by simp; omega), rd_getD _ i 0 (by simp; omega)]
    simp only [Option.some_bind, Option.bind_eq_bind]
    rw [wr_eq _ _ _ (by simp; omega), wr_eq _ _ _ (by simp; omega)]
    simp only [Option.some_bind, Option.bind_eq_bind]
    rw [getD_set_eq _ _ _ _ _ (by omega), getD_set_eq _ _ _ _ _ (by omega)]
    simp [hne]
  · intro m
    unfold cbuf
    rw [getD_set_eq _ _ _ _ _ (by simp; omega), getD_set_eq _ _ _ _ _ (by omega),
      getD_set_eq _ _ _ _ _ (by simp; omega), getD_set_eq _ _ _ _ _ (by omega)]
    by_cases hm : m = i
    · subst hm
      simp only [if_true]
      apply Complex.ext <;> simp [Complex.mul_re, Complex.mul_im]
    · by_cases hm1 : m = i + l1
      · subst hm1
        simp only [hm, if_false, if_true]
        apply Complex.ext <;> simp [Complex.mul_re, Complex.mul_im]
      · simp only [hm, hm1, if_false]

/-! ## Index arithmetic of one stage -/

theorem idx_low (l1 j t : Nat) (hj : j < l1) :
    (j + t * (2 * l1)) % l1 = j ∧ (j + t * (2 * l1)) / (2 * l1) = t ∧
      (j + t * (2 * l1)) % (2 * l1) = j := by
  refine ⟨?_, ?_, ?_⟩
  · have : j + t * (2 * l1) = j + l1 * (t * 2) := by ring
    rw [this, Nat.add_mul_mod_self_left, Nat.mod_eq_of_lt hj]
  · rw [Nat.add_mul_div_right _ _ (by omega), Nat.div_eq_of_lt (by omega)]; simp
  · rw [Nat.add_mul_mod_self_right, Nat.mod_eq_of_lt (by omega)]

theorem idx_high (l1 j t : Nat) (hj : j < l1) :
    (j + t * (2 * l1) + l1) % l1 = j ∧ (j + t * (2 * l1) + l1) / (2 * l1) = t ∧
      (j + t * (2 * l1) + l1) % (2 * l1) = j + l1 := by
  refine ⟨?_, ?_, ?_⟩
  · have : j + t * (2 * l1) + l1 = j + l1 * (t * 2 + 1) := by ring
    rw [this, Nat.add_mul_mod_self_left, Nat.mod_eq_of_lt hj]
  · have : j + t * (2 * l1) + l1 = (j + l1) + t * (2 * l1) := by ring
    rw [this, Nat.add_mul_div_right _ _ (by omega), Nat.div_eq_of_lt (by omega)]; simp
  · have : j + t * (2 * l1) + l1 = (j + l1) + t * (2 * l1) := by ring
    rw [this, Nat.add_mul_mod_self_right, Nat.mod_eq_of_lt (by omega)]

theorem idx_cases (l1 m : Nat) (hl1 : 0 < l1) :
    (m % (2 * l1) < l1 ∧ m % (2 * l1) = m % l1) ∨
    (l1 ≤ m % (2 * l1) ∧ m % (2 * l1) = m % l1 + l1) := by
  have h1 : m % (2 * l1) % l1 = m % l1 := Nat.mod_mul_left_mod m 2 l1
  have h2 : m % (2 * l1) < 2 * l1 := Nat.mod_lt _ (by omega)
  rw [← h1]
  generalize m % (2 * l1) = r at h2
  rcases Nat.lt_or_ge r l1 with h | h
  · left
    exact ⟨h, (Nat.mod_eq_of_lt h).symm⟩
  · right
    refine ⟨h, ?_⟩
    have h3 : (r - l1) % l1 = r - l1 := Nat.mod_eq_of_lt (by omega)
    rw [Nat.mod_eq_sub_mod h, h3]
    omega

theorem idx_split (l1 m : Nat) (hl1 : 0 < l1) :
    m = m % l1 + (m / (2 * l1)) * (2 * l1) ∨ m = m % l1 + (m / (2 * l1)) * (2 * l1) + l1 := by
  have h := Nat.div_add_mod m (2 * l1)
  rcases idx_cases l1 m hl1 with ⟨_, h2⟩ | ⟨_, h2⟩
  · left; rw [← h2]; nlinarith
  · right; rw [h2] at h; nlinarith

theorem butterflyLoop_spec (N l1 T : Nat) (hl1 : 0 < l1) (hN : N = T * (2 * l1))
    (hN15 : N ≤ 2 ^ 15) (u1 u2 : ℝ) (j : Nat) (hj : j < l1) (re im : List ℝ)
    (hre : re.length = N) (him : im.length = N) (fuel : Nat) (hfuel : T < fuel) :
    ∃ i re' im', butterflyLoop fuel N l1 (2 * l1) u1 u2 j re im = some (i, re', im') ∧
      re'.length = N ∧ im'.length = N ∧
      ∀ m, cbuf re' im' m =
        if m % l1 = j ∧ m < N then bfly (cbuf re im) ⟨u1, u2⟩ l1 m else cbuf re im m := by
  obtain ⟨s', hs, _, hl1', hl2', hZ⟩ := whileLoop_inv
    (fun (s : Nat × List ℝ × List ℝ) => decide (s.1 < N)) (butterflyBody l1 (2 * l1) u1 u2)
    (fun t s => s.1 = j + t * (2 * l1) ∧ s.2.1.length = N ∧ s.2.2.length = N ∧
      ∀ m, cbuf s.2.1 s.2.2 m =
        if m % l1 = j ∧ m / (2 * l1) < t then bfly (cbuf re im) ⟨u1, u2⟩ l1 m
        else cbuf re im m) T
    (by
      rintro t ⟨i, re1, im1⟩ ht ⟨hi, hr1, hm1, hZ⟩
      simp only at hi hr1 hm1 hZ
      subst hi
      have hle : (t + 1) * (2 * l1) ≤ T * (2 * l1) := Nat.mul_le_mul_right _ ht
      have hlt : j + t * (2 * l1) + l1 < N := by rw [hN]; nlinarith
      obtain ⟨hA1, hA2, hA3⟩ := idx_low l1 j t hj
      obtain ⟨hB1, hB2, hB3⟩ := idx_high l1 j t hj
      refine ⟨by simp; omega, ?_⟩
      obtain ⟨re2, im2, hb, hr2, hm2, hZ2⟩ := butterflyBody_spec l1 (2 * l1) u1 u2
        (j + t * (2 * l1)) re1 im1 N hr1 hm1 hl1 hlt (by omega) (by rw [hN] at hN15; nlinarith)
      refine ⟨_, hb, by simp only; ring, hr2, hm2, ?_⟩
      intro m
      simp only
      rw [hZ2 m]
      by_cases hmi : m = j + t * (2 * l1)
      · subst hmi
        rw [if_pos rfl, hZ, hZ, hA1, hA2, hB2, if_neg (by omega), if_neg (by omega),
          if_pos ⟨rfl, by omega⟩, bfly, hA3, if_pos hj]
      · rw [if_neg hmi]
        by_cases hmi1 : m = j + t * (2 * l1) + l1
        · subst hmi1
          rw [if_pos rfl, hZ, hZ, hA2, hB2, if_neg (by omega), if_neg (by omega), hB1,
            if_pos ⟨rfl, by omega⟩, bfly, hB3, if_neg (by omega), Nat.add_sub_cancel]
        · rw [if_neg hmi1, hZ m]
          by_cases hc : m % l1 = j ∧ m / (2 * l1) < t
          · rw [if_pos hc, if_pos ⟨hc.1, by omega⟩]
          · rw [if_neg hc, if_neg]
            rintro ⟨h1, h2⟩
            have h3 : m / (2 * l1) = t := by
              rcases Nat.lt_or_ge (m / (2 * l1)) t with h | h
              · exact absurd ⟨h1, h⟩ hc
              · omega
            rcases idx_split l1 m hl1 with h | h
            · rw [h1, h3] at h; exact hmi h
            · rw [h1, h3] at h; exact hmi1 h)
    (by
      rintro ⟨i, re1, im1⟩ ⟨hi, _⟩
      simp only at hi
      simp only [decide_eq_false_iff_not, not_lt]
      rw [hi, hN]; omega)
    fuel 0 (j, re, im) (Nat.zero_le _) ⟨by simp, hre, him, by intro m; simp⟩ (by omega)
  obtain ⟨i, re', im'⟩ := s'
  refine ⟨i, re', im', hs, hl1', hl2', ?_⟩
  intro m
  simp only at hZ
  rw [hZ m]
  have : m / (2 * l1) < T ↔ m < N := by
    rw [hN, Nat.div_lt_iff_lt_mul (by omega)]
  simp only [this]

theorem groupLoop_spec (N l1 T : Nat) (hl1 : 0 < l1) (hN : N = T * (2 * l1))
    (hN15 : N ≤ 2 ^ 15) (c1 c2 : ℝ) (re im : List ℝ)
    (hre : re.length = N) (him : im.length = N) (fuel : Nat) (hfuel : T < fuel) :
    ∃ u1 u2 re' im',
      forLoop (groupBody fuel N l1 (2 * l1) c1 c2) l1 0 (1, 0, re, im) = some (u1, u2, re', im') ∧
      re'.length = N ∧ im'.length = N ∧
      ∀ m, cbuf re' im' m =
        if m < N then bflyW (cbuf re im) ⟨c1, c2⟩ l1 m else cbuf re im m := by
  obtain ⟨s', hs, _, hl1', hl2', hZ⟩ := forLoop_inv (groupBody fuel N l1 (2 * l1) c1 c2)
    (fun j (s : ℝ × ℝ × List ℝ × List ℝ) =>
      (⟨s.1, s.2.1⟩ : ℂ) = (⟨c1, c2⟩ : ℂ) ^ j ∧ s.2.2.1.length = N ∧ s.2.2.2.length = N ∧
      ∀ m, cbuf s.2.2.1 s.2.2.2 m =
        if m % l1 < j ∧ m < N then bflyW (cbuf re im) ⟨c1, c2⟩ l1 m else cbuf re im m)
    l1 0 (1, 0, re, im)
    (by
      rintro j ⟨u1, u2, re1, im1⟩ _ hj ⟨hu, hr1, hm1, hZ⟩
      simp only at hu hr1 hm1 hZ
      have hj' : j < l1 := by omega
      obtain ⟨i, re2, im2, hb, hr2, hm2, hZ2⟩ := butterflyLoop_spec N l1 T hl1 hN hN15 u1 u2 j hj'
        re1 im1 hr1 hm1 fuel hfuel
      refine ⟨(u1 * c1 - u2 * c2, u1 * c2 + u2 * c1, re2, im2), ?_, ?_, hr2, hm2, ?_⟩
      · simp [groupBody, hb]
      · simp only
        rw [pow_succ, ← hu]
        apply Complex.ext <;> simp [Complex.mul_re, Complex.mul_im]
      · intro m
        simp only
        rw [hZ2 m]
        by_cases hc : m % l1 = j ∧ m < N
        · obtain ⟨hmj, hmN⟩ := hc
          rw [if_pos ⟨hmj, hmN⟩, if_pos ⟨by omega, hmN⟩, bfly, bflyW, hu, hmj]
          have e0 : cbuf re1 im1 m = cbuf re im m := by
            rw [hZ m, if_neg (by omega)]
          have e1 : cbuf re1 im1 (m + l1) = cbuf re im (m + l1) := by
            rw [hZ (m + l1), if_neg]
            rw [Nat.add_mod_right]; omega
          by_cases hlow : m % (2 * l1) < l1
          · rw [if_pos hlow, if_pos hlow, e0, e1]
          · rw [if_neg hlow, if_neg hlow, e0]
            have hge : l1 ≤ m := by
              by_contra h
              apply hlow
              rw [Nat.mod_eq_of_lt (by omega)]; omega
            have e2 : cbuf re1 im1 (m - l1) = cbuf re im (m - l1) := by
              rw [hZ (m - l1), if_neg]
              have : (m - l1) % l1 = m % l1 := (Nat.mod_eq_sub_mod hge).symm
              rw [this]; omega
            rw [e2]
        · rw [if_neg hc, hZ m]
          by_cases hc2 : m % l1 < j ∧ m < N
          · rw [if_pos hc2, if_pos ⟨by omega, hc2.2⟩]
          · rw [if_neg hc2, if_neg]
            rintro ⟨h1, h2⟩
            rcases Nat.lt_or_ge (m % l1) j with h | h
            · exact hc2 ⟨h, h2⟩
            · exact hc ⟨by omega, h2⟩)
    ⟨by simp; rfl, hre, him, by intro m; simp⟩
  obtain ⟨u1, u2, re', im'⟩ := s'
  refine ⟨u1, u2, re', im', hs, hl1', hl2', ?_⟩
  intro m
  simp only at hZ
  rw [hZ m]
  have : m % l1 < 0 + l1 := by rw [Nat.zero_add]; exact Nat.mod_lt _ hl1
  simp only [this, true_and]

theorem sum_range_even_odd (f : Nat → ℂ) (L : Nat) :
    ∑ n in range (2 * L), f n = ∑ n in range L, f (2 * n) + ∑ n in range L, f (2 * n + 1) := by
  induction L with
  | zero => simp
  | succ L ih =>
    have : 2 * (L + 1) = 2 * L + 1 + 1 := by ring
    rw [this, sum_range_succ, sum_range_succ, ih, sum_range_succ, sum_range_succ]
    ring

theorem divmod_of_eq (m L q r : Nat) (hr : r < L) (h : m = q * L + r) :
    m / L = q ∧ m % L = r := by
  have hL : 0 < L := by omega
  rw [Nat.div_mod_unique hL]
  exact ⟨by rw [h]; ring, hr⟩

theorem blockDFT_succ (ρ : Nat → ℂ) (l : Nat) (hρ2 : ρ (l + 1) ^ 2 = ρ l)
    (hρL : ρ (l + 1) ^ (2 ^ l) = -1) (Z : Nat → ℂ) (m : Nat) :
    bflyW (blockDFT ρ Z l) (ρ (l + 1)) (2 ^ l) m = blockDFT ρ Z (l + 1) m := by
  have hL : 0 < 2 ^ l := by positivity
  have hρ1 : ρ l ^ (2 ^ l) = 1 := by
    rw [← hρ2, ← pow_mul, mul_comm, pow_mul, hρL]; norm_num
  have hdm := Nat.div_add_mod m (2 * 2 ^ l)
  have h2L : (2 : ℕ) ^ (l + 1) = 2 * 2 ^ l := by ring
  set L := 2 ^ l with hLdef
  set b := m / (2 * L) with hb
  set k := m % L with hk
  have hkL : k < L := Nat.mod_lt _ hL
  unfold bflyW
  rcases idx_cases L m hL with ⟨hlow, hmod⟩ | ⟨hhigh, hmod⟩
  · rw [if_pos hlow]
    rw [← hk] at hmod
    have hm : m = (2 * b) * L + k := by rw [← hmod]; nlinarith
    have hm1 : m + L = (2 * b + 1) * L + k := by rw [hm]; ring
    obtain ⟨d0, r0⟩ := divmod_of_eq m L (2 * b) k hkL hm
    obtain ⟨d1, r1⟩ := divmod_of_eq (m + L) L (2 * b + 1) k hkL hm1
    simp only [blockDFT, ← hLdef, d0, d1, r1, h2L, ← hb, hmod]
    rw [sum_range_even_odd, mul_sum]
    congr 1
    · apply sum_congr rfl
      intro n _
      rw [bitrev_even, ← hρ2, ← pow_mul]
      congr 2 <;> ring
    · apply sum_congr rfl
      intro n _
      rw [bitrev_odd, ← hρ2, ← pow_mul, ← hLdef]
      have e : k * (2 * n + 1) = 2 * (k * n) + k := by ring
      rw [e, pow_add]
      have e2 : b * (2 * L) + (L + bitrev l n) = (2 * b + 1) * L + bitrev l n := by ring
      rw [e2]; ring
  · rw [if_neg (by omega)]
    rw [← hk] at hmod
    have hm : m = (2 * b + 1) * L + k := by
      have : m % (2 * L) = k + L := hmod
      rw [this] at hdm; nlinarith
    have hge : L ≤ m := by rw [hm]; nlinarith
    have hm1 : m - L = (2 * b) * L + k := by
      have : m = (2 * b) * L + k + L := by rw [hm]; ring
      omega
    obtain ⟨d0, r0⟩ := divmod_of_eq m L (2 * b + 1) k hkL hm
    obtain ⟨d1, r1⟩ := divmod_of_eq (m - L) L (2 * b) k hkL hm1
    simp only [blockDFT, ← hLdef, d0, d1, r1, h2L, ← hb, hmod]
    rw [sum_range_even_odd, mul_sum, sub_eq_add_neg, ← sum_neg_distrib]
    congr 1
    · apply sum_congr rfl
      intro n _
      rw [bitrev_even, ← hρ2, ← pow_mul]
      have e : (k + L) * (2 * n) = 2 * (k * n) + (L * n) * 2 := by ring
      have e3 : ρ (l + 1) ^ (L * n * 2) = 1 := by
        rw [pow_mul, pow_mul, hρL, ← pow_mul, mul_comm n 2, pow_mul]; norm_num
      rw [e, pow_add, e3]
      congr 2 <;> ring
    · apply sum_congr rfl
      intro n _
      rw [bitrev_odd, ← hρ2, ← pow_mul, ← hLdef]
      have e : (k + L) * (2 * n + 1) = 2 * (k * n) + k + L + (L * n) * 2 := by ring
      have e3 : ρ (l + 1) ^ (L * n * 2) = 1 := by
        rw [pow_mul, pow_mul, hρL, ← pow_mul, mul_comm n 2, pow_mul]; norm_num
      rw [e, pow_add, pow_add, pow_add, e3, hρL]
      have e2 : b * (2 * L) + (L + bitrev l n) = (2 * b + 1) * L + bitrev l n := by ring
      rw [e2]; ring

theorem dirSign_sq (dir : Direction) : ((dirSign dir : ℤ) : ℂ) ^ 2 = 1 := by
  cases dir <;> simp [dirSign]

theorem root_sq (dir : Direction) (l : Nat) :
    Complex.exp ((dirSign dir : ℂ) * (2 * Real.pi * Complex.I) / 2 ^ (l + 1)) ^ 2 =
      Complex.exp ((dirSign dir : ℂ) * (2 * Real.pi * Complex.I) / 2 ^ l) := by
  rw [← Complex.exp_nat_mul]
  congr 1
  have : (2 : ℂ) ^ l ≠ 0 := pow_ne_zero _ two_ne_zero
  field_simp
  ring

theorem root_half (dir : Direction) (l : Nat) :
    Complex.exp ((dirSign dir : ℂ) * (2 * Real.pi * Complex.I) / 2 ^ (l + 1)) ^ (2 ^ l) = -1 := by
  rw [← Complex.exp_nat_mul]
  have h2 : (2 : ℂ) ^ l ≠ 0 := pow_ne_zero _ two_ne_zero
  have : ((2 ^ l : ℕ) : ℂ) * ((dirSign dir : ℂ) * (2 * Real.pi * Complex.I) / 2 ^ (l + 1)) =
      (dirSign dir : ℂ) * (Real.pi * Complex.I) := by
    push_cast
    field_simp
    ring
  rw [this]
  cases dir
  · simp [dirSign, Complex.exp_neg, Complex.exp_pi_mul_I]
    norm_num
  · simp [dirSign, Complex.exp_pi_mul_I]

theorem twiddle_eq (dir : Direction) (l : Nat) :
    (⟨Real.cos (Real.pi / 2 ^ l), (dirSign dir : ℝ) * Real.sin (Real.pi / 2 ^ l)⟩ : ℂ) =
      Complex.exp ((dirSign dir : ℂ) * (2 * Real.pi * Complex.I) / 2 ^ (l + 1)) := by
  have h2 : (2 : ℂ) ^ l ≠ 0 := pow_ne_zero _ two_ne_zero
  have e : (dirSign dir : ℂ) * (2 * Real.pi * Complex.I) / 2 ^ (l + 1) =
      (((dirSign dir : ℝ) * (Real.pi / 2 ^ l) : ℝ) : ℂ) * Complex.I := by
    push_cast
    field_simp
    ring
  rw [e]
  apply Complex.ext
  · rw [Complex.exp_ofReal_mul_I_re]
    cases dir <;> simp [dirSign]
  · rw [Complex.exp_ofReal_mul_I_im]
    cases dir <;> simp [dirSign]

theorem cos_half_step (l : Nat) :
    Real.sqrt ((1 + Real.cos (Real.pi / 2 ^ l)) / 2) = Real.cos (Real.pi / 2 ^ (l + 1)) := by
  have hpos : (0 : ℝ) < 2 ^ l := by positivity
  have hle : Real.pi / 2 ^ l ≤ Real.pi := div_le_self Real.pi_pos.le (one_le_pow₀ (by norm_num))
  have h0 : 0 ≤ Real.pi / 2 ^ l := div_nonneg Real.pi_pos.le hpos.le
  have e : Real.pi / 2 ^ (l + 1) = Real.pi / 2 ^ l / 2 := by rw [pow_succ]; field_simp
  rw [e, Real.cos_half (by linarith [Real.pi_pos]) hle]

theorem sin_half_step (l : Nat) :
    Real.sqrt ((1 - Real.cos (Real.pi / 2 ^ l)) / 2) = Real.sin (Real.pi / 2 ^ (l + 1)) := by
  have hpos : (0 : ℝ) < 2 ^ l := by positivity
  have hle : Real.pi / 2 ^ l ≤ Real.pi := div_le_self Real.pi_pos.le (one_le_pow₀ (by norm_num))
  have h0 : 0 ≤ Real.pi / 2 ^ l := div_nonneg Real.pi_pos.le hpos.le
  have e : Real.pi / 2 ^ (l + 1) = Real.pi / 2 ^ l / 2 := by rw [pow_succ]; field_simp
  rw [e, Real.sin_half_eq_sqrt h0 (by linarith [Real.pi_pos])]

theorem bflyW_congr (Z Z' : Nat → ℂ) (W : ℂ) (N l1 T : Nat) (hl1 : 0 < l1)
    (hN : N = T * (2 * l1)) (h : ∀ m, m < N → Z m = Z' m) (m : Nat) (hm : m < N) :
    bflyW Z W l1 m = bflyW Z' W l1 m := by
  unfold bflyW
  by_cases hlow : m % (2 * l1) < l1
  · have hq : m / (2 * l1) < T := by
      rw [Nat.div_lt_iff_lt_mul (by omega)]; rw [← hN]; exact hm
    have hdm := Nat.div_add_mod m (2 * l1)
    have hle : (m / (2 * l1) + 1) * (2 * l1) ≤ T * (2 * l1) := Nat.mul_le_mul_right _ hq
    have hm1 : m + l1 < N := by rw [hN]; nlinarith
    rw [if_pos hlow, if_pos hlow, h m hm, h _ hm1]
  · rw [if_neg hlow, if_neg hlow, h m hm, h _ (by omega)]

theorem blockDFT_zero (ρ : Nat → ℂ) (Z : Nat → ℂ) (m : Nat) : blockDFT ρ Z 0 m = Z m := by
  simp [blockDFT, bitrev]

theorem stageLoop_spec (p : Nat) (hp : p ≤ 15) (dir : Direction) (re im : List ℝ)
    (hre : re.length = 2 ^ p) (him : im.length = 2 ^ p) (fuel : Nat) (hfuel : 2 ^ p ≤ fuel) :
    ∃ c1 c2 l2 re' im',
      forLoop (stageBody Real.sqrt fuel dir (2 ^ p)) p 0 (-1, 0, 1, re, im) =
        some (c1, c2, l2, re', im') ∧
      re'.length = 2 ^ p ∧ im'.length = 2 ^ p ∧
      ∀ m, m < 2 ^ p → cbuf re' im' m =
        blockDFT (fun l => Complex.exp ((dirSign dir : ℂ) * (2 * Real.pi * Complex.I) / 2 ^ l))
          (cbuf re im) p m := by
  have hN : 2 ^ p ≤ 2 ^ 15 := Nat.pow_le_pow_right (by norm_num) hp
  obtain ⟨s', hs, _, _, _, hl1', hl2', hZ⟩ := forLoop_inv (stageBody Real.sqrt fuel dir (2 ^ p))
    (fun l (s : ℝ × ℝ × Nat × List ℝ × List ℝ) =>
      s.1 = Real.cos (Real.pi / 2 ^ l) ∧ s.2.1 = (dirSign dir : ℝ) * Real.sin (Real.pi / 2 ^ l) ∧
      s.2.2.1 = 2 ^ l ∧ s.2.2.2.1.length = 2 ^ p ∧ s.2.2.2.2.length = 2 ^ p ∧
      ∀ m, m < 2 ^ p → cbuf s.2.2.2.1 s.2.2.2.2 m =
        blockDFT (fun l => Complex.exp ((dirSign dir : ℂ) * (2 * Real.pi * Complex.I) / 2 ^ l))
          (cbuf re im) l m)
    p 0 (-1, 0, 1, re, im)
    (by
      rintro l ⟨c1, c2, l1, re1, im1⟩ _ hl ⟨hc1, hc2, hl1, hr1, hm1, hZ⟩
      simp only at hc1 hc2 hl1 hr1 hm1 hZ
      subst hl1
      have hlp : l < p := by omega
      have hpos : 0 < 2 ^ l := by positivity
      have hsplit : 2 ^ p = 2 ^ (p - l - 1) * (2 * 2 ^ l) := by
        rw [← pow_succ', ← pow_add]; congr 1; omega
      have hT : 2 ^ (p - l - 1) < fuel := by
        have : 2 ^ (p - l - 1) < 2 ^ p := Nat.pow_lt_pow_right (by norm_num) (by omega)
        omega
      have hl2 : (2 ^ l <<< 1) % 2 ^ 16 = 2 * 2 ^ l := by
        rw [Nat.shiftLeft_eq, pow_one, mul_comm]
        apply Nat.mod_eq_of_lt
        have : 2 * 2 ^ l ≤ 2 ^ p := by rw [hsplit]; exact Nat.le_mul_of_pos_left _ (by positivity)
        omega
      obtain ⟨u1, u2, re2, im2, hg, hr2, hm2, hZ2⟩ := groupLoop_spec (2 ^ p) (2 ^ l)
        (2 ^ (p - l - 1)) hpos hsplit hN c1 c2 re1 im1 hr1 hm1 fuel hT
      refine ⟨(Real.sqrt ((1 + c1) / 2),
        (if dir = Direction.FFT_FORWARD then -Real.sqrt ((1 - c1) / 2) else Real.sqrt ((1 - c1) / 2)),
        2 * 2 ^ l, re2, im2), ?_, ?_, ?_, by simp only; ring, hr2, hm2, ?_⟩
      · simp only [stageBody, hl2, hg, Option.some_bind, Option.bind_eq_bind]
      · simp only; rw [hc1, cos_half_step]
      · simp only; rw [hc1, sin_half_step]
        cases dir <;> simp [dirSign]
      · intro m hm
        simp only
        rw [hZ2 m, if_pos hm,
          bflyW_congr _ _ _ (2 ^ p) (2 ^ l) (2 ^ (p - l - 1)) hpos hsplit hZ m hm]
        have hW : (⟨c1, c2⟩ : ℂ) =
            Complex.exp ((dirSign dir : ℂ) * (2 * Real.pi * Complex.I) / 2 ^ (l + 1)) := by
          rw [hc1, hc2]; exact twiddle_eq dir l
        rw [hW]
        exact blockDFT_succ
          (fun l => Complex.exp ((dirSign dir : ℂ) * (2 * Real.pi * Complex.I) / 2 ^ l)) l
          (root_sq dir l) (root_half dir l) (cbuf re im) m)
    ⟨by simp, by simp, by simp, hre, him, fun m _ => (blockDFT_zero _ _ m).symm⟩
  obtain ⟨c1, c2, l2, re', im'⟩ := s'
  refine ⟨c1, c2, l2, re', im', hs, hl1', hl2', ?_⟩
  intro m hm
  have := hZ m hm
  simp only [Nat.zero_add] at this
  exact this

theorem scaleLoop_spec (N : Nat) (re im : List ℝ) (hre : re.length = N) (him : im.length = N) :
    ∃ re' im', forLoop (scaleBody N) N 0 (re, im) = some (re', im') ∧
      re'.length = N ∧ im'.length = N ∧
      ∀ m, m < N → cbuf re' im' m = cbuf re im m / (N : ℂ) := by
  obtain ⟨s', hs, hl1, hl2, hZ⟩ := forLoop_inv (scaleBody (α := ℝ) N)
    (fun i (s : List ℝ × List ℝ) => s.1.length = N ∧ s.2.length = N ∧
      ∀ m, cbuf s.1 s.2 m = if m < i then cbuf re im m / (N : ℂ) else cbuf re im m)
    N 0 (re, im)
    (by
      rintro i ⟨re1, im1⟩ _ hi ⟨hr1, hm1, hZ⟩
      simp only at hr1 hm1 hZ
      have hi' : i < N := by omega
      refine ⟨(re1.set i (re1.getD i 0 / (N : ℝ)), im1.set i (im1.getD i 0 / (N : ℝ))), ?_,
        by simpa using hr1, by simpa using hm1, ?_⟩
      · simp [scaleBody, rd_getD re1 i 0 (by omega), rd_getD im1 i 0 (by omega), wr, hr1, hm1, hi']
      · intro m
        simp only
        by_cases hmi : m = i
        · subst hmi
          have h := hZ m
          rw [if_neg (by omega)] at h
          rw [if_pos (by omega), ← h]
          unfold cbuf
          rw [getD_set_eq _ _ _ _ _ (by omega), getD_set_eq _ _ _ _ _ (by omega), if_pos rfl,
            if_pos rfl]
          apply Complex.ext
          · simp [Complex.div_natCast_re]
          · simp [Complex.div_natCast_im]
        · have h := hZ m
          unfold cbuf at h ⊢
          rw [getD_set_eq _ _ _ _ _ (by omega), getD_set_eq _ _ _ _ _ (by omega), if_neg hmi,
            if_neg hmi, h]
          by_cases hlt : m < i
          · rw [if_pos hlt, if_pos (by omega)]
          · rw [if_neg hlt, if_neg (by omega)])
    ⟨hre, him, by intro m; simp⟩
  obtain ⟨re', im'⟩ := s'
  refine ⟨re', im', hs, hl1, hl2, ?_⟩
  intro m hm
  have := hZ m
  simp only [Nat.zero_add, hm, if_true] at this
  exact this

theorem FFT_Compute_cbuf (p : Nat) (hp : p ≤ 15) (dir : Direction) (re im : List ℝ) (fs : ℝ)
    (hre : re.length = 2 ^ p) (him : im.length = 2 ^ p) (fuel : Nat) (hfuel : 2 ^ p ≤ fuel) :
    ∃ re' im',
      FFT_Compute Real.sqrt fuel dir
          { _vReal := re, _vImag := im, _samples := 2 ^ p, _samplingFrequency := fs, _power := p } =
        some { _vReal := re', _vImag := im', _samples := 2 ^ p, _samplingFrequency := fs,
               _power := p } ∧
      re'.length = 2 ^ p ∧ im'.length = 2 ^ p ∧
      ∀ k, k < 2 ^ p → cbuf re' im' k =
        (∑ n in range (2 ^ p), inputOf dir p re im n *
          Complex.exp ((dirSign dir : ℂ) * (2 * Real.pi * Complex.I) / 2 ^ p) ^ (k * n)) /
          (if dir = Direction.FFT_FORWARD then 1 else ((2 ^ p : ℕ) : ℂ)) := by
  have hpf : p ≤ fuel := le_trans (Nat.lt_two_pow p).le hfuel
  obtain ⟨j, re1, im1, hrev, hr1, hm1, hR, hI, hF⟩ :=
    reverseBits_spec p hp dir re im hre him fuel hpf
  obtain ⟨c1, c2, l2, re2, im2, hst, hr2, hm2, hZ⟩ :=
    stageLoop_spec p hp dir re1 im1 hr1 hm1 fuel hfuel
  have hin : ∀ n, n < 2 ^ p → cbuf re1 im1 (bitrev p n) = inputOf dir p re im n := by
    intro n hn
    have hb := bitrev_lt p n
    unfold cbuf inputOf
    have e1 : re1.getD (bitrev p n) 0 = re.getD n 0 := by
      rw [List.getD_eq_getElem?_getD, hR _ hb, bitrev_bitrev p n hn, List.getD_eq_getElem?_getD]
    rw [e1]
    cases dir with
    | FFT_FORWARD =>
      rw [hF rfl]; simp
    | FFT_REVERSE =>
      have e2 : im1.getD (bitrev p n) 0 = im.getD n 0 := by
        rw [List.getD_eq_getElem?_getD, hI rfl _ hb, bitrev_bitrev p n hn,
          List.getD_eq_getElem?_getD]
      rw [e2]; simp
  have hsum : ∀ k, k < 2 ^ p → cbuf re2 im2 k =
      ∑ n in range (2 ^ p), inputOf dir p re im n *
        Complex.exp ((dirSign dir : ℂ) * (2 * Real.pi * Complex.I) / 2 ^ p) ^ (k * n) := by
    intro k hk
    rw [hZ k hk, blockDFT]
    apply sum_congr rfl
    intro n hn
    rw [Nat.div_eq_of_lt hk, Nat.mod_eq_of_lt hk, Nat.zero_mul, Nat.zero_add,
      hin n (mem_range.1 hn)]
  cases dir with
  | FFT_FORWARD =>
    refine ⟨re2, im2, ?_, hr2, hm2, ?_⟩
    · simp [FFT_Compute, hrev, hst]
    · intro k hk
      rw [hsum k hk]; simp
  | FFT_REVERSE =>
    obtain ⟨re3, im3, hsc, hr3, hm3, hZ3⟩ := scaleLoop_spec (2 ^ p) re2 im2 hr2 hm2
    refine ⟨re3, im3, ?_, hr3, hm3, ?_⟩
    · simp [FFT_Compute, hrev, hst, hsc]
    · intro k hk
      rw [hZ3 k hk, hsum k hk]; simp

/-! ## From the root of unity to the exponential of the claims -/

theorem root_pow_forward (p k n : Nat) :
    Complex.exp ((dirSign Direction.FFT_FORWARD : ℂ) * (2 * Real.pi * Complex.I) / 2 ^ p) ^ (k * n) =
      Complex.exp (-2 * Real.pi * Complex.I * k * n / 2 ^ p) := by
  rw [← Complex.exp_nat_mul]
  congr 1
  simp only [dirSign, if_true]
  push_cast
  ring

theorem root_pow_reverse (p k n : Nat) :
    Complex.exp ((dirSign Direction.FFT_REVERSE : ℂ) * (2 * Real.pi * Complex.I) / 2 ^ p) ^ (k * n) =
      Complex.exp (2 * Real.pi * Complex.I * k * n / 2 ^ p) := by
  rw [← Complex.exp_nat_mul]
  congr 1
  simp [dirSign]
  ring

theorem cbuf_get (re im : List ℝ) (N k : Nat) (hre : re.length = N) (him : im.length = N)
    (hk : k < N) (z : ℂ) (h : cbuf re im k = z) : re[k]? = some z.re ∧ im[k]? = some z.im := by
  subst h
  have h1 : k < re.length := by omega
  have h2 : k < im.length := by omega
  simp [cbuf, List.getD_eq_getElem?_getD, List.getElem?_eq_getElem h1,
    List.getElem?_eq_getElem h2]

theorem FFT_Init_two_pow {α : Type} (p : Nat) (hp : p ≤ 15) (re im : List α) (fs : α)
    (fuel : Nat) (hfuel : p < fuel) :
    FFT_Init fuel re im (2 ^ p) fs =
      some { _vReal := re, _vImag := im, _samples := 2 ^ p, _samplingFrequency := fs,
             _power := p } := by
  simp [FFT_Init, Exponent_two_pow p hp fuel hfuel]

/-! ## Inversion of the discrete Fourier transform -/

theorem geom_root_sum (ζ : ℂ) (N : Nat) (hζ : IsPrimitiveRoot ζ N) (k m : Nat)
    (hk : k < N) (hm : m < N) :
    ∑ n in range N, (ζ ^ k * (ζ⁻¹) ^ m) ^ n = if k = m then (N : ℂ) else 0 := by
  have hN : 0 < N := by omega
  have hζ0 : ζ ≠ 0 := hζ.ne_zero (by omega)
  by_cases hkm : k = m
  · subst hkm
    rw [if_pos rfl]
    have : ζ ^ k * (ζ⁻¹) ^ k = 1 := by
      rw [← mul_pow, mul_inv_cancel₀ hζ0, one_pow]
    rw [this]
    simp
  · rw [if_neg hkm]
    have hq1 : ζ ^ k * (ζ⁻¹) ^ m ≠ 1 := by
      intro h
      apply hkm
      apply hζ.pow_inj hk hm
      have hm0 : ζ ^ m ≠ 0 := pow_ne_zero _ hζ0
      rw [inv_pow] at h
      field_simp at h
      exact h
    have hqN : (ζ ^ k * (ζ⁻¹) ^ m) ^ N = 1 := by
      rw [mul_pow, ← pow_mul, ← pow_mul, mul_comm k, mul_comm m, pow_mul, pow_mul, inv_pow,
        hζ.pow_eq_one]
      simp
    have h := geom_sum_mul (ζ ^ k * (ζ⁻¹) ^ m) N
    rw [hqN, sub_self] at h
    rcases mul_eq_zero.1 h with h | h
    · exact h
    · exact absurd (sub_eq_zero.1 h) hq1

theorem dft_inversion (ζ : ℂ) (N : Nat) (hζ : IsPrimitiveRoot ζ N) (z : Nat → ℂ) (k : Nat)
    (hk : k < N) :
    ∑ n in range N, (∑ m in range N, z m * (ζ⁻¹) ^ (n * m)) * ζ ^ (k * n) = (N : ℂ) * z k := by
  have h1 : ∀ n, (∑ m in range N, z m * (ζ⁻¹) ^ (n * m)) * ζ ^ (k * n) =
      ∑ m in range N, z m * (ζ ^ k * (ζ⁻¹) ^ m) ^ n := by
    intro n
    rw [sum_mul]
    apply sum_congr rfl
    intro m _
    rw [mul_pow, ← pow_mul, ← pow_mul, mul_comm m n]
    ring
  simp only [h1]
  rw [sum_comm]
  have h2 : ∀ m ∈ range N, ∑ n in range N, z m * (ζ ^ k * (ζ⁻¹) ^ m) ^ n =
      if k = m then (N : ℂ) * z m else 0 := by
    intro m hm
    rw [← mul_sum, geom_root_sum ζ N hζ k m hk (mem_range.1 hm)]
    split_ifs <;> ring
  rw [sum_congr rfl h2, sum_ite_eq (range N) k]
  simp [hk]

theorem forward_root_inv (p : Nat) :
    Complex.exp ((dirSign Direction.FFT_FORWARD : ℂ) * (2 * Real.pi * Complex.I) / 2 ^ p) =
      (Complex.exp ((dirSign Direction.FFT_REVERSE : ℂ) * (2 * Real.pi * Complex.I) / 2 ^ p))⁻¹ := by
  rw [← Complex.exp_neg]
  congr 1
  simp [dirSign]
  ring

theorem reverse_root_primitive (p : Nat) :
    IsPrimitiveRoot
      (Complex.exp ((dirSign Direction.FFT_REVERSE : ℂ) * (2 * Real.pi * Complex.I) / 2 ^ p))
      (2 ^ p) := by
  have h := Complex.isPrimitiveRoot_exp (2 ^ p) (by positivity)
  have e : (dirSign Direction.FFT_REVERSE : ℂ) * (2 * Real.pi * Complex.I) / 2 ^ p =
      2 * Real.pi * Complex.I / ((2 ^ p : ℕ) : ℂ) := by
    simp [dirSign]
  rw [e]
  exact h

theorem inputOf_forward_zero (p : Nat) (x : List ℝ) (n : Nat) :
    inputOf Direction.FFT_FORWARD p x (List.replicate (2 ^ p) 0) n = ((x.getD n 0 : ℝ) : ℂ) := by
  apply Complex.ext
  · simp [inputOf]
  · simp only [inputOf, List.getD_eq_getElem?_getD, List.getElem?_replicate]
    split_ifs <;> simp

theorem inputOf_reverse (p : Nat) (re im : List ℝ) (n : Nat) :
    inputOf Direction.FFT_REVERSE p re im n = cbuf re im n := by
  simp [inputOf, cbuf]

theorem quarter_root : Complex.exp (-2 * Real.pi * Complex.I * ((1 : ℕ) : ℂ) * ((1 : ℕ) : ℂ) / 2 ^ 2) =
    -Complex.I := by
  have h := twiddle_eq Direction.FFT_FORWARD 1
  have e : -2 * Real.pi * Complex.I * ((1 : ℕ) : ℂ) * ((1 : ℕ) : ℂ) / 2 ^ 2 =
      (dirSign Direction.FFT_FORWARD : ℂ) * (2 * Real.pi * Complex.I) / 2 ^ (1 + 1) := by
    simp [dirSign]
  rw [e, ← h]
  apply Complex.ext <;> simp [dirSign]

theorem bitrev_testBit (p : Nat) : ∀ (i b : Nat), b < p →
    (bitrev p i).testBit b = i.testBit (p - 1 - b) := by
  induction p with
  | zero => intro i b hb; omega
  | succ p ih =>
    intro i b hb
    have hlt := bitrev_lt p (i / 2)
    rw [bitrev_succ, mul_comm, Nat.testBit_mul_pow_two_add _ hlt]
    by_cases hbp : b < p
    · rw [if_pos hbp, ih (i / 2) b hbp, Nat.testBit_div_two]
      congr 1; omega
    · have : b = p := by omega
      subst this
      rw [if_neg hbp]
      simp only [Nat.sub_self, Nat.add_sub_cancel]
      rw [Nat.testBit_zero, Nat.testBit_zero]
      simp

theorem windowBody_spec {α : Type} [Field α] [DecidableEq α] (cos abs : α → α)
    (twoPi fourPi : α) (windowType : WindowType) (dir : Direction) (N i : Nat) (re : List α)
    (hre : re.length = N) (hi : i < N >>> 1)
    (hw : dir = Direction.FFT_REVERSE →
      weighingFactor cos abs twoPi fourPi windowType N i ≠ 0) :
    ∃ re', windowBody cos abs twoPi fourPi windowType dir N i re = some re' ∧ re'.length = N ∧
      ∀ m, re'.getD m 0 =
        if m = i ∨ m = N - (i + 1) then
          windowOp dir (re.getD m 0) (weighingFactor cos abs twoPi fourPi windowType N i)
        else re.getD m 0 := by
  have hi2 : 2 * i + 2 ≤ N := by
    rw [Nat.shiftRight_eq_div_pow] at hi
    simp only [pow_one] at hi
    omega
  have hne : i ≠ N - (i + 1) := by omega
  cases dir with
  | FFT_FORWARD =>
    refine ⟨(re.set i (re.getD i 0 * weighingFactor cos abs twoPi fourPi windowType N i)).set
      (N - (i + 1)) (re.getD (N - (i + 1)) 0 * weighingFactor cos abs twoPi fourPi windowType N i),
      ?_, by simpa using hre, ?_⟩
    · unfold windowBody
      simp only [if_true]
      rw [rd_getD re i 0 (by omega)]
      simp only [Option.some_bind, Option.bind_eq_bind]
      rw [wr_eq _ _ _ (by omega)]
      simp only [Option.some_bind, Option.bind_eq_bind]
      rw [rd_getD _ (N - (i + 1)) 0 (by simp; omega)]
      simp only [Option.some_bind, Option.bind_eq_bind]
      rw [wr_eq _ _ _ (by simp; omega), getD_set_eq _ _ _ _ _ (by omega), if_neg (Ne.symm hne)]
    · intro m
      rw [getD_set_eq _ _ _ _ _ (by simp; omega), getD_set_eq _ _ _ _ _ (by omega)]
      by_cases h1 : m = N - (i + 1)
      · rw [if_pos h1, if_pos (Or.inr h1), h1]; simp [windowOp]
      · rw [if_neg h1]
        by_cases h2 : m = i
        · rw [if_pos h2, if_pos (Or.inl h2), h2]; simp [windowOp]
        · rw [if_neg h2, if_neg (by tauto)]
  | FFT_REVERSE =>
    refine ⟨(re.set i (re.getD i 0 / weighingFactor cos abs twoPi fourPi windowType N i)).set
      (N - (i + 1)) (re.getD (N - (i + 1)) 0 / weighingFactor cos abs twoPi fourPi windowType N i),
      ?_, by simpa using hre, ?_⟩
    · unfold windowBody
      have hd : ¬ (Direction.FFT_REVERSE = Direction.FFT_FORWARD) := by decide
      simp only [hd, if_false, divide, if_neg (hw rfl)]
      rw [rd_getD re i 0 (by omega)]
      simp only [Option.some_bind, Option.bind_eq_bind]
      rw [wr_eq _ _ _ (by omega)]
      simp only [Option.some_bind, Option.bind_eq_bind]
      rw [rd_getD _ (N - (i + 1)) 0 (by simp; omega)]
      simp only [Option.some_bind, Option.bind_eq_bind]
      rw [wr_eq _ _ _ (by simp; omega), getD_set_eq _ _ _ _ _ (by omega), if_neg (Ne.symm hne)]
    · intro m
      rw [getD_set_eq _ _ _ _ _ (by simp; omega), getD_set_eq _ _ _ _ _ (by omega)]
      by_cases h1 : m = N - (i + 1)
      · rw [if_pos h1, if_pos (Or.inr h1), h1]; simp [windowOp]
      · rw [if_neg h1]
        by_cases h2 : m = i
        · rw [if_pos h2, if_pos (Or.inl h2), h2]; simp [windowOp]
        · rw [if_neg h2, if_neg (by tauto)]

theorem windowLoop_spec {α : Type} [Field α] [DecidableEq α] (cos abs : α → α)
    (twoPi fourPi : α) (windowType : WindowType) (dir : Direction) (N : Nat) (re : List α)
    (hre : re.length = N)
    (hw : dir = Direction.FFT_REVERSE → ∀ i, i < N >>> 1 →
      weighingFactor cos abs twoPi fourPi windowType N i ≠ 0) :
    ∃ re', forLoop (windowBody cos abs twoPi fourPi windowType dir N) (N >>> 1) 0 re = some re' ∧
      re'.length = N ∧
      ∀ m, re'.getD m 0 =
        if m < N >>> 1 then
          windowOp dir (re.getD m 0) (weighingFactor cos abs twoPi fourPi windowType N m)
        else if N - N >>> 1 ≤ m ∧ m < N then
          windowOp dir (re.getD m 0) (weighingFactor cos abs twoPi fourPi windowType N (N - 1 - m))
        else re.getD m 0 := by
  have hhalf : N >>> 1 = N / 2 := by rw [Nat.shiftRight_eq_div_pow, pow_one]
  obtain ⟨re', hs, hl, hZ⟩ := forLoop_inv (windowBody cos abs twoPi fourPi windowType dir N)
    (fun i (s : List α) => s.length = N ∧
      ∀ m, s.getD m 0 =
        if m < i then
          windowOp dir (re.getD m 0) (weighingFactor cos abs twoPi fourPi windowType N m)
        else if N - i ≤ m ∧ m < N then
          windowOp dir (re.getD m 0) (weighingFactor cos abs twoPi fourPi windowType N (N - 1 - m))
        else re.getD m 0)
    (N >>> 1) 0 re
    (by
      rintro i re1 _ hi ⟨hl1, hZ⟩
      have hi' : i < N >>> 1 := by omega
      have hi2 : 2 * i + 2 ≤ N := by rw [hhalf] at hi'; omega
      obtain ⟨re2, hb, hl2, hZ2⟩ := windowBody_spec cos abs twoPi fourPi windowType dir N i re1
        hl1 hi' (fun hd => hw hd i hi')
      refine ⟨re2, hb, hl2, ?_⟩
      intro m
      rw [hZ2 m, hZ m]
      split_ifs <;>
        first
        | rfl
        | (exfalso; omega)
        | (have e : m = i := by omega
           rw [e])
        | (have e : N - 1 - m = i := by omega
           rw [e]))
    ⟨hre, by intro m; rw [if_neg (by omega), if_neg (by omega)]⟩
  refine ⟨re', hs, hl, ?_⟩
  intro m
  have := hZ m
  simp only [Nat.zero_add] at this
  exact this

theorem FFT_Windowing_spec {α : Type} [Field α] [DecidableEq α] (cos abs : α → α)
    (twoPi fourPi : α) (windowType : WindowType) (dir : Direction) (g : Globals α)
    (hre : g._vReal.length = g._samples)
    (hw : dir = Direction.FFT_REVERSE → ∀ i, i < g._samples >>> 1 →
      weighingFactor cos abs twoPi fourPi windowType g._samples i ≠ 0) :
    ∃ re', FFT_Windowing cos abs twoPi fourPi windowType dir g = some { g with _vReal := re' } ∧
      re'.length = g._samples ∧
      ∀ m, re'.getD m 0 =
        if m < g._samples >>> 1 then
          windowOp dir (g._vReal.getD m 0)
            (weighingFactor cos abs twoPi fourPi windowType g._samples m)
        else if g._samples - g._samples >>> 1 ≤ m ∧ m < g._samples then
          windowOp dir (g._vReal.getD m 0)
            (weighingFactor cos abs twoPi fourPi windowType g._samples (g._samples - 1 - m))
        else g._vReal.getD m 0 := by
  obtain ⟨re', hs, hl, hZ⟩ := windowLoop_spec cos abs twoPi fourPi windowType dir g._samples
    g._vReal hre hw
  exact ⟨re', by simp [FFT_Windowing, hs], hl, hZ⟩

theorem FFT_Windowing_round_trip {α : Type} [Field α] [DecidableEq α] (cos abs : α → α)
    (twoPi fourPi : α) (windowType : WindowType) (g : Globals α)
    (hre : g._vReal.length = g._samples)
    (hw : ∀ i, i < g._samples >>> 1 →
      weighingFactor cos abs twoPi fourPi windowType g._samples i ≠ 0) :
    ∃ g1, FFT_Windowing cos abs twoPi fourPi windowType Direction.FFT_FORWARD g = some g1 ∧
      FFT_Windowing cos abs twoPi fourPi windowType Direction.FFT_REVERSE g1 = some g := by
  obtain ⟨re, im, N, fs, pw⟩ := g
  simp only at hre hw
  have hhalf : N >>> 1 = N / 2 := by rw [Nat.shiftRight_eq_div_pow, pow_one]
  obtain ⟨re1, h1, hl1, hZ1⟩ := FFT_Windowing_spec cos abs twoPi fourPi windowType
    Direction.FFT_FORWARD ⟨re, im, N, fs, pw⟩ hre (by intro h; cases h)
  obtain ⟨re2, h2, hl2, hZ2⟩ := FFT_Windowing_spec cos abs twoPi fourPi windowType
    Direction.FFT_REVERSE ⟨re1, im, N, fs, pw⟩ hl1 (fun _ => hw)
  simp only at h1 hl1 hZ1 h2 hl2 hZ2
  refine ⟨_, h1, ?_⟩
  rw [h2]
  have hd : ¬ (Direction.FFT_REVERSE = Direction.FFT_FORWARD) := by decide
  have : re2 = re := by
    apply List.ext_getElem?
    intro m
    by_cases hm : m < N
    · have e2 := hZ2 m
      have e1 := hZ1 m
      have hm1 : m < re2.length := by omega
      have hm2 : m < re.length := by omega
      have key : re2.getD m 0 = re.getD m 0 := by
        rw [e2, e1]
        by_cases hlow : m < N >>> 1
        · have hne := hw m hlow
          simp only [if_pos hlow, windowOp, if_true, hd, if_false]
          field_simp
        · by_cases hh : N - N >>> 1 ≤ m ∧ m < N
          · have hne := hw (N - 1 - m) (by omega)
            simp only [if_neg hlow, if_pos hh, windowOp, if_true, hd, if_false]
            field_simp
          · simp only [if_neg hlow, if_neg hh]
      simpa [List.getD_eq_getElem?_getD, List.getElem?_eq_getElem hm1,
        List.getElem?_eq_getElem hm2] using key
    · rw [List.getElem?_eq_none (by omega), List.getElem?_eq_none (by omega)]
  rw [this]

theorem half_lt_cast (N i : Nat) (hi : i < N / 2) : (2 : ℝ) * i + 2 ≤ N := by
  have : 2 * i + 2 ≤ N := by omega
  exact_mod_cast this

theorem weight_rectangle (N i : Nat) :
    weighingFactor Real.cos abs (2 * Real.pi) (4 * Real.pi) WindowType.FFT_WIN_TYP_RECTANGLE N i = 1 :=
  rfl

theorem weight_hamming (N i : Nat) :
    0 < weighingFactor Real.cos abs (2 * Real.pi) (4 * Real.pi) WindowType.FFT_WIN_TYP_HAMMING N i ∧
    weighingFactor Real.cos abs (2 * Real.pi) (4 * Real.pi) WindowType.FFT_WIN_TYP_HAMMING N i ≤ 1 := by
  simp only [weighingFactor]
  have h1 := Real.neg_one_le_cos (2 * Real.pi * ((i : ℝ) / ((N : ℝ) - 1)))
  have h2 := Real.cos_le_one (2 * Real.pi * ((i : ℝ) / ((N : ℝ) - 1)))
  constructor <;> norm_num <;> linarith

theorem weight_hann (N i : Nat) :
    0 ≤ weighingFactor Real.cos abs (2 * Real.pi) (4 * Real.pi) WindowType.FFT_WIN_TYP_HANN N i ∧
    weighingFactor Real.cos abs (2 * Real.pi) (4 * Real.pi) WindowType.FFT_WIN_TYP_HANN N i ≤ 1.08 := by
  simp only [weighingFactor]
  have h1 := Real.neg_one_le_cos (2 * Real.pi * ((i : ℝ) / ((N : ℝ) - 1)))
  have h2 := Real.cos_le_one (2 * Real.pi * ((i : ℝ) / ((N : ℝ) - 1)))
  constructor <;> norm_num <;> linarith

theorem cos_four_pi (r : ℝ) :
    Real.cos (4 * Real.pi * r) = 2 * Real.cos (2 * Real.pi * r) ^ 2 - 1 := by
  rw [← Real.cos_two_mul]; congr 1; ring

theorem weight_blackman (N i : Nat) :
    0 < weighingFactor Real.cos abs (2 * Real.pi) (4 * Real.pi) WindowType.FFT_WIN_TYP_BLACKMAN N i ∧
    weighingFactor Real.cos abs (2 * Real.pi) (4 * Real.pi) WindowType.FFT_WIN_TYP_BLACKMAN N i ≤ 1 := by
  simp only [weighingFactor]
  rw [cos_four_pi]
  have h1 := Real.neg_one_le_cos (2 * Real.pi * ((i : ℝ) / ((N : ℝ) - 1)))
  have h2 := Real.cos_le_one (2 * Real.pi * ((i : ℝ) / ((N : ℝ) - 1)))
  generalize Real.cos (2 * Real.pi * ((i : ℝ) / ((N : ℝ) - 1))) = c at h1 h2
  constructor
  · norm_num; nlinarith [mul_nonneg (sub_nonneg.2 h2) (sub_nonneg.2 h2)]
  · norm_num; nlinarith [mul_nonneg (sub_nonneg.2 h2) (by linarith : (0 : ℝ) ≤ c + 1)]

theorem weight_flat_top (N i : Nat) :
    -0.09 ≤ weighingFactor Real.cos abs (2 * Real.pi) (4 * Real.pi) WindowType.FFT_WIN_TYP_FLT_TOP N i ∧
    weighingFactor Real.cos abs (2 * Real.pi) (4 * Real.pi) WindowType.FFT_WIN_TYP_FLT_TOP N i ≤
      1.000001 := by
  simp only [weighingFactor]
  rw [cos_four_pi]
  have h1 := Real.neg_one_le_cos (2 * Real.pi * ((i : ℝ) / ((N : ℝ) - 1)))
  have h2 := Real.cos_le_one (2 * Real.pi * ((i : ℝ) / ((N : ℝ) - 1)))
  generalize Real.cos (2 * Real.pi * ((i : ℝ) / ((N : ℝ) - 1))) = c at h1 h2
  constructor
  · norm_num; nlinarith [sq_nonneg (c - 0.6576)]
  · norm_num; nlinarith [mul_nonneg (sub_nonneg.2 h2) (by linarith : (0 : ℝ) ≤ c + 1)]

theorem weight_triangle (N i : Nat) (hi : i < N / 2) :
    0 ≤ weighingFactor Real.cos abs (2 * Real.pi) (4 * Real.pi) WindowType.FFT_WIN_TYP_TRIANGLE N i ∧
    weighingFactor Real.cos abs (2 * Real.pi) (4 * Real.pi) WindowType.FFT_WIN_TYP_TRIANGLE N i < 1 ∧
    weighingFactor Real.cos abs (2 * Real.pi) (4 * Real.pi) WindowType.FFT_WIN_TYP_TRIANGLE N i =
      2 * (i : ℝ) / ((N : ℝ) - 1) := by
  have h := half_lt_cast N i hi
  have hi0 : (0 : ℝ) ≤ i := Nat.cast_nonneg i
  have hN : (0 : ℝ) < (N : ℝ) - 1 := by linarith
  have habs : abs ((i : ℝ) - ((N : ℝ) - 1) / 2) = ((N : ℝ) - 1) / 2 - i := by
    rw [abs_of_nonpos (by linarith)]; ring
  have e : weighingFactor Real.cos abs (2 * Real.pi) (4 * Real.pi) WindowType.FFT_WIN_TYP_TRIANGLE
      N i = 2 * (i : ℝ) / ((N : ℝ) - 1) := by
    simp only [weighingFactor]
    rw [habs]; field_simp
  rw [e]
  refine ⟨by positivity, ?_, rfl⟩
  rw [div_lt_one hN]; linarith

theorem weight_welch (N i : Nat) (hi : i < N / 2) :
    0 ≤ weighingFactor Real.cos abs (2 * Real.pi) (4 * Real.pi) WindowType.FFT_WIN_TYP_WELCH N i ∧
    weighingFactor Real.cos abs (2 * Real.pi) (4 * Real.pi) WindowType.FFT_WIN_TYP_WELCH N i < 1 := by
  have h := half_lt_cast N i hi
  have hi0 : (0 : ℝ) ≤ i := Nat.cast_nonneg i
  have hN : (0 : ℝ) < ((N : ℝ) - 1) / 2 := by linarith
  simp only [weighingFactor, sq]
  have hq1 : -1 ≤ ((i : ℝ) - ((N : ℝ) - 1) / 2) / (((N : ℝ) - 1) / 2) := by
    rw [le_div_iff₀ hN]; linarith
  have hq2 : ((i : ℝ) - ((N : ℝ) - 1) / 2) / (((N : ℝ) - 1) / 2) < 0 :=
    div_neg_of_neg_of_pos (by linarith) hN
  generalize ((i : ℝ) - ((N : ℝ) - 1) / 2) / (((N : ℝ) - 1) / 2) = q at hq1 hq2
  constructor <;> nlinarith

theorem weight_at_zero (N : Nat) (hN : 2 ≤ N) :
    weighingFactor Real.cos abs (2 * Real.pi) (4 * Real.pi) WindowType.FFT_WIN_TYP_HANN N 0 = 0 ∧
    weighingFactor Real.cos abs (2 * Real.pi) (4 * Real.pi) WindowType.FFT_WIN_TYP_TRIANGLE N 0 = 0 ∧
    weighingFactor Real.cos abs (2 * Real.pi) (4 * Real.pi) WindowType.FFT_WIN_TYP_WELCH N 0 = 0 ∧
    weighingFactor Real.cos abs (2 * Real.pi) (4 * Real.pi) WindowType.FFT_WIN_TYP_FLT_TOP N 0 =
      -0.0417934 := by
  have hN' : (2 : ℝ) ≤ N := by exact_mod_cast hN
  have hN1 : (N : ℝ) - 1 ≠ 0 := by linarith
  refine ⟨?_, ?_, ?_, ?_⟩
  · simp [weighingFactor]
  · have h := (weight_triangle N 0 (by omega)).2.2
    rw [h]; simp
  · simp only [weighingFactor, sq]
    have : ((N : ℝ) - 1) / 2 ≠ 0 := by positivity
    field_simp; ring
  · simp [weighingFactor]; norm_num

/-! ## Effect of the window -/

theorem getElem?_of_getD {α : Type} (buf : List α) (i : Nat) (d v : α) (hi : i < buf.length)
    (h : buf.getD i d = v) : buf[i]? = some v := by
  rw [List.getD_eq_getElem?_getD, List.getElem?_eq_getElem hi] at h
  rw [List.getElem?_eq_getElem hi]
  simpa using h

theorem FFT_Windowing_pow_spec {α : Type} [Field α] [DecidableEq α] (cos abs : α → α)
    (twoPi fourPi : α) (windowType : WindowType) (dir : Direction) (p : Nat) (hp1 : 1 ≤ p)
    (vReal vImag : List α) (fs : α) (hre : vReal.length = 2 ^ p)
    (hw : dir = Direction.FFT_REVERSE → ∀ i, i < 2 ^ p >>> 1 →
      weighingFactor cos abs twoPi fourPi windowType (2 ^ p) i ≠ 0) :
    ∃ g', FFT_Windowing cos abs twoPi fourPi windowType dir
        { _vReal := vReal, _vImag := vImag, _samples := 2 ^ p, _samplingFrequency := fs,
          _power := p } = some g' ∧
      g'._vImag = vImag ∧
      ∀ i, i < 2 ^ p → g'._vReal[i]? = some (windowOp dir (vReal.getD i 0)
        (weighingFactor cos abs twoPi fourPi windowType (2 ^ p) (min i (2 ^ p - 1 - i)))) := by
  obtain ⟨re', h1, hl, hZ⟩ := FFT_Windowing_spec cos abs twoPi fourPi windowType dir
    { _vReal := vReal, _vImag := vImag, _samples := 2 ^ p, _samplingFrequency := fs,
      _power := p } hre hw
  simp only at h1 hl hZ
  refine ⟨_, h1, rfl, ?_⟩
  intro i hi
  obtain ⟨q, rfl⟩ : ∃ q, p = q + 1 := ⟨p - 1, by omega⟩
  have hhalf : 2 ^ (q + 1) >>> 1 = 2 ^ q := shiftRight_two_pow_succ q
  have h2 : 2 ^ (q + 1) = 2 * 2 ^ q := by ring
  apply getElem?_of_getD re' i 0 _ (by omega)
  rw [hZ i, hhalf]
  by_cases hlow : i < 2 ^ q
  · rw [if_pos hlow, min_eq_left (by omega)]
  · rw [if_neg hlow, if_pos (by omega), min_eq_right (by omega)]

theorem forLoop_add {σ : Type} (body : Nat → σ → Option σ) :
    ∀ (a b lo : Nat) (s : σ),
      forLoop body (a + b) lo s = (forLoop body a lo s).bind (forLoop body b (lo + a)) := by
  intro a
  induction a with
  | zero => intro b lo s; simp [forLoop]
  | succ a ih =>
    intro b lo s
    rw [show a + 1 + b = (a + b) + 1 by omega]
    simp only [forLoop]
    cases body lo s with
    | none => rfl
    | some s1 =>
      simp only [Option.some_bind, Option.bind_eq_bind]
      rw [ih b (lo + 1) s1, show lo + 1 + a = lo + (a + 1) by omega]

theorem windowBody_zero_weight {α : Type} [Field α] [DecidableEq α] (cos abs : α → α)
    (twoPi fourPi : α) (windowType : WindowType) (N i : Nat) (re : List α)
    (hw : weighingFactor cos abs twoPi fourPi windowType N i = 0) :
    windowBody cos abs twoPi fourPi windowType Direction.FFT_REVERSE N i re = none := by
  unfold windowBody
  have hd : ¬ (Direction.FFT_REVERSE = Direction.FFT_FORWARD) := by decide
  simp only [hd, if_false, divide, hw, if_true]
  cases rd re i <;> rfl

theorem FFT_Windowing_zero_weight {α : Type} [Field α] [DecidableEq α] (cos abs : α → α)
    (twoPi fourPi : α) (windowType : WindowType) (g : Globals α) (k : Nat)
    (hk : k < g._samples >>> 1)
    (hw : weighingFactor cos abs twoPi fourPi windowType g._samples k = 0) :
    FFT_Windowing cos abs twoPi fourPi windowType Direction.FFT_REVERSE g = none := by
  obtain ⟨b, hb⟩ : ∃ b, g._samples >>> 1 = k + (1 + b) := ⟨g._samples >>> 1 - k - 1, by omega⟩
  have hloop : forLoop (windowBody cos abs twoPi fourPi windowType Direction.FFT_REVERSE
      g._samples) (g._samples >>> 1) 0 g._vReal = none := by
    rw [hb, forLoop_add]
    cases forLoop (windowBody cos abs twoPi fourPi windowType Direction.FFT_REVERSE g._samples)
        k 0 g._vReal with
    | none => rfl
    | some s1 =>
      simp only [Option.some_bind, Option.bind_eq_bind]
      rw [forLoop_add]
      simp only [forLoop, Nat.zero_add]
      rw [windowBody_zero_weight cos abs twoPi fourPi windowType g._samples k s1 hw]
      rfl
  simp only [FFT_Windowing, hloop]
  rfl

/-! ## Magnitude conversion -/

theorem magnitudeLoop_spec {α : Type} [Field α] (sqrt : α → α) (N : Nat) (re im : List α)
    (hre : re.length = N) (him : im.length = N) :
    ∃ re', forLoop (magnitudeBody sqrt im) N 0 re = some re' ∧ re'.length = N ∧
      ∀ m, re'.getD m 0 =
        if m < N then sqrt (sq (re.getD m 0) + sq (im.getD m 0)) else re.getD m 0 := by
  obtain ⟨re', hs, hl, hZ⟩ := forLoop_inv (magnitudeBody sqrt im)
    (fun i (s : List α) => s.length = N ∧
      ∀ m, s.getD m 0 =
        if m < i then sqrt (sq (re.getD m 0) + sq (im.getD m 0)) else re.getD m 0)
    N 0 re
    (by
      rintro i re1 _ hi ⟨hl1, hZ⟩
      have hi' : i < N := by omega
      refine ⟨re1.set i (sqrt (sq (re1.getD i 0) + sq (im.getD i 0))), ?_, by simpa using hl1, ?_⟩
      · simp [magnitudeBody, rd_getD re1 i 0 (by omega), rd_getD im i 0 (by omega), wr, hl1, hi']
      · intro m
        rw [getD_set_eq _ _ _ _ _ (by omega)]
        by_cases hmi : m = i
        · subst hmi
          have h := hZ m
          rw [if_neg (by omega)] at h
          rw [if_pos rfl, if_pos (by omega), h]
        · rw [if_neg hmi, hZ m]
          by_cases hlt : m < i
          · rw [if_pos hlt, if_pos (by omega)]
          · rw [if_neg hlt, if_neg (by omega)])
    ⟨hre, by intro m; simp⟩
  refine ⟨re', hs, hl, ?_⟩
  intro m
  have := hZ m
  simp only [Nat.zero_add] at this
  exact this

theorem FFT_ComplexToMagnitude_spec {α : Type} [Field α] (sqrt : α → α) (g : Globals α)
    (hre : g._vReal.length = g._samples) (him : g._vImag.length = g._samples) :
    ∃ re', FFT_ComplexToMagnitude sqrt g = some { g with _vReal := re' } ∧
      re'.length = g._samples ∧
      ∀ m, re'.getD m 0 =
        if m < g._samples then sqrt (sq (g._vReal.getD m 0) + sq (g._vImag.getD m 0))
        else g._vReal.getD m 0 := by
  obtain ⟨re', hs, hl, hZ⟩ := magnitudeLoop_spec sqrt g._samples g._vReal g._vImag hre him
  exact ⟨re', by simp [FFT_ComplexToMagnitude, hs], hl, hZ⟩

/-! ## Interpolation -/

theorem interpolationDelta_lt (a c b : ℝ) (h1 : a < c) (h2 : c > b) :
    a - 2 * c + b < 0 ∧ -1 / 2 < interpolationDelta a c b ∧ interpolationDelta a c b < 1 / 2 := by
  have hD : a - 2 * c + b < 0 := by linarith
  have hq1 : (a - b) / (a - 2 * c + b) < 1 := by
    rw [div_lt_iff_of_neg hD]; linarith
  have hq2 : -1 < (a - b) / (a - 2 * c + b) := by
    rw [lt_div_iff_of_neg hD]; linarith
  refine ⟨hD, ?_, ?_⟩
  · simp only [interpolationDelta]; norm_num; linarith
  · simp only [interpolationDelta]; norm_num; linarith

/-! ## The scan for the peak -/

theorem rdI_pred {α : Type} (buf : List α) (i : Nat) (d : α) (h1 : 1 ≤ i) (h : i - 1 < buf.length) :
    rdI buf ((i : Int) - 1) = some (buf.getD (i - 1) d) := by
  have h0 : (0 : Int) ≤ (i : Int) - 1 := by omega
  have ht : ((i : Int) - 1).toNat = i - 1 := by omega
  rw [rdI, if_pos h0, ht]
  exact rd_getD buf (i - 1) d h

theorem rdI_neg {α : Type} (buf : List α) : rdI buf (((0 : Nat) : Int) - 1) = none := by
  simp [rdI]

theorem peakScanBody_eq {α : Type} [LinearOrderedField α] (re : List α) (i : Nat) (s : α × Nat)
    (h1 : 1 ≤ i) (h : i + 1 < re.length) :
    peakScanBody re i s =
      some (if IsPeak re i ∧ re.getD i 0 > s.1 then (re.getD i 0, i) else s) := by
  unfold peakScanBody
  rw [rdI_pred re i 0 h1 (by omega), rd_getD re i 0 (by omega), rd_getD re (i + 1) 0 h]
  simp only [Option.some_bind, Option.bind_eq_bind, IsPeak]
  split_ifs <;> first | rfl | (exfalso; tauto)

theorem ScanUpTo_step {α : Type} [LinearOrderedField α] (re : List α) (i : Nat) (s : α × Nat)
    (h1 : 1 ≤ i) (h : ScanUpTo re i s) :
    ScanUpTo re (i + 1) (if IsPeak re i ∧ re.getD i 0 > s.1 then (re.getD i 0, i) else s) := by
  by_cases hp : IsPeak re i ∧ re.getD i 0 > s.1
  · rw [if_pos hp]
    right
    have hpos : 0 < re.getD i 0 := by
      rcases h with ⟨_, h0, _⟩ | ⟨_, _, _, _, h0, _⟩
      · rw [h0] at hp; exact hp.2
      · exact lt_trans h0 hp.2
    refine ⟨h1, by simp, hp.1, rfl, hpos, ?_⟩
    intro t ht1 ht hpt
    simp only
    rcases Nat.lt_or_ge t i with hlt | hge
    · have hle : re.getD t 0 ≤ s.1 := by
        rcases h with ⟨_, h0, hall⟩ | ⟨_, _, _, _, _, hall⟩
        · rw [h0]; exact hall t ht1 hlt hpt
        · exact (hall t ht1 hlt hpt).1
      exact ⟨le_of_lt (lt_of_le_of_lt hle hp.2), fun _ => lt_of_le_of_lt hle hp.2⟩
    · have : t = i := by omega
      subst this
      exact ⟨le_refl _, fun hh => absurd hh (lt_irrefl _)⟩
  · rw [if_neg hp]
    rcases h with ⟨hi0, h0, hall⟩ | ⟨hi1, hi2, hpk, hv, hpos, hall⟩
    · left
      refine ⟨hi0, h0, ?_⟩
      intro t ht1 ht hpt
      rcases Nat.lt_or_ge t i with hlt | hge
      · exact hall t ht1 hlt hpt
      · have : t = i := by omega
        subst this
        rw [h0] at hp
        exact not_lt.1 (fun hh => hp ⟨hpt, hh⟩)
    · right
      refine ⟨hi1, by omega, hpk, hv, hpos, ?_⟩
      intro t ht1 ht hpt
      rcases Nat.lt_or_ge t i with hlt | hge
      · exact hall t ht1 hlt hpt
      · have : t = i := by omega
        subst this
        exact ⟨not_lt.1 (fun hh => hp ⟨hpt, hh⟩), fun hh => absurd hh (by omega)⟩

theorem peakScan_spec {α : Type} [LinearOrderedField α] (re : List α) (n : Nat)
    (hn : n + 1 < re.length) :
    ∃ s, forLoop (peakScanBody re) n 1 (0, 0) = some s ∧ ScanUpTo re (1 + n) s := by
  apply forLoop_inv (peakScanBody re) (fun i s => ScanUpTo re i s) n 1 (0, 0)
  · intro i s hi1 hi hinv
    exact ⟨_, peakScanBody_eq re i s hi1 (by omega), ScanUpTo_step re i s hi1 hinv⟩
  · left
    exact ⟨rfl, rfl, fun t ht1 ht _ => absurd ht (by omega)⟩

theorem majorPeakScan_spec {α : Type} [LinearOrderedField α] (g : Globals α)
    (hN : 3 ≤ g._samples) (hre : g._vReal.length = g._samples) :
    ∃ s, majorPeakScan g = some s ∧ ScanUpTo g._vReal (g._samples / 2 + 1) s := by
  have hhalf : g._samples >>> 1 = g._samples / 2 := by rw [Nat.shiftRight_eq_div_pow, pow_one]
  obtain ⟨s, hs, hinv⟩ := peakScan_spec g._vReal (g._samples / 2) (by omega)
  refine ⟨s, ?_, ?_⟩
  · rw [majorPeakScan, hhalf, Nat.add_sub_cancel]; exact hs
  · rw [Nat.add_comm]; exact hinv

theorem four_le_two_pow (p : Nat) (hp2 : 2 ≤ p) : 4 ≤ 2 ^ p := by
  calc 4 = 2 ^ 2 := by norm_num
    _ ≤ 2 ^ p := Nat.pow_le_pow_right (by norm_num) hp2

theorem FFT_MajorPeak_of_scan (g : Globals ℝ) (maxY : ℝ) (m : Nat)
    (hscan : majorPeakScan g = some (maxY, m)) (hm1 : 1 ≤ m) (hm : m + 1 < g._vReal.length) :
    FFT_MajorPeak g = some
      (if m = g._samples / 2 then
        ((m : ℝ) + 0.5 * (g._vReal.getD (m - 1) 0 - g._vReal.getD (m + 1) 0) /
          (g._vReal.getD (m - 1) 0 - 2 * g._vReal.getD m 0 + g._vReal.getD (m + 1) 0)) *
          g._samplingFrequency / (g._samples : ℝ)
      else
        ((m : ℝ) + 0.5 * (g._vReal.getD (m - 1) 0 - g._vReal.getD (m + 1) 0) /
          (g._vReal.getD (m - 1) 0 - 2 * g._vReal.getD m 0 + g._vReal.getD (m + 1) 0)) *
          g._samplingFrequency / ((g._samples : ℝ) - 1)) := by
  have hhalf : g._samples >>> 1 = g._samples / 2 := by rw [Nat.shiftRight_eq_div_pow, pow_one]
  unfold FFT_MajorPeak
  rw [hscan]
  simp only [Option.some_bind, Option.bind_eq_bind]
  rw [rdI_pred _ m 0 hm1 (by omega), rd_getD _ (m + 1) 0 hm, rd_getD _ m 0 (by omega)]
  simp only [Option.some_bind, Option.bind_eq_bind, hhalf, interpolationDelta]
  by_cases h : m = g._samples / 2
  · rw [if_pos h, if_pos h]
    congr 1; ring
  · rw [if_neg h, if_neg h]
    push_cast
    congr 1; ring

theorem example_nonneg : ∀ i, i < 2 ^ 2 → 0 ≤ ([0, 3, 1, 0] : List ℝ).getD i 0 := by
  intro i hi
  have : i < 4 := by simpa using hi
  interval_cases i <;> simp

theorem example_peak : ∃ i, 1 ≤ i ∧ i ≤ 2 ^ 2 / 2 ∧ IsPeak ([0, 3, 1, 0] : List ℝ) i :=
  ⟨1, le_refl _, by norm_num, by norm_num [IsPeak]⟩

theorem example_scan (vImag : List ℝ) (fs : ℝ) :
    majorPeakScan { _vReal := ([0, 3, 1, 0] : List ℝ), _vImag := vImag, _samples := 2 ^ 2,
                    _samplingFrequency := fs, _power := 2 } = some (3, 1) := by
  norm_num [majorPeakScan, forLoop, peakScanBody, rdI, rd]

theorem example_no_peak :
    ∀ i, 1 ≤ i → i ≤ 2 ^ 2 / 2 → ¬ IsPeak ([0, 1, 2, 3] : List ℝ) i := by
  intro i h1 h2
  have : i ≤ 2 := by simpa using h2
  interval_cases i <;> norm_num [IsPeak]

/-! ## Constant and single-tone inputs -/

/-- Forward transform of a real input followed by the magnitude conversion:
every element below `N` is the modulus of the transform sum, written with the
inverse `ζ⁻¹` of the root `ζ = exp (2 π i / N)`. -/
theorem forward_magnitude (p : Nat) (hp : p ≤ 15) (x : List ℝ) (hx : x.length = 2 ^ p)
    (fs : ℝ) (fuel : Nat) (hfuel : 2 ^ p ≤ fuel) :
    ∃ re1 im1 re2,
      FFT_Compute Real.sqrt fuel Direction.FFT_FORWARD
          { _vReal := x, _vImag := List.replicate (2 ^ p) 0, _samples := 2 ^ p,
            _samplingFrequency := fs, _power := p } =
        some { _vReal := re1, _vImag := im1, _samples := 2 ^ p, _samplingFrequency := fs,
               _power := p } ∧
      FFT_ComplexToMagnitude Real.sqrt
          { _vReal := re1, _vImag := im1, _samples := 2 ^ p, _samplingFrequency := fs,
            _power := p } =
        some { _vReal := re2, _vImag := im1, _samples := 2 ^ p, _samplingFrequency := fs,
               _power := p } ∧
      re2.length = 2 ^ p ∧
      ∀ j, j < 2 ^ p → re2.getD j 0 =
        Complex.abs (∑ n in range (2 ^ p), ((x.getD n 0 : ℝ) : ℂ) *
          ((Complex.exp ((dirSign Direction.FFT_REVERSE : ℂ) * (2 * Real.pi * Complex.I) /
            2 ^ p))⁻¹ ^ j) ^ n) := by
  obtain ⟨re1, im1, hc, hr, hm, hZ⟩ := FFT_Compute_cbuf p hp Direction.FFT_FORWARD x
    (List.replicate (2 ^ p) 0) fs hx (by simp) fuel hfuel
  obtain ⟨re2, h2, hl2, hZ2⟩ := FFT_ComplexToMagnitude_spec Real.sqrt
    ({ _vReal := re1, _vImag := im1, _samples := 2 ^ p, _samplingFrequency := fs,
       _power := p } : Globals ℝ) hr hm
  simp only at h2 hl2 hZ2
  refine ⟨re1, im1, re2, hc, h2, hl2, ?_⟩
  intro j hj
  rw [hZ2 j, if_pos hj]
  have hz := hZ j hj
  simp only [if_true, div_one] at hz
  have e : ∑ n in range (2 ^ p), ((x.getD n 0 : ℝ) : ℂ) *
      ((Complex.exp ((dirSign Direction.FFT_REVERSE : ℂ) * (2 * Real.pi * Complex.I) /
        2 ^ p))⁻¹ ^ j) ^ n = cbuf re1 im1 j := by
    rw [hz]
    apply sum_congr rfl
    intro n _
    rw [inputOf_forward_zero, forward_root_inv, ← pow_mul]
  rw [e, Complex.abs_apply, Complex.normSq_apply]
  simp [cbuf, sq]

theorem root_pow_sum (p j : Nat) (hj : j < 2 ^ p) :
    ∑ n in range (2 ^ p),
      ((Complex.exp ((dirSign Direction.FFT_REVERSE : ℂ) * (2 * Real.pi * Complex.I) /
        2 ^ p))⁻¹ ^ j) ^ n = if j = 0 then ((2 ^ p : ℕ) : ℂ) else 0 := by
  have h := geom_root_sum _ (2 ^ p) (reverse_root_primitive p) 0 j (by positivity) hj
  simp only [pow_zero, one_mul] at h
  rw [h]
  by_cases h0 : j = 0
  · rw [if_pos h0, if_pos h0.symm]
  · rw [if_neg h0, if_neg (Ne.symm h0)]

theorem cos_as_roots (p k n : Nat) (φ : ℝ) :
    ((Real.cos (2 * Real.pi * k * n / ((2 ^ p : ℕ) : ℝ) + φ) : ℝ) : ℂ) =
      (Complex.exp (φ * Complex.I) *
          (Complex.exp ((dirSign Direction.FFT_REVERSE : ℂ) * (2 * Real.pi * Complex.I) /
            2 ^ p) ^ k) ^ n +
        Complex.exp (-(φ * Complex.I)) *
          ((Complex.exp ((dirSign Direction.FFT_REVERSE : ℂ) * (2 * Real.pi * Complex.I) /
            2 ^ p))⁻¹ ^ k) ^ n) / 2 := by
  have h2 : (2 : ℂ) ^ p ≠ 0 := pow_ne_zero _ two_ne_zero
  rw [Complex.ofReal_cos, Complex.cos, ← Complex.exp_neg, ← Complex.exp_nat_mul,
    ← Complex.exp_nat_mul, ← Complex.exp_nat_mul, ← Complex.exp_nat_mul, ← Complex.exp_add,
    ← Complex.exp_add]
  congr 2
  · congr 1
    simp [dirSign]
    field_simp
    ring
  · congr 1
    simp [dirSign]
    field_simp
    ring

theorem tone_spectrum (p : Nat) (A φ : ℝ) (k j : Nat) (hk1 : 1 ≤ k) (hk : k < 2 ^ p)
    (hj : j < 2 ^ p) :
    ∑ n in range (2 ^ p),
      ((A * Real.cos (2 * Real.pi * k * n / ((2 ^ p : ℕ) : ℝ) + φ) : ℝ) : ℂ) *
        ((Complex.exp ((dirSign Direction.FFT_REVERSE : ℂ) * (2 * Real.pi * Complex.I) /
          2 ^ p))⁻¹ ^ j) ^ n =
      (A : ℂ) / 2 * (Complex.exp (φ * Complex.I) * (if k = j then ((2 ^ p : ℕ) : ℂ) else 0) +
        Complex.exp (-(φ * Complex.I)) * (if 2 ^ p - k = j then ((2 ^ p : ℕ) : ℂ) else 0)) := by
  have hζ := reverse_root_primitive p
  set ζ := Complex.exp ((dirSign Direction.FFT_REVERSE : ℂ) * (2 * Real.pi * Complex.I) / 2 ^ p)
    with hζdef
  have hζ0 : ζ ≠ 0 := hζ.ne_zero (by positivity)
  have hinv : ζ⁻¹ ^ k = ζ ^ (2 ^ p - k) := by
    have h1 : ζ ^ (2 ^ p - k) * ζ ^ k = 1 := by
      rw [← pow_add, Nat.sub_add_cancel hk.le, hζ.pow_eq_one]
    rw [inv_pow]
    exact (eq_inv_of_mul_eq_one_left h1).symm
  rw [← geom_root_sum ζ (2 ^ p) hζ k j hk hj,
    ← geom_root_sum ζ (2 ^ p) hζ (2 ^ p - k) j (by omega) hj, mul_sum, mul_sum, ← sum_add_distrib,
    mul_sum]
  apply sum_congr rfl
  intro n _
  rw [Complex.ofReal_mul, cos_as_roots, ← hζdef, hinv, mul_pow, mul_pow]
  ring

theorem getD_map_range (N : Nat) (f : Nat → ℝ) (n : Nat) (hn : n < N) :
    ((List.range N).map f).getD n 0 = f n := by
  simp [List.getD_eq_getElem?_getD, List.getElem?_map, List.getElem?_range hn]

theorem tone_magnitude (p : Nat) (hp : p ≤ 15) (fs A φ : ℝ) (hA : 0 < A) (k : Nat)
    (hk1 : 1 ≤ k) (hk : k < 2 ^ p / 2) (fuel : Nat) (hfuel : 2 ^ p ≤ fuel) :
    ∃ re1 im1 re2,
      FFT_Compute Real.sqrt fuel Direction.FFT_FORWARD
          { _vReal := (List.range (2 ^ p)).map
              (fun n : Nat => A * Real.cos (2 * Real.pi * k * n / ((2 ^ p : ℕ) : ℝ) + φ)),
            _vImag := List.replicate (2 ^ p) 0, _samples := 2 ^ p,
            _samplingFrequency := fs, _power := p } =
        some { _vReal := re1, _vImag := im1, _samples := 2 ^ p, _samplingFrequency := fs,
               _power := p } ∧
      FFT_ComplexToMagnitude Real.sqrt
          { _vReal := re1, _vImag := im1, _samples := 2 ^ p, _samplingFrequency := fs,
            _power := p } =
        some { _vReal := re2, _vImag := im1, _samples := 2 ^ p, _samplingFrequency := fs,
               _power := p } ∧
      re2.length = 2 ^ p ∧
      ∀ j, j < 2 ^ p → re2.getD j 0 =
        if j = k ∨ j = 2 ^ p - k then A * ((2 ^ p : ℕ) : ℝ) / 2 else 0 := by
  obtain ⟨re1, im1, re2, hc, hmag, hl2, hZ⟩ := forward_magnitude p hp
    ((List.range (2 ^ p)).map
      (fun n : Nat => A * Real.cos (2 * Real.pi * k * n / ((2 ^ p : ℕ) : ℝ) + φ)))
    (by simp) fs fuel hfuel
  refine ⟨re1, im1, re2, hc, hmag, hl2, ?_⟩
  intro j hj
  rw [hZ j hj]
  have e : ∑ n in range (2 ^ p),
      ((((List.range (2 ^ p)).map
        (fun n : Nat => A * Real.cos (2 * Real.pi * k * n / ((2 ^ p : ℕ) : ℝ) + φ))).getD n 0 :
          ℝ) : ℂ) *
        ((Complex.exp ((dirSign Direction.FFT_REVERSE : ℂ) * (2 * Real.pi * Complex.I) /
          2 ^ p))⁻¹ ^ j) ^ n =
      (A : ℂ) / 2 * (Complex.exp (φ * Complex.I) * (if k = j then ((2 ^ p : ℕ) : ℂ) else 0) +
        Complex.exp (-(φ * Complex.I)) * (if 2 ^ p - k = j then ((2 ^ p : ℕ) : ℂ) else 0)) := by
    rw [← tone_spectrum p A φ k j hk1 (by omega) hj]
    apply sum_congr rfl
    intro n hn
    rw [getD_map_range _ _ n (mem_range.1 hn)]
  rw [e]
  have hA2 : Complex.abs ((A : ℂ) / 2) = A / 2 := by
    rw [map_div₀, Complex.abs_ofReal, abs_of_pos hA]; simp
  have he1 : Complex.abs (Complex.exp (φ * Complex.I)) = 1 := Complex.abs_exp_ofReal_mul_I φ
  have he2 : Complex.abs (Complex.exp (-(φ * Complex.I))) = 1 := by
    have := Complex.abs_exp_ofReal_mul_I (-φ)
    simpa using this
  by_cases h1 : j = k
  · subst h1
    rw [if_pos rfl, if_neg (by omega), if_pos (Or.inl rfl), mul_zero, add_zero, map_mul, map_mul,
      hA2, he1, Complex.abs_natCast]
    ring
  · by_cases h2 : j = 2 ^ p - k
    · rw [if_neg (Ne.symm h1), if_pos h2.symm, if_pos (Or.inr h2), mul_zero, zero_add, map_mul,
        map_mul, hA2, he2, Complex.abs_natCast]
      ring
    · rw [if_neg (Ne.symm h1), if_neg (Ne.symm h2), if_neg (by tauto)]
      simp

theorem two_line_peak (N : Nat) (hN : 4 ≤ N) (re im : List ℝ) (fs : ℝ) (power : Nat)
    (hre : re.length = N) (M : ℝ) (hM : 0 < M) (k : Nat) (hk1 : 1 ≤ k) (hk : k < N / 2)
    (hval : ∀ j, j < N → re.getD j 0 = if j = k ∨ j = N - k then M else 0) :
    majorPeakScan { _vReal := re, _vImag := im, _samples := N, _samplingFrequency := fs,
                    _power := power } = some (M, k) ∧
    FFT_MajorPeak { _vReal := re, _vImag := im, _samples := N, _samplingFrequency := fs,
                    _power := power } = some ((k : ℝ) * fs / ((N : ℝ) - 1)) := by
  have hvk : re.getD k 0 = M := by rw [hval k (by omega), if_pos (Or.inl rfl)]
  have hvp : re.getD (k - 1) 0 = 0 := by rw [hval (k - 1) (by omega), if_neg (by omega)]
  have hvn : re.getD (k + 1) 0 = 0 := by rw [hval (k + 1) (by omega), if_neg (by omega)]
  have hpk : IsPeak re k := by
    unfold IsPeak
    rw [hvk, hvp, hvn]
    exact ⟨hM, hM⟩
  obtain ⟨⟨maxY, m⟩, hs, hinv⟩ := majorPeakScan_spec
    ({ _vReal := re, _vImag := im, _samples := N, _samplingFrequency := fs,
       _power := power } : Globals ℝ) (by simp only; omega) hre
  simp only at hinv
  have hres : maxY = M ∧ m = k := by
    rcases hinv with ⟨_, _, hall⟩ | ⟨h1, h2, _, hv, hpos, _⟩
    · have := hall k hk1 (by omega) hpk
      rw [hvk] at this
      linarith
    · simp only at h1 h2 hv hpos
      have hm : m = k ∨ m = N - k := by
        by_contra hne
        rw [hv, hval m (by omega), if_neg hne] at hpos
        exact lt_irrefl _ hpos
      have hmk : m = k := by omega
      subst hmk
      exact ⟨by rw [hv, hvk], rfl⟩
  obtain ⟨rfl, rfl⟩ := hres
  refine ⟨hs, ?_⟩
  have hform := FFT_MajorPeak_of_scan
    ({ _vReal := re, _vImag := im, _samples := N, _samplingFrequency := fs,
       _power := power } : Globals ℝ) _ m hs hk1 (by simp only; omega)
  simp only at hform
  rw [hform, if_neg (by omega), hvp, hvn]
  simp

theorem tone_distance (k : Nat) (hk : k ≤ 31) (fs : ℝ) (hfs : 0 < fs) :
    |(k : ℝ) * fs / (((64 : ℕ) : ℝ) - 1) - (k : ℝ) * fs / 64| < fs / 128 := by
  have hk' : (k : ℝ) ≤ 31 := by exact_mod_cast hk
  have hk0 : (0 : ℝ) ≤ k := Nat.cast_nonneg k
  have e : (k : ℝ) * fs / (((64 : ℕ) : ℝ) - 1) - (k : ℝ) * fs / 64 = (k : ℝ) * fs / 4032 := by
    norm_num
    ring
  rw [e, abs_of_nonneg (by positivity)]
  have : (k : ℝ) * fs ≤ 31 * fs := mul_le_mul_of_nonneg_right hk' hfs.le
  linarith

/-! ## States of the loops of `FFT_Compute` -/

theorem iterWhile_succ {σ : Type} (cond : σ → Bool) (body : σ → Option σ) (n : Nat) (s : σ) :
    iterWhile cond body (n + 1) s =
      if cond s then (body s).bind (iterWhile cond body n) else none := rfl

theorem carry_iter (p : Nat) : ∀ (i n : Nat) (s : Nat × Nat), i + 1 < 2 ^ (p + 1) →
    iterWhile (fun s : Nat × Nat => decide (s.1 ≤ s.2)) (fun s => some (s.1 >>> 1, s.2 - s.1)) n
      (2 ^ p, bitrev (p + 1) i) = some s →
    1 ≤ s.1 ∧ s.2 ≤ bitrev (p + 1) i := by
  induction p with
  | zero =>
    intro i n s hi h
    have hi0 : i = 0 := by norm_num at hi; omega
    subst hi0
    cases n with
    | zero =>
      simp only [iterWhile, Option.some.injEq] at h
      subst h
      simp
    | succ n =>
      rw [iterWhile_succ] at h
      simp [bitrev] at h
  | succ q ih =>
    intro i n s hi h
    cases n with
    | zero =>
      simp only [iterWhile, Option.some.injEq] at h
      subst h
      exact ⟨Nat.one_le_two_pow, le_refl _⟩
    | succ n =>
      rw [iterWhile_succ] at h
      have hlt := bitrev_lt (q + 1) (i / 2)
      by_cases hc : 2 ^ (q + 1) ≤ bitrev (q + 1 + 1) i
      · have hodd : i % 2 = 1 := by
          rcases Nat.mod_two_eq_zero_or_one i with h0 | h1
          · rw [bitrev_succ (q + 1) i, h0] at hc
            omega
          · exact h1
        have hb : bitrev (q + 1 + 1) i = 2 ^ (q + 1) + bitrev (q + 1) (i / 2) := by
          rw [bitrev_succ (q + 1) i, hodd]; ring
        have hi2 : i / 2 + 1 < 2 ^ (q + 1) := by
          have : 2 ^ (q + 1 + 1) = 2 * 2 ^ (q + 1) := by ring
          omega
        simp only [hc, decide_True, if_true, Option.some_bind, Option.bind_eq_bind,
          shiftRight_two_pow_succ] at h
        rw [hb, Nat.add_sub_cancel_left] at h
        obtain ⟨h1, h2⟩ := ih (i / 2) n s hi2 h
        exact ⟨h1, by omega⟩
      · simp [hc] at h

theorem reverseBits_prefix {α : Type} (p : Nat) (hp : p ≤ 15) (dir : Direction)
    (re im : List α) (hre : re.length = 2 ^ p) (him : im.length = 2 ^ p)
    (fuel : Nat) (hfuel : p ≤ fuel) (i : Nat) (hi : i ≤ 2 ^ p - 1) :
    ∃ re' im', forLoop (reverseBitsBody fuel dir (2 ^ p)) i 0 (0, re, im) =
        some (bitrev p i, re', im') ∧
      re'.length = 2 ^ p ∧ im'.length = 2 ^ p := by
  have hN : 2 ^ p ≤ 2 ^ 15 := Nat.pow_le_pow_right (by norm_num) hp
  obtain ⟨⟨j, re', im'⟩, hs, hj, hl1, hl2⟩ := forLoop_inv (reverseBitsBody fuel dir (2 ^ p))
    (fun t (s : Nat × List α × List α) =>
      s.1 = bitrev p t ∧ s.2.1.length = 2 ^ p ∧ s.2.2.length = 2 ^ p)
    i 0 (0, re, im)
    (by
      rintro t ⟨j, re1, im1⟩ _ ht ⟨hj, hl1, hl2⟩
      simp only at hj hl1 hl2
      subst hj
      have hjlt := bitrev_lt p t
      obtain ⟨q, rfl⟩ : ∃ q, p = q + 1 := by
        rcases p with _ | q
        · simp at hi; omega
        · exact ⟨q, rfl⟩
      obtain ⟨k, j', hc, _, hjk⟩ := carryLoop_bitrev q t fuel (by omega) (by omega)
      have hmod : (j' + k) % 65536 = bitrev (q + 1) (t + 1) := by
        rw [hjk]; apply Nat.mod_eq_of_lt
        have := bitrev_lt (q + 1) (t + 1)
        omega
      by_cases hlt : t < bitrev (q + 1) t
      · obtain ⟨re2, hs1, hlen1, _⟩ := Swap_spec re1 t (bitrev (q + 1) t) (by omega) (by omega)
        cases dir with
        | FFT_FORWARD =>
          refine ⟨(bitrev (q + 1) (t + 1), re2, im1), ?_, rfl, hlen1.trans hl1, hl2⟩
          simp [reverseBitsBody, hlt, hs1, shiftRight_two_pow_succ, hc, hmod]
        | FFT_REVERSE =>
          obtain ⟨im2, hs2, hlen2, _⟩ :=
            Swap_spec im1 t (bitrev (q + 1) t) (by omega) (by omega)
          refine ⟨(bitrev (q + 1) (t + 1), re2, im2), ?_, rfl, hlen1.trans hl1,
            hlen2.trans hl2⟩
          simp [reverseBitsBody, hlt, hs1, hs2, shiftRight_two_pow_succ, hc, hmod]
      · refine ⟨(bitrev (q + 1) (t + 1), re1, im1), ?_, rfl, hl1, hl2⟩
        simp [reverseBitsBody, hlt, shiftRight_two_pow_succ, hc, hmod])
    ⟨(bitrev_zero p).symm, hre, him⟩
  simp only [Nat.zero_add] at hj hl1 hl2
  subst hj
  exact ⟨re', im', hs, hl1, hl2⟩

theorem shiftLeft_two_pow (p l : Nat) (hl : l < p) (hp : p ≤ 15) :
    (2 ^ l <<< 1) % 2 ^ 16 = 2 * 2 ^ l ∧ 2 * 2 ^ l ≤ 2 ^ p := by
  have h1 : 2 * 2 ^ l ≤ 2 ^ p := by
    rw [← pow_succ']; exact Nat.pow_le_pow_right (by norm_num) hl
  have h2 : 2 ^ p ≤ 2 ^ 15 := Nat.pow_le_pow_right (by norm_num) hp
  refine ⟨?_, h1⟩
  rw [Nat.shiftLeft_eq, pow_one, mul_comm]
  apply Nat.mod_eq_of_lt
  omega

theorem two_pow_split (p l : Nat) (hl : l < p) : 2 ^ p = 2 ^ (p - l - 1) * (2 * 2 ^ l) := by
  rw [← pow_succ', ← pow_add]; congr 1; omega

theorem stageLoop_prefix (p : Nat) (hp : p ≤ 15) (dir : Direction) (re im : List ℝ)
    (hre : re.length = 2 ^ p) (him : im.length = 2 ^ p) (fuel : Nat) (hfuel : 2 ^ p ≤ fuel)
    (l : Nat) (hl : l ≤ p) :
    ∃ c1 c2 re' im',
      forLoop (stageBody Real.sqrt fuel dir (2 ^ p)) l 0 (-1, 0, 1, re, im) =
        some (c1, c2, 2 ^ l, re', im') ∧
      re'.length = 2 ^ p ∧ im'.length = 2 ^ p := by
  have hN : 2 ^ p ≤ 2 ^ 15 := Nat.pow_le_pow_right (by norm_num) hp
  obtain ⟨⟨c1, c2, l2, re', im'⟩, hs, h2, hl1, hl2⟩ :=
    forLoop_inv (stageBody Real.sqrt fuel dir (2 ^ p))
    (fun t (s : ℝ × ℝ × Nat × List ℝ × List ℝ) =>
      s.2.2.1 = 2 ^ t ∧ s.2.2.2.1.length = 2 ^ p ∧ s.2.2.2.2.length = 2 ^ p)
    l 0 (-1, 0, 1, re, im)
    (by
      rintro t ⟨c1, c2, l1, re1, im1⟩ _ ht ⟨h1, hr1, hm1⟩
      simp only at h1 hr1 hm1
      subst h1
      have htp : t < p := by omega
      have hT : 2 ^ (p - t - 1) < fuel := by
        have : 2 ^ (p - t - 1) < 2 ^ p := Nat.pow_lt_pow_right (by norm_num) (by omega)
        omega
      obtain ⟨u1, u2, re2, im2, hg, hr2, hm2, _⟩ := groupLoop_spec (2 ^ p) (2 ^ t)
        (2 ^ (p - t - 1)) (by positivity) (two_pow_split p t htp) hN c1 c2 re1 im1 hr1 hm1 fuel hT
      refine ⟨(Real.sqrt ((1 + c1) / 2),
        (if dir = Direction.FFT_FORWARD then -Real.sqrt ((1 - c1) / 2)
          else Real.sqrt ((1 - c1) / 2)),
        2 * 2 ^ t, re2, im2), ?_, by simp only; ring, hr2, hm2⟩
      simp only [stageBody, (shiftLeft_two_pow p t htp hp).1, hg, Option.some_bind,
        Option.bind_eq_bind])
    ⟨by simp, hre, him⟩
  simp only [Nat.zero_add] at h2 hl1 hl2
  subst h2
  exact ⟨c1, c2, re', im', hs, hl1, hl2⟩

theorem groupLoop_prefix (N l1 T : Nat) (hl1 : 0 < l1) (hN : N = T * (2 * l1))
    (hN15 : N ≤ 2 ^ 15) (c1 c2 : ℝ) (re im : List ℝ)
    (hre : re.length = N) (him : im.length = N) (fuel : Nat) (hfuel : T < fuel)
    (j : Nat) (hj : j ≤ l1) :
    ∃ u1 u2 re' im',
      forLoop (groupBody fuel N l1 (2 * l1) c1 c2) j 0 (1, 0, re, im) = some (u1, u2, re', im') ∧
      re'.length = N ∧ im'.length = N := by
  obtain ⟨⟨u1, u2, re', im'⟩, hs, hr, hm⟩ := forLoop_inv (groupBody fuel N l1 (2 * l1) c1 c2)
    (fun _ (s : ℝ × ℝ × List ℝ × List ℝ) => s.2.2.1.length = N ∧ s.2.2.2.length = N)
    j 0 (1, 0, re, im)
    (by
      rintro t ⟨u1, u2, re1, im1⟩ _ ht ⟨hr1, hm1⟩
      simp only at hr1 hm1
      obtain ⟨i, re2, im2, hb, hr2, hm2, _⟩ := butterflyLoop_spec N l1 T hl1 hN hN15 u1 u2 t
        (by omega) re1 im1 hr1 hm1 fuel hfuel
      exact ⟨(u1 * c1 - u2 * c2, u1 * c2 + u2 * c1, re2, im2), by simp [groupBody, hb], hr2, hm2⟩)
    ⟨hre, him⟩
  exact ⟨u1, u2, re', im', hs, hr, hm⟩

theorem butterfly_iter (N l1 T : Nat) (hl1 : 0 < l1) (hN : N = T * (2 * l1))
    (hN15 : N ≤ 2 ^ 15) (u1 u2 : ℝ) (j : Nat) (hj : j < l1) :
    ∀ (n t0 : Nat) (re im : List ℝ) (s : Nat × List ℝ × List ℝ),
      re.length = N → im.length = N → t0 ≤ T →
      iterWhile (fun s : Nat × List ℝ × List ℝ => decide (s.1 < N))
        (butterflyBody l1 (2 * l1) u1 u2) n (j + t0 * (2 * l1), re, im) = some s →
      s.1 = j + (t0 + n) * (2 * l1) ∧ t0 + n ≤ T := by
  intro n
  induction n with
  | zero =>
    intro t0 re im s _ _ ht0 h
    simp only [iterWhile, Option.some.injEq] at h
    subst h
    exact ⟨by simp, by omega⟩
  | succ n ih =>
    intro t0 re im s hre him ht0 h
    rw [iterWhile_succ] at h
    by_cases hc : j + t0 * (2 * l1) < N
    · have ht : t0 < T := by
        by_contra hge
        have : T * (2 * l1) ≤ t0 * (2 * l1) := Nat.mul_le_mul_right _ (by omega)
        omega
      have hle : (t0 + 1) * (2 * l1) ≤ T * (2 * l1) := Nat.mul_le_mul_right _ ht
      have hlt : j + t0 * (2 * l1) + l1 < N := by rw [hN]; nlinarith
      obtain ⟨re2, im2, hb, hr2, hm2, _⟩ := butterflyBody_spec l1 (2 * l1) u1 u2
        (j + t0 * (2 * l1)) re im N hre him hl1 hlt (by omega) (by rw [hN] at hN15; nlinarith)
      simp only [hc, decide_True, if_true, hb, Option.some_bind, Option.bind_eq_bind] at h
      have e : j + t0 * (2 * l1) + 2 * l1 = j + (t0 + 1) * (2 * l1) := by ring
      rw [e] at h
      obtain ⟨h1, h2⟩ := ih (t0 + 1) re2 im2 s hr2 hm2 ht h
      exact ⟨by rw [h1]; ring, by omega⟩
    · simp [hc] at h

/-! ## The claims -/

/-- C1: for `N = 2 ^ p` with `p ≤ 15`, a real buffer `x` of length `N` and an
all-zero imaginary buffer, `FFT_Init` followed by `FFT_Compute` in the forward
direction (exact real arithmetic, enough fuel) returns buffers whose element `k`
is the real and the imaginary part of `∑ n < N, x[n] * exp (-2 π i k n / N)`. -/
theorem FFT_Compute_forward_real_dft (p : Nat) (hp : p ≤ 15) (x : List ℝ)
    (hx : x.length = 2 ^ p) (fs : ℝ) (fuel : Nat) (hfuel : 2 ^ p ≤ fuel) :
    ∃ g g', FFT_Init fuel x (List.replicate (2 ^ p) 0) (2 ^ p) fs = some g ∧
      FFT_Compute Real.sqrt fuel Direction.FFT_FORWARD g = some g' ∧
      ∀ k : Nat, k < 2 ^ p →
        g'._vReal[k]? = some (∑ n in range (2 ^ p), ((x.getD n 0 : ℝ) : ℂ) *
          Complex.exp (-2 * Real.pi * Complex.I * (k : ℂ) * (n : ℂ) / 2 ^ p)).re ∧
        g'._vImag[k]? = some (∑ n in range (2 ^ p), ((x.getD n 0 : ℝ) : ℂ) *
          Complex.exp (-2 * Real.pi * Complex.I * (k : ℂ) * (n : ℂ) / 2 ^ p)).im := by
  have hpf : p < fuel := lt_of_lt_of_le (Nat.lt_two_pow p) hfuel
  obtain ⟨re', im', hc, hr, hm, hZ⟩ := FFT_Compute_cbuf p hp Direction.FFT_FORWARD x
    (List.replicate (2 ^ p) 0) fs hx (by simp) fuel hfuel
  refine ⟨_, _, FFT_Init_two_pow p hp _ _ fs fuel hpf, hc, ?_⟩
  intro k hk
  apply cbuf_get re' im' (2 ^ p) k hr hm hk
  rw [hZ k hk]
  simp only [if_true, div_one]
  apply sum_congr rfl
  intro n _
  rw [inputOf_forward_zero, root_pow_forward]

/-- Witness of C1 at `p = 1`, `x = [1, 2]`, fuel 2. -/
theorem FFT_Compute_forward_real_dft_witness :
    (1 ≤ 15 ∧ ([1, 2] : List ℝ).length = 2 ^ 1 ∧ 2 ^ 1 ≤ 2) ∧
    ∃ g g', FFT_Init 2 ([1, 2] : List ℝ) (List.replicate (2 ^ 1) 0) (2 ^ 1) 1 = some g ∧
      FFT_Compute Real.sqrt 2 Direction.FFT_FORWARD g = some g' ∧
      ∀ k : Nat, k < 2 ^ 1 →
        g'._vReal[k]? = some (∑ n in range (2 ^ 1), (((([1, 2] : List ℝ).getD n 0 : ℝ)) : ℂ) *
          Complex.exp (-2 * Real.pi * Complex.I * (k : ℂ) * (n : ℂ) / 2 ^ 1)).re ∧
        g'._vImag[k]? = some (∑ n in range (2 ^ 1), (((([1, 2] : List ℝ).getD n 0 : ℝ)) : ℂ) *
          Complex.exp (-2 * Real.pi * Complex.I * (k : ℂ) * (n : ℂ) / 2 ^ 1)).im :=
  ⟨⟨by norm_num, rfl, by norm_num⟩,
    FFT_Compute_forward_real_dft 1 (by norm_num) [1, 2] rfl 1 2 (by norm_num)⟩

/-- C2: for `N = 2 ^ p` with `p ≤ 15`, a real buffer `x` of length `N` and an
all-zero imaginary buffer, `FFT_Compute` in the reverse direction applied to the
result of `FFT_Compute` in the forward direction (exact real arithmetic, enough
fuel) leaves `real[i] = x[i]` and `imag[i] = 0` for every `i < N`. -/
theorem FFT_Compute_round_trip (p : Nat) (hp : p ≤ 15) (x : List ℝ)
    (hx : x.length = 2 ^ p) (fs : ℝ) (fuel : Nat) (hfuel : 2 ^ p ≤ fuel) :
    ∃ g g1 g2, FFT_Init fuel x (List.replicate (2 ^ p) 0) (2 ^ p) fs = some g ∧
      FFT_Compute Real.sqrt fuel Direction.FFT_FORWARD g = some g1 ∧
      FFT_Compute Real.sqrt fuel Direction.FFT_REVERSE g1 = some g2 ∧
      ∀ i : Nat, i < 2 ^ p → g2._vReal[i]? = x[i]? ∧ g2._vImag[i]? = some 0 := by
  have hpf : p < fuel := lt_of_lt_of_le (Nat.lt_two_pow p) hfuel
  obtain ⟨re1, im1, hc1, hr1, hm1, hZ1⟩ := FFT_Compute_cbuf p hp Direction.FFT_FORWARD x
    (List.replicate (2 ^ p) 0) fs hx (by simp) fuel hfuel
  obtain ⟨re2, im2, hc2, hr2, hm2, hZ2⟩ := FFT_Compute_cbuf p hp Direction.FFT_REVERSE re1 im1
    fs hr1 hm1 fuel hfuel
  refine ⟨_, _, _, FFT_Init_two_pow p hp _ _ fs fuel hpf, hc1, hc2, ?_⟩
  intro i hi
  have hne : Direction.FFT_REVERSE ≠ Direction.FFT_FORWARD := by decide
  have hN0 : ((2 ^ p : ℕ) : ℂ) ≠ 0 := by
    exact_mod_cast (by positivity : (2 ^ p : ℕ) ≠ 0)
  have hkey : cbuf re2 im2 i = ((x.getD i 0 : ℝ) : ℂ) := by
    rw [hZ2 i hi, if_neg hne]
    have hsum : ∑ n in range (2 ^ p), inputOf Direction.FFT_REVERSE p re1 im1 n *
        Complex.exp ((dirSign Direction.FFT_REVERSE : ℂ) * (2 * Real.pi * Complex.I) / 2 ^ p) ^
          (i * n) =
        ((2 ^ p : ℕ) : ℂ) * ((x.getD i 0 : ℝ) : ℂ) := by
      rw [← dft_inversion _ (2 ^ p) (reverse_root_primitive p)
        (fun m => ((x.getD m 0 : ℝ) : ℂ)) i hi]
      apply sum_congr rfl
      intro n hn
      rw [inputOf_reverse, hZ1 n (mem_range.1 hn)]
      simp only [if_true, div_one]
      congr 1
      apply sum_congr rfl
      intro m _
      rw [inputOf_forward_zero, forward_root_inv]
    rw [hsum, mul_comm, mul_div_assoc, div_self hN0, mul_one]
  obtain ⟨h1, h2⟩ := cbuf_get re2 im2 (2 ^ p) i hr2 hm2 hi _ hkey
  refine ⟨?_, by simpa using h2⟩
  rw [h1]
  have hix : i < x.length := by omega
  simp [List.getD_eq_getElem?_getD, List.getElem?_eq_getElem hix]

/-- Witness of C2 at `p = 1`, `x = [1, 2]`, fuel 2. -/
theorem FFT_Compute_round_trip_witness :
    (1 ≤ 15 ∧ ([1, 2] : List ℝ).length = 2 ^ 1 ∧ 2 ^ 1 ≤ 2) ∧
    ∃ g g1 g2, FFT_Init 2 ([1, 2] : List ℝ) (List.replicate (2 ^ 1) 0) (2 ^ 1) 1 = some g ∧
      FFT_Compute Real.sqrt 2 Direction.FFT_FORWARD g = some g1 ∧
      FFT_Compute Real.sqrt 2 Direction.FFT_REVERSE g1 = some g2 ∧
      ∀ i : Nat, i < 2 ^ 1 → g2._vReal[i]? = ([1, 2] : List ℝ)[i]? ∧ g2._vImag[i]? = some 0 :=
  ⟨⟨by norm_num, rfl, by norm_num⟩,
    FFT_Compute_round_trip 1 (by norm_num) [1, 2] rfl 1 2 (by norm_num)⟩

/-- C3: for `N = 2 ^ p` with `p ≤ 15` and any two buffers of length `N`,
`FFT_Compute` in the reverse direction (exact real arithmetic, enough fuel)
returns buffers whose element `n` is the real and the imaginary part of
`(1 / N) * ∑ k < N, (re[k] + i * im[k]) * exp (2 π i k n / N)`. -/
theorem FFT_Compute_reverse_inverse_dft (p : Nat) (hp : p ≤ 15) (re im : List ℝ)
    (hre : re.length = 2 ^ p) (him : im.length = 2 ^ p) (fs : ℝ) (fuel : Nat)
    (hfuel : 2 ^ p ≤ fuel) :
    ∃ g g', FFT_Init fuel re im (2 ^ p) fs = some g ∧
      FFT_Compute Real.sqrt fuel Direction.FFT_REVERSE g = some g' ∧
      ∀ n : Nat, n < 2 ^ p →
        g'._vReal[n]? = some ((1 / (2 ^ p : ℂ)) * ∑ k in range (2 ^ p),
          (⟨re.getD k 0, im.getD k 0⟩ : ℂ) *
            Complex.exp (2 * Real.pi * Complex.I * (k : ℂ) * (n : ℂ) / 2 ^ p)).re ∧
        g'._vImag[n]? = some ((1 / (2 ^ p : ℂ)) * ∑ k in range (2 ^ p),
          (⟨re.getD k 0, im.getD k 0⟩ : ℂ) *
            Complex.exp (2 * Real.pi * Complex.I * (k : ℂ) * (n : ℂ) / 2 ^ p)).im := by
  have hpf : p < fuel := lt_of_lt_of_le (Nat.lt_two_pow p) hfuel
  obtain ⟨re', im', hc, hr, hm, hZ⟩ := FFT_Compute_cbuf p hp Direction.FFT_REVERSE re im fs
    hre him fuel hfuel
  refine ⟨_, _, FFT_Init_two_pow p hp _ _ fs fuel hpf, hc, ?_⟩
  intro n hn
  apply cbuf_get re' im' (2 ^ p) n hr hm hn
  rw [hZ n hn]
  have hne : Direction.FFT_REVERSE ≠ Direction.FFT_FORWARD := by decide
  rw [if_neg hne, div_eq_mul_inv, mul_comm, one_div]
  push_cast
  congr 1
  apply sum_congr rfl
  intro k _
  rw [inputOf_reverse, root_pow_reverse, cbuf]
  congr 2
  ring

/-- Witness of C3 at `p = 1`, `re = [1, 2]`, `im = [3, 4]`, fuel 2. -/
theorem FFT_Compute_reverse_inverse_dft_witness :
    (1 ≤ 15 ∧ ([1, 2] : List ℝ).length = 2 ^ 1 ∧ ([3, 4] : List ℝ).length = 2 ^ 1 ∧ 2 ^ 1 ≤ 2) ∧
    ∃ g g', FFT_Init 2 ([1, 2] : List ℝ) [3, 4] (2 ^ 1) 1 = some g ∧
      FFT_Compute Real.sqrt 2 Direction.FFT_REVERSE g = some g' ∧
      ∀ n : Nat, n < 2 ^ 1 →
        g'._vReal[n]? = some ((1 / (2 ^ 1 : ℂ)) * ∑ k in range (2 ^ 1),
          (⟨([1, 2] : List ℝ).getD k 0, ([3, 4] : List ℝ).getD k 0⟩ : ℂ) *
            Complex.exp (2 * Real.pi * Complex.I * (k : ℂ) * (n : ℂ) / 2 ^ 1)).re ∧
        g'._vImag[n]? = some ((1 / (2 ^ 1 : ℂ)) * ∑ k in range (2 ^ 1),
          (⟨([1, 2] : List ℝ).getD k 0, ([3, 4] : List ℝ).getD k 0⟩ : ℂ) *
            Complex.exp (2 * Real.pi * Complex.I * (k : ℂ) * (n : ℂ) / 2 ^ 1)).im :=
  ⟨⟨by norm_num, rfl, rfl, by norm_num⟩,
    FFT_Compute_reverse_inverse_dft 1 (by norm_num) [1, 2] [3, 4] rfl rfl 1 2 (by norm_num)⟩

/-- What `FFT_Compute` returns on Forward for an arbitrary imaginary input, the
general form of the defect reported under C4: the reordering loop exchanges
`_vImag[i]` and `_vImag[j]` only when `dir == FFT_REVERSE` (lines 51-52), so for
`N = 2 ^ p` with `p ≤ 15` and any two buffers of length `N` the result is
`∑ n < N, (re[n] + i * im[rev_p n]) * exp (-2 π i k n / N)`, the transform of an
input whose imaginary part is taken in bit-reversed order, and not the
complex-to-complex transform that the comment of line 45 announces. -/
theorem FFT_Compute_forward_complex (p : Nat) (hp : p ≤ 15) (re im : List ℝ)
    (hre : re.length = 2 ^ p) (him : im.length = 2 ^ p) (fs : ℝ) (fuel : Nat)
    (hfuel : 2 ^ p ≤ fuel) :
    ∃ g g', FFT_Init fuel re im (2 ^ p) fs = some g ∧
      FFT_Compute Real.sqrt fuel Direction.FFT_FORWARD g = some g' ∧
      ∀ k : Nat, k < 2 ^ p →
        g'._vReal[k]? = some (∑ n in range (2 ^ p),
          (⟨re.getD n 0, im.getD (bitrev p n) 0⟩ : ℂ) *
            Complex.exp (-2 * Real.pi * Complex.I * (k : ℂ) * (n : ℂ) / 2 ^ p)).re ∧
        g'._vImag[k]? = some (∑ n in range (2 ^ p),
          (⟨re.getD n 0, im.getD (bitrev p n) 0⟩ : ℂ) *
            Complex.exp (-2 * Real.pi * Complex.I * (k : ℂ) * (n : ℂ) / 2 ^ p)).im := by
  have hpf : p < fuel := lt_of_lt_of_le (Nat.lt_two_pow p) hfuel
  obtain ⟨re', im', hc, hr, hm, hZ⟩ := FFT_Compute_cbuf p hp Direction.FFT_FORWARD re im fs
    hre him fuel hfuel
  refine ⟨_, _, FFT_Init_two_pow p hp _ _ fs fuel hpf, hc, ?_⟩
  intro k hk
  apply cbuf_get re' im' (2 ^ p) k hr hm hk
  rw [hZ k hk]
  simp only [if_true, div_one]
  apply sum_congr rfl
  intro n _
  rw [root_pow_forward]
  simp [inputOf]

/-- C4 (defect of the code, evaluated at a failing input): with `N = 4`, an all-zero
real buffer and the imaginary buffer `[0, 1, 0, 0]`, `FFT_Compute` on Forward
leaves `(0, -1)` at index 1, while the complex-to-complex transform that the
comment of line 45 announces, `∑ n < 4, (re[n] + i * im[n]) * exp (-2 π i n / 4)`,
has the value `1` there.  The reordering loop exchanges the imaginary elements
only under `if(dir==FFT_REVERSE)` (lines 51-52); the Reverse path exchanges both
buffers. -/
theorem FFT_Compute_forward_complex_failing_input :
    ∃ g g', FFT_Init 4 [0, 0, 0, 0] [0, 1, 0, 0] (2 ^ 2) (1 : ℝ) = some g ∧
      FFT_Compute Real.sqrt 4 Direction.FFT_FORWARD g = some g' ∧
      g'._vReal[1]? = some 0 ∧ g'._vImag[1]? = some (-1 : ℝ) ∧
      (∑ n in range (2 ^ 2),
          (⟨([0, 0, 0, 0] : List ℝ).getD n 0, ([0, 1, 0, 0] : List ℝ).getD n 0⟩ : ℂ) *
            Complex.exp (-2 * Real.pi * Complex.I * ((1 : ℕ) : ℂ) * (n : ℂ) / 2 ^ 2)) = 1 ∧
      g'._vReal[1]? ≠ some (∑ n in range (2 ^ 2),
          (⟨([0, 0, 0, 0] : List ℝ).getD n 0, ([0, 1, 0, 0] : List ℝ).getD n 0⟩ : ℂ) *
            Complex.exp (-2 * Real.pi * Complex.I * ((1 : ℕ) : ℂ) * (n : ℂ) / 2 ^ 2)).re := by
  obtain ⟨re', im', hc, hr, hm, hZ⟩ := FFT_Compute_cbuf 2 (by norm_num) Direction.FFT_FORWARD
    [0, 0, 0, 0] [0, 1, 0, 0] 1 rfl rfl 4 (by norm_num)
  have hout : cbuf re' im' 1 = -Complex.I := by
    rw [hZ 1 (by norm_num)]
    have h2 := root_half Direction.FFT_FORWARD 1
    have h0 : (⟨0, 0⟩ : ℂ) = 0 := rfl
    have h1 : (⟨0, 1⟩ : ℂ) = Complex.I := rfl
    have hne : ¬ (Direction.FFT_FORWARD = Direction.FFT_REVERSE) := by decide
    norm_num at h2
    norm_num [sum_range_succ, inputOf, bitrev, hne, h0, h1, h2]
  obtain ⟨h1, h2⟩ := cbuf_get re' im' (2 ^ 2) 1 hr hm (by norm_num) _ hout
  have hdft : (∑ n in range (2 ^ 2),
      (⟨([0, 0, 0, 0] : List ℝ).getD n 0, ([0, 1, 0, 0] : List ℝ).getD n 0⟩ : ℂ) *
        Complex.exp (-2 * Real.pi * Complex.I * ((1 : ℕ) : ℂ) * (n : ℂ) / 2 ^ 2)) = 1 := by
    have h0 : (⟨0, 0⟩ : ℂ) = 0 := rfl
    have h1 : (⟨0, 1⟩ : ℂ) = Complex.I := rfl
    have hq := quarter_root
    norm_num at hq
    norm_num [sum_range_succ, h0, h1, hq]
  refine ⟨_, _, FFT_Init_two_pow 2 (by norm_num) _ _ 1 4 (by norm_num), hc, ?_, ?_, hdft, ?_⟩
  · simpa using h1
  · simpa using h2
  · rw [hdft, h1]; simp

/-- Instance of `FFT_Compute_forward_complex` at `p = 2`, `re = [1, 2, 3, 4]`,
`im = [5, 6, 7, 8]`, fuel 4. -/
theorem FFT_Compute_forward_complex_witness :
    (2 ≤ 15 ∧ ([1, 2, 3, 4] : List ℝ).length = 2 ^ 2 ∧ ([5, 6, 7, 8] : List ℝ).length = 2 ^ 2 ∧
      2 ^ 2 ≤ 4) ∧
    ∃ g g', FFT_Init 4 ([1, 2, 3, 4] : List ℝ) [5, 6, 7, 8] (2 ^ 2) 1 = some g ∧
      FFT_Compute Real.sqrt 4 Direction.FFT_FORWARD g = some g' ∧
      ∀ k : Nat, k < 2 ^ 2 →
        g'._vReal[k]? = some (∑ n in range (2 ^ 2),
          (⟨([1, 2, 3, 4] : List ℝ).getD n 0, ([5, 6, 7, 8] : List ℝ).getD (bitrev 2 n) 0⟩ : ℂ) *
            Complex.exp (-2 * Real.pi * Complex.I * (k : ℂ) * (n : ℂ) / 2 ^ 2)).re ∧
        g'._vImag[k]? = some (∑ n in range (2 ^ 2),
          (⟨([1, 2, 3, 4] : List ℝ).getD n 0, ([5, 6, 7, 8] : List ℝ).getD (bitrev 2 n) 0⟩ : ℂ) *
            Complex.exp (-2 * Real.pi * Complex.I * (k : ℂ) * (n : ℂ) / 2 ^ 2)).im :=
  ⟨⟨by norm_num, rfl, rfl, by norm_num⟩,
    FFT_Compute_forward_complex 2 (by norm_num) [1, 2, 3, 4] [5, 6, 7, 8] rfl rfl 1 4
      (by norm_num)⟩

/-- C5: for `p ≤ 15` the scan of `Exponent` on `2 ^ p` terminates (any fuel above
`p` is enough) and returns `p`, so the context recorded by `FFT_Init` with
`samples = 2 ^ p` satisfies `_samples = 2 ^ _power`. -/
theorem Exponent_two_pow_FFT_Init {α : Type} (p : Nat) (hp : p ≤ 15) (fuel : Nat)
    (hfuel : p < fuel) (vReal vImag : List α) (samplingFrequency : α) :
    Exponent fuel (2 ^ p) = some p ∧
    ∃ g, FFT_Init fuel vReal vImag (2 ^ p) samplingFrequency = some g ∧
      g._power = p ∧ g._samples = 2 ^ g._power ∧ g._vReal = vReal ∧ g._vImag = vImag ∧
      g._samplingFrequency = samplingFrequency :=
  ⟨Exponent_two_pow p hp fuel hfuel,
    _, FFT_Init_two_pow p hp vReal vImag samplingFrequency fuel hfuel, rfl, rfl, rfl, rfl, rfl⟩

/-- Witness of C5 at `p = 3`, fuel 4. -/
theorem Exponent_two_pow_FFT_Init_witness :
    (3 ≤ 15 ∧ 3 < 4) ∧
    (Exponent 4 (2 ^ 3) = some 3 ∧
    ∃ g, FFT_Init 4 (List.replicate 8 (0 : ℚ)) (List.replicate 8 (0 : ℚ)) (2 ^ 3) 1000 = some g ∧
      g._power = 3 ∧ g._samples = 2 ^ g._power ∧ g._vReal = List.replicate 8 (0 : ℚ) ∧
      g._vImag = List.replicate 8 (0 : ℚ) ∧ g._samplingFrequency = 1000) :=
  ⟨⟨by decide, by decide⟩,
    Exponent_two_pow_FFT_Init 3 (by decide) 4 (by decide) (List.replicate 8 (0 : ℚ))
      (List.replicate 8 (0 : ℚ)) 1000⟩

/-- C6 (counterexample): `FFT_Init` with `samples = 100` does not fail: with fuel 3
it returns a context, and the exponent it records is 2. -/
theorem FFT_Init_100_counterexample :
    FFT_Init 3 (List.replicate 100 (0 : ℚ)) (List.replicate 100 (0 : ℚ)) 100 1000 =
      some { _vReal := List.replicate 100 (0 : ℚ), _vImag := List.replicate 100 (0 : ℚ),
             _samples := 100, _samplingFrequency := 1000, _power := 2 } := by
  simp [FFT_Init, Exponent, whileLoop]

/-- C6 (as amended): `FFT_Init` with `samples = 100` reports no error: for every
fuel above 2 the scan of `Exponent` stops at the lowest set bit of 100 and the
context is recorded with `_power = 2`, although `100 ≠ 2 ^ 2`. -/
theorem FFT_Init_100_proceeds {α : Type} (vReal vImag : List α) (samplingFrequency : α)
    (fuel : Nat) (hfuel : 2 < fuel) :
    FFT_Init fuel vReal vImag 100 samplingFrequency =
      some { _vReal := vReal, _vImag := vImag, _samples := 100,
             _samplingFrequency := samplingFrequency, _power := 2 } ∧ 100 ≠ 2 ^ 2 := by
  obtain ⟨f, rfl⟩ : ∃ f, fuel = f + 3 := ⟨fuel - 3, by omega⟩
  refine ⟨?_, by decide⟩
  simp [FFT_Init, Exponent, whileLoop]

/-- Witness of C6 (as amended) at fuel 16 and empty buffers. -/
theorem FFT_Init_100_proceeds_witness :
    2 < 16 ∧
    (FFT_Init 16 ([] : List ℚ) [] 100 1 =
      some { _vReal := [], _vImag := [], _samples := 100, _samplingFrequency := 1, _power := 2 } ∧
      100 ≠ 2 ^ 2) :=
  ⟨by decide, FFT_Init_100_proceeds [] [] 1 16 (by decide)⟩

/-- C7 (counterexample): 6 has two bits set and the scan of `Exponent` terminates
on it, at the second evaluation of its condition, with result 1. -/
theorem Exponent_6_counterexample : Exponent 2 6 = some 1 := by
  simp [Exponent, whileLoop]

/-- C7 (as amended): the scan of `Exponent` never terminates on 0 (no fuel gives a
result), and on every other 16-bit value, one bit set or several, it terminates
and returns the index of the lowest set bit. -/
theorem Exponent_scan :
    (∀ fuel, Exponent fuel 0 = none) ∧
    ∀ v, 0 < v → v < 2 ^ 16 →
      ∃ r, r < 16 ∧ v.testBit r = true ∧ (∀ i, i < r → v.testBit i = false) ∧
        ∀ fuel, r < fuel → Exponent fuel v = some r :=
  ⟨Exponent_zero, Exponent_lowest_bit⟩

/-- Witness of C7 (as amended) at the value 12. -/
theorem Exponent_scan_witness :
    (0 < 12 ∧ 12 < 2 ^ 16) ∧
    ∃ r, r < 16 ∧ (12 : Nat).testBit r = true ∧ (∀ i, i < r → (12 : Nat).testBit i = false) ∧
        ∀ fuel, r < fuel → Exponent fuel 12 = some r :=
  ⟨⟨by decide, by decide⟩, Exponent_scan.2 12 (by decide) (by decide)⟩

/-- C8: for `N = 2 ^ p` with `p ≤ 15` the reordering loop of `FFT_Compute`
terminates (fuel `p` is enough) and leaves `real'[i] = real[rev_p i]` for every
`i < N`, where `rev_p i = bitrev p i` is below `N`, is an involution and has bit
`b` equal to bit `p - 1 - b` of `i`; on Reverse the imaginary buffer is permuted
in the same way and on Forward it is left unchanged. -/
theorem reverseBits_permutation {α : Type} (p : Nat) (hp : p ≤ 15) (dir : Direction)
    (vReal vImag : List α) (hre : vReal.length = 2 ^ p) (him : vImag.length = 2 ^ p)
    (fuel : Nat) (hfuel : p ≤ fuel) :
    (∃ j re' im', reverseBits fuel dir (2 ^ p) vReal vImag = some (j, re', im') ∧
      re'.length = 2 ^ p ∧ im'.length = 2 ^ p ∧
      (∀ i, i < 2 ^ p → re'[i]? = vReal[bitrev p i]?) ∧
      (dir = Direction.FFT_REVERSE → ∀ i, i < 2 ^ p → im'[i]? = vImag[bitrev p i]?) ∧
      (dir = Direction.FFT_FORWARD → im' = vImag)) ∧
    ∀ i, i < 2 ^ p → bitrev p i < 2 ^ p ∧ bitrev p (bitrev p i) = i ∧
      ∀ b, b < p → (bitrev p i).testBit b = i.testBit (p - 1 - b) :=
  ⟨reverseBits_spec p hp dir vReal vImag hre him fuel hfuel,
    fun i hi => ⟨bitrev_lt p i, bitrev_bitrev p i hi, fun b hb => bitrev_testBit p i b hb⟩⟩

/-- Witness of C8 at `p = 2`, Forward, fuel 2. -/
theorem reverseBits_permutation_witness :
    (2 ≤ 15 ∧ ([10, 11, 12, 13] : List ℚ).length = 2 ^ 2 ∧
      ([20, 21, 22, 23] : List ℚ).length = 2 ^ 2 ∧ 2 ≤ 2) ∧
    ((∃ j re' im', reverseBits 2 Direction.FFT_FORWARD (2 ^ 2) ([10, 11, 12, 13] : List ℚ)
        ([20, 21, 22, 23] : List ℚ) = some (j, re', im') ∧
      re'.length = 2 ^ 2 ∧ im'.length = 2 ^ 2 ∧
      (∀ i, i < 2 ^ 2 → re'[i]? = ([10, 11, 12, 13] : List ℚ)[bitrev 2 i]?) ∧
      (Direction.FFT_FORWARD = Direction.FFT_REVERSE →
        ∀ i, i < 2 ^ 2 → im'[i]? = ([20, 21, 22, 23] : List ℚ)[bitrev 2 i]?) ∧
      (Direction.FFT_FORWARD = Direction.FFT_FORWARD → im' = ([20, 21, 22, 23] : List ℚ))) ∧
    ∀ i, i < 2 ^ 2 → bitrev 2 i < 2 ^ 2 ∧ bitrev 2 (bitrev 2 i) = i ∧
      ∀ b, b < 2 → (bitrev 2 i).testBit b = i.testBit (2 - 1 - b)) :=
  ⟨⟨by decide, rfl, rfl, by decide⟩,
    reverseBits_permutation 2 (by decide) Direction.FFT_FORWARD [10, 11, 12, 13]
      [20, 21, 22, 23] rfl rfl 2 (by decide)⟩

/-- C9: for each of the seven window types, `N = 2 ^ p` with `1 ≤ p ≤ 15` and a
real buffer `x` of length `N`, if every weight computed for `i < N / 2` is
non-zero then `FFT_Windowing` on Reverse after `FFT_Windowing` on Forward (exact
real arithmetic) returns the initial state: `real[i] = x[i]` for every `i < N`,
and the imaginary buffer is the one given. -/
theorem FFT_Windowing_invertible (windowType : WindowType) (p : Nat) (hp1 : 1 ≤ p)
    (hp : p ≤ 15) (x vImag : List ℝ) (hx : x.length = 2 ^ p) (fs : ℝ)
    (hw : ∀ i, i < 2 ^ p / 2 →
      weighingFactor Real.cos abs (2 * Real.pi) (4 * Real.pi) windowType (2 ^ p) i ≠ 0) :
    2 ≤ 2 ^ p ∧ 2 ^ p < 2 ^ 16 ∧
    ∃ g1 g2,
      FFT_Windowing Real.cos abs (2 * Real.pi) (4 * Real.pi) windowType Direction.FFT_FORWARD
        { _vReal := x, _vImag := vImag, _samples := 2 ^ p, _samplingFrequency := fs,
          _power := p } = some g1 ∧
      FFT_Windowing Real.cos abs (2 * Real.pi) (4 * Real.pi) windowType Direction.FFT_REVERSE g1 =
        some g2 ∧
      g2._vImag = vImag ∧ ∀ i, i < 2 ^ p → g2._vReal[i]? = x[i]? := by
  have hhalf : 2 ^ p >>> 1 = 2 ^ p / 2 := by rw [Nat.shiftRight_eq_div_pow, pow_one]
  obtain ⟨g1, h1, h2⟩ := FFT_Windowing_round_trip Real.cos abs (2 * Real.pi) (4 * Real.pi) windowType
    { _vReal := x, _vImag := vImag, _samples := 2 ^ p, _samplingFrequency := fs, _power := p }
    hx (by intro i hi; exact hw i (by simpa [hhalf] using hi))
  refine ⟨?_, Nat.pow_lt_pow_right (by norm_num) (by omega), g1, _, h1, h2, rfl, fun i _ => rfl⟩
  calc 2 = 2 ^ 1 := by norm_num
    _ ≤ 2 ^ p := Nat.pow_le_pow_right (by norm_num) hp1

/-- Witness of C9 for the Hamming window at `p = 1`, `x = [3, 5]`. -/
theorem FFT_Windowing_invertible_witness :
    (1 ≤ 1 ∧ 1 ≤ 15 ∧ ([3, 5] : List ℝ).length = 2 ^ 1 ∧
      ∀ i, i < 2 ^ 1 / 2 →
        weighingFactor Real.cos abs (2 * Real.pi) (4 * Real.pi) WindowType.FFT_WIN_TYP_HAMMING
          (2 ^ 1) i ≠ 0) ∧
    (2 ≤ 2 ^ 1 ∧ 2 ^ 1 < 2 ^ 16 ∧
    ∃ g1 g2,
      FFT_Windowing Real.cos abs (2 * Real.pi) (4 * Real.pi) WindowType.FFT_WIN_TYP_HAMMING
        Direction.FFT_FORWARD
        { _vReal := ([3, 5] : List ℝ), _vImag := [0, 0], _samples := 2 ^ 1,
          _samplingFrequency := 1, _power := 1 } = some g1 ∧
      FFT_Windowing Real.cos abs (2 * Real.pi) (4 * Real.pi) WindowType.FFT_WIN_TYP_HAMMING
        Direction.FFT_REVERSE g1 = some g2 ∧
      g2._vImag = [0, 0] ∧ ∀ i, i < 2 ^ 1 → g2._vReal[i]? = ([3, 5] : List ℝ)[i]?) :=
  ⟨⟨le_refl _, by norm_num, rfl, fun i _ => ne_of_gt (weight_hamming (2 ^ 1) i).1⟩,
    FFT_Windowing_invertible WindowType.FFT_WIN_TYP_HAMMING 1 (le_refl _) (by norm_num)
      [3, 5] [0, 0] rfl 1 (fun i _ => ne_of_gt (weight_hamming (2 ^ 1) i).1)⟩

/-- C10 (counterexample): for the Hann window with `N = 2` the weight computed at
`i = 0` is `0.54 * (1 - cos 0) = 0`, which is not positive. -/
theorem weighingFactor_hann_counterexample :
    weighingFactor Real.cos abs (2 * Real.pi) (4 * Real.pi) WindowType.FFT_WIN_TYP_HANN (2 ^ 1) 0 = 0 ∧
    ¬ (0 < weighingFactor Real.cos abs (2 * Real.pi) (4 * Real.pi) WindowType.FFT_WIN_TYP_HANN
        (2 ^ 1) 0 ∧
      weighingFactor Real.cos abs (2 * Real.pi) (4 * Real.pi) WindowType.FFT_WIN_TYP_HANN
        (2 ^ 1) 0 ≤ 1) := by
  have h : weighingFactor Real.cos abs (2 * Real.pi) (4 * Real.pi) WindowType.FFT_WIN_TYP_HANN
      (2 ^ 1) 0 = 0 := by
    simp [weighingFactor]
  refine ⟨h, ?_⟩
  rw [h]
  intro hc
  exact lt_irrefl _ hc.1

/-- C10 (as amended): for `N = 2 ^ p` with `1 ≤ p ≤ 15` and `i < N / 2` the weight
computed by `FFT_Windowing` (with `twoPi = 2 π`, `fourPi = 4 π`) is 1 for
Rectangular, lies in `(0, 1]` for Hamming and Blackman, in `[0, 1)` for Triangle
and Welch, in `[0, 1.08]` for Hann and in `[-0.09, 1.000001]` for Flat-Top; at
`i = 0` it is exactly 0 for Hann, Triangle and Welch and `-0.0417934` for
Flat-Top. -/
theorem weighingFactor_range (p : Nat) (hp1 : 1 ≤ p) (hp : p ≤ 15) (i : Nat)
    (hi : i < 2 ^ p / 2) :
    2 ^ p < 2 ^ 16 ∧
    weighingFactor Real.cos abs (2 * Real.pi) (4 * Real.pi) WindowType.FFT_WIN_TYP_RECTANGLE
      (2 ^ p) i = 1 ∧
    (0 < weighingFactor Real.cos abs (2 * Real.pi) (4 * Real.pi) WindowType.FFT_WIN_TYP_HAMMING
        (2 ^ p) i ∧
      weighingFactor Real.cos abs (2 * Real.pi) (4 * Real.pi) WindowType.FFT_WIN_TYP_HAMMING
        (2 ^ p) i ≤ 1) ∧
    (0 < weighingFactor Real.cos abs (2 * Real.pi) (4 * Real.pi) WindowType.FFT_WIN_TYP_BLACKMAN
        (2 ^ p) i ∧
      weighingFactor Real.cos abs (2 * Real.pi) (4 * Real.pi) WindowType.FFT_WIN_TYP_BLACKMAN
        (2 ^ p) i ≤ 1) ∧
    (0 ≤ weighingFactor Real.cos abs (2 * Real.pi) (4 * Real.pi) WindowType.FFT_WIN_TYP_TRIANGLE
        (2 ^ p) i ∧
      weighingFactor Real.cos abs (2 * Real.pi) (4 * Real.pi) WindowType.FFT_WIN_TYP_TRIANGLE
        (2 ^ p) i < 1) ∧
    (0 ≤ weighingFactor Real.cos abs (2 * Real.pi) (4 * Real.pi) WindowType.FFT_WIN_TYP_WELCH
        (2 ^ p) i ∧
      weighingFactor Real.cos abs (2 * Real.pi) (4 * Real.pi) WindowType.FFT_WIN_TYP_WELCH
        (2 ^ p) i < 1) ∧
    (0 ≤ weighingFactor Real.cos abs (2 * Real.pi) (4 * Real.pi) WindowType.FFT_WIN_TYP_HANN
        (2 ^ p) i ∧
      weighingFactor Real.cos abs (2 * Real.pi) (4 * Real.pi) WindowType.FFT_WIN_TYP_HANN
        (2 ^ p) i ≤ 1.08) ∧
    (-0.09 ≤ weighingFactor Real.cos abs (2 * Real.pi) (4 * Real.pi) WindowType.FFT_WIN_TYP_FLT_TOP
        (2 ^ p) i ∧
      weighingFactor Real.cos abs (2 * Real.pi) (4 * Real.pi) WindowType.FFT_WIN_TYP_FLT_TOP
        (2 ^ p) i ≤ 1.000001) ∧
    weighingFactor Real.cos abs (2 * Real.pi) (4 * Real.pi) WindowType.FFT_WIN_TYP_HANN (2 ^ p) 0 = 0 ∧
    weighingFactor Real.cos abs (2 * Real.pi) (4 * Real.pi) WindowType.FFT_WIN_TYP_TRIANGLE
      (2 ^ p) 0 = 0 ∧
    weighingFactor Real.cos abs (2 * Real.pi) (4 * Real.pi) WindowType.FFT_WIN_TYP_WELCH (2 ^ p) 0 = 0 ∧
    weighingFactor Real.cos abs (2 * Real.pi) (4 * Real.pi) WindowType.FFT_WIN_TYP_FLT_TOP
      (2 ^ p) 0 = -0.0417934 := by
  have h2 : 2 ≤ 2 ^ p := by
    calc 2 = 2 ^ 1 := by norm_num
      _ ≤ 2 ^ p := Nat.pow_le_pow_right (by norm_num) hp1
  have hz := weight_at_zero (2 ^ p) h2
  have ht := weight_triangle (2 ^ p) i hi
  exact ⟨Nat.pow_lt_pow_right (by norm_num) (by omega), weight_rectangle _ _,
    weight_hamming _ _, weight_blackman _ _, ⟨ht.1, ht.2.1⟩, weight_welch _ _ hi,
    weight_hann _ _, weight_flat_top _ _, hz.1, hz.2.1, hz.2.2.1, hz.2.2.2⟩

/-- Witness of C10 (as amended) at `p = 2`, `i = 1`. -/
theorem weighingFactor_range_witness :
    (1 ≤ 2 ∧ 2 ≤ 15 ∧ 1 < 2 ^ 2 / 2) ∧
    (2 ^ 2 < 2 ^ 16 ∧
    weighingFactor Real.cos abs (2 * Real.pi) (4 * Real.pi) WindowType.FFT_WIN_TYP_RECTANGLE
      (2 ^ 2) 1 = 1 ∧
    (0 < weighingFactor Real.cos abs (2 * Real.pi) (4 * Real.pi) WindowType.FFT_WIN_TYP_HAMMING
        (2 ^ 2) 1 ∧
      weighingFactor Real.cos abs (2 * Real.pi) (4 * Real.pi) WindowType.FFT_WIN_TYP_HAMMING
        (2 ^ 2) 1 ≤ 1) ∧
    (0 < weighingFactor Real.cos abs (2 * Real.pi) (4 * Real.pi) WindowType.FFT_WIN_TYP_BLACKMAN
        (2 ^ 2) 1 ∧
      weighingFactor Real.cos abs (2 * Real.pi) (4 * Real.pi) WindowType.FFT_WIN_TYP_BLACKMAN
        (2 ^ 2) 1 ≤ 1) ∧
    (0 ≤ weighingFactor Real.cos abs (2 * Real.pi) (4 * Real.pi) WindowType.FFT_WIN_TYP_TRIANGLE
        (2 ^ 2) 1 ∧
      weighingFactor Real.cos abs (2 * Real.pi) (4 * Real.pi) WindowType.FFT_WIN_TYP_TRIANGLE
        (2 ^ 2) 1 < 1) ∧
    (0 ≤ weighingFactor Real.cos abs (2 * Real.pi) (4 * Real.pi) WindowType.FFT_WIN_TYP_WELCH
        (2 ^ 2) 1 ∧
      weighingFactor Real.cos abs (2 * Real.pi) (4 * Real.pi) WindowType.FFT_WIN_TYP_WELCH
        (2 ^ 2) 1 < 1) ∧
    (0 ≤ weighingFactor Real.cos abs (2 * Real.pi) (4 * Real.pi) WindowType.FFT_WIN_TYP_HANN
        (2 ^ 2) 1 ∧
      weighingFactor Real.cos abs (2 * Real.pi) (4 * Real.pi) WindowType.FFT_WIN_TYP_HANN
        (2 ^ 2) 1 ≤ 1.08) ∧
    (-0.09 ≤ weighingFactor Real.cos abs (2 * Real.pi) (4 * Real.pi) WindowType.FFT_WIN_TYP_FLT_TOP
        (2 ^ 2) 1 ∧
      weighingFactor Real.cos abs (2 * Real.pi) (4 * Real.pi) WindowType.FFT_WIN_TYP_FLT_TOP
        (2 ^ 2) 1 ≤ 1.000001) ∧
    weighingFactor Real.cos abs (2 * Real.pi) (4 * Real.pi) WindowType.FFT_WIN_TYP_HANN (2 ^ 2) 0 = 0 ∧
    weighingFactor Real.cos abs (2 * Real.pi) (4 * Real.pi) WindowType.FFT_WIN_TYP_TRIANGLE
      (2 ^ 2) 0 = 0 ∧
    weighingFactor Real.cos abs (2 * Real.pi) (4 * Real.pi) WindowType.FFT_WIN_TYP_WELCH (2 ^ 2) 0 = 0 ∧
    weighingFactor Real.cos abs (2 * Real.pi) (4 * Real.pi) WindowType.FFT_WIN_TYP_FLT_TOP
      (2 ^ 2) 0 = -0.0417934) :=
  ⟨⟨by decide, by decide, by decide⟩, weighingFactor_range 2 (by decide) (by decide) 1 (by decide)⟩

/-- C11 (counterexample): for the Hann window with `N = 2` and `real = [3, 5]` the
weight computed at index `min 0 (N - 1 - 0) = 0` is `0.54 * (1 - cos 0) = 0`, so on
Reverse the quotient `real[0] / w 0` of line 143 has no value in exact arithmetic
(the source stores an infinity there): `FFT_Windowing` yields no state, and so
none whose real buffer holds the quotients. -/
theorem FFT_Windowing_effect_counterexample :
    weighingFactor Real.cos abs (2 * Real.pi) (4 * Real.pi) WindowType.FFT_WIN_TYP_HANN (2 ^ 1)
      (min 0 (2 ^ 1 - 1 - 0)) = 0 ∧
    FFT_Windowing Real.cos abs (2 * Real.pi) (4 * Real.pi) WindowType.FFT_WIN_TYP_HANN
        Direction.FFT_REVERSE
        { _vReal := ([3, 5] : List ℝ), _vImag := [7, 9], _samples := 2 ^ 1,
          _samplingFrequency := 1, _power := 1 } = none ∧
    ¬ ∃ g', FFT_Windowing Real.cos abs (2 * Real.pi) (4 * Real.pi) WindowType.FFT_WIN_TYP_HANN
        Direction.FFT_REVERSE
        { _vReal := ([3, 5] : List ℝ), _vImag := [7, 9], _samples := 2 ^ 1,
          _samplingFrequency := 1, _power := 1 } = some g' ∧
      g'._vImag = [7, 9] ∧
      ∀ i, i < 2 ^ 1 → g'._vReal[i]? = some (([3, 5] : List ℝ).getD i 0 /
        weighingFactor Real.cos abs (2 * Real.pi) (4 * Real.pi) WindowType.FFT_WIN_TYP_HANN
          (2 ^ 1) (min i (2 ^ 1 - 1 - i))) := by
  have hw : weighingFactor Real.cos abs (2 * Real.pi) (4 * Real.pi) WindowType.FFT_WIN_TYP_HANN
      (2 ^ 1) 0 = 0 := (weight_at_zero (2 ^ 1) (by norm_num)).1
  have hnone := FFT_Windowing_zero_weight Real.cos abs (2 * Real.pi) (4 * Real.pi)
    WindowType.FFT_WIN_TYP_HANN
    { _vReal := ([3, 5] : List ℝ), _vImag := [7, 9], _samples := 2 ^ 1,
      _samplingFrequency := 1, _power := 1 } 0 (by decide) hw
  refine ⟨hw, hnone, ?_⟩
  rintro ⟨g', hg, _⟩
  rw [hnone] at hg
  cases hg

/-- C11 (as amended): for each window type, `N = 2 ^ p` with `1 ≤ p ≤ 15` and any
two buffers, the real one of length `N`, `FFT_Windowing` on Forward leaves
`real'[i] = real[i] * w (min i (N - 1 - i))` for every `i < N`, where `w k` is the
weighing factor computed at index `k`, and the imaginary buffer unchanged; on
Reverse, if every weight `w k` with `k < N / 2` is non-zero, it leaves
`real'[i] = real[i] / w (min i (N - 1 - i))` for every `i < N` and the imaginary
buffer unchanged. -/
theorem FFT_Windowing_effect (windowType : WindowType) (p : Nat) (hp1 : 1 ≤ p) (hp : p ≤ 15)
    (vReal vImag : List ℝ) (fs : ℝ) (hre : vReal.length = 2 ^ p) :
    2 ^ p < 2 ^ 16 ∧
    (∃ g', FFT_Windowing Real.cos abs (2 * Real.pi) (4 * Real.pi) windowType
        Direction.FFT_FORWARD
        { _vReal := vReal, _vImag := vImag, _samples := 2 ^ p, _samplingFrequency := fs,
          _power := p } = some g' ∧
      g'._vImag = vImag ∧
      ∀ i, i < 2 ^ p → g'._vReal[i]? = some (vReal.getD i 0 *
        weighingFactor Real.cos abs (2 * Real.pi) (4 * Real.pi) windowType (2 ^ p)
          (min i (2 ^ p - 1 - i)))) ∧
    ((∀ k, k < 2 ^ p / 2 →
        weighingFactor Real.cos abs (2 * Real.pi) (4 * Real.pi) windowType (2 ^ p) k ≠ 0) →
      ∃ g', FFT_Windowing Real.cos abs (2 * Real.pi) (4 * Real.pi) windowType
        Direction.FFT_REVERSE
        { _vReal := vReal, _vImag := vImag, _samples := 2 ^ p, _samplingFrequency := fs,
          _power := p } = some g' ∧
      g'._vImag = vImag ∧
      ∀ i, i < 2 ^ p → g'._vReal[i]? = some (vReal.getD i 0 /
        weighingFactor Real.cos abs (2 * Real.pi) (4 * Real.pi) windowType (2 ^ p)
          (min i (2 ^ p - 1 - i)))) := by
  have hhalf : 2 ^ p >>> 1 = 2 ^ p / 2 := by rw [Nat.shiftRight_eq_div_pow, pow_one]
  refine ⟨Nat.pow_lt_pow_right (by norm_num) (by omega), ?_, ?_⟩
  · simpa [windowOp] using FFT_Windowing_pow_spec Real.cos abs (2 * Real.pi) (4 * Real.pi)
      windowType Direction.FFT_FORWARD p hp1 vReal vImag fs hre (by intro h; cases h)
  · intro hw
    simpa [windowOp] using FFT_Windowing_pow_spec Real.cos abs (2 * Real.pi) (4 * Real.pi)
      windowType Direction.FFT_REVERSE p hp1 vReal vImag fs hre
      (fun _ k hk => hw k (by rw [← hhalf]; exact hk))

/-- Witness of C11 for the Hamming window, whose weights are positive, at `p = 2`,
`real = [3, 5, 7, 11]`. -/
theorem FFT_Windowing_effect_witness :
    (1 ≤ 2 ∧ 2 ≤ 15 ∧ ([3, 5, 7, 11] : List ℝ).length = 2 ^ 2 ∧
      ∀ k, k < 2 ^ 2 / 2 →
        weighingFactor Real.cos abs (2 * Real.pi) (4 * Real.pi) WindowType.FFT_WIN_TYP_HAMMING
          (2 ^ 2) k ≠ 0) ∧
    (2 ^ 2 < 2 ^ 16 ∧
    (∃ g', FFT_Windowing Real.cos abs (2 * Real.pi) (4 * Real.pi) WindowType.FFT_WIN_TYP_HAMMING
        Direction.FFT_FORWARD
        { _vReal := ([3, 5, 7, 11] : List ℝ), _vImag := [7, 9, 1, 2], _samples := 2 ^ 2,
          _samplingFrequency := 1, _power := 2 } = some g' ∧
      g'._vImag = [7, 9, 1, 2] ∧
      ∀ i, i < 2 ^ 2 → g'._vReal[i]? = some (([3, 5, 7, 11] : List ℝ).getD i 0 *
        weighingFactor Real.cos abs (2 * Real.pi) (4 * Real.pi) WindowType.FFT_WIN_TYP_HAMMING
          (2 ^ 2) (min i (2 ^ 2 - 1 - i)))) ∧
    (∃ g', FFT_Windowing Real.cos abs (2 * Real.pi) (4 * Real.pi) WindowType.FFT_WIN_TYP_HAMMING
        Direction.FFT_REVERSE
        { _vReal := ([3, 5, 7, 11] : List ℝ), _vImag := [7, 9, 1, 2], _samples := 2 ^ 2,
          _samplingFrequency := 1, _power := 2 } = some g' ∧
      g'._vImag = [7, 9, 1, 2] ∧
      ∀ i, i < 2 ^ 2 → g'._vReal[i]? = some (([3, 5, 7, 11] : List ℝ).getD i 0 /
        weighingFactor Real.cos abs (2 * Real.pi) (4 * Real.pi) WindowType.FFT_WIN_TYP_HAMMING
          (2 ^ 2) (min i (2 ^ 2 - 1 - i))))) :=
  have hw : ∀ k, k < 2 ^ 2 / 2 →
      weighingFactor Real.cos abs (2 * Real.pi) (4 * Real.pi) WindowType.FFT_WIN_TYP_HAMMING
        (2 ^ 2) k ≠ 0 := fun k _ => ne_of_gt (weight_hamming (2 ^ 2) k).1
  have h := FFT_Windowing_effect WindowType.FFT_WIN_TYP_HAMMING 2 (by norm_num) (by norm_num)
    [3, 5, 7, 11] [7, 9, 1, 2] 1 rfl
  ⟨⟨by norm_num, by norm_num, rfl, hw⟩, h.1, h.2.1, h.2.2 hw⟩

/-- C12: for every `N` and any two buffers of length `N`, `FFT_ComplexToMagnitude`
(exact real arithmetic) leaves `real'[i] = sqrt (real[i] ^ 2 + imag[i] ^ 2)` for
every `i < N`, so `real'[i] ≥ 0`, and leaves the imaginary buffer unchanged. -/
theorem FFT_ComplexToMagnitude_effect (N : Nat) (vReal vImag : List ℝ) (fs : ℝ) (power : Nat)
    (hre : vReal.length = N) (him : vImag.length = N) :
    ∃ g', FFT_ComplexToMagnitude Real.sqrt
        { _vReal := vReal, _vImag := vImag, _samples := N, _samplingFrequency := fs,
          _power := power } = some g' ∧
      g'._vImag = vImag ∧
      ∀ i, i < N →
        g'._vReal[i]? = some (Real.sqrt (vReal.getD i 0 ^ 2 + vImag.getD i 0 ^ 2)) ∧
        0 ≤ g'._vReal.getD i 0 := by
  obtain ⟨re', h1, hl, hZ⟩ := FFT_ComplexToMagnitude_spec Real.sqrt
    { _vReal := vReal, _vImag := vImag, _samples := N, _samplingFrequency := fs,
      _power := power } hre him
  simp only at h1 hl hZ
  refine ⟨_, h1, rfl, ?_⟩
  intro i hi
  have h := hZ i
  rw [if_pos hi] at h
  have e : sq (vReal.getD i 0) + sq (vImag.getD i 0) = vReal.getD i 0 ^ 2 + vImag.getD i 0 ^ 2 := by
    simp only [sq]; ring
  rw [e] at h
  refine ⟨getElem?_of_getD re' i 0 _ (by omega) h, ?_⟩
  simp only
  rw [h]
  exact Real.sqrt_nonneg _

/-- Witness of C12 at `N = 2`, `real = [3, 0]`, `imag = [4, 1]`. -/
theorem FFT_ComplexToMagnitude_effect_witness :
    (([3, 0] : List ℝ).length = 2 ∧ ([4, 1] : List ℝ).length = 2) ∧
    ∃ g', FFT_ComplexToMagnitude Real.sqrt
        { _vReal := ([3, 0] : List ℝ), _vImag := [4, 1], _samples := 2,
          _samplingFrequency := 1, _power := 1 } = some g' ∧
      g'._vImag = [4, 1] ∧
      ∀ i, i < 2 →
        g'._vReal[i]? = some (Real.sqrt (([3, 0] : List ℝ).getD i 0 ^ 2 +
          ([4, 1] : List ℝ).getD i 0 ^ 2)) ∧
        0 ≤ g'._vReal.getD i 0 :=
  ⟨⟨rfl, rfl⟩, FFT_ComplexToMagnitude_effect 2 [3, 0] [4, 1] 1 1 rfl rfl⟩

/-- C13: for `N = 2 ^ p` with `2 ≤ p ≤ 15` and a buffer of non-negative values
with a strict local maximum at some index of `[1, N/2]`, the scan of
`FFT_MajorPeak` returns an index `m` of `[1, N/2]` that is a strict local
maximum, whose value is at least that of every strict local maximum of
`[1, N/2]` and strictly greater than that of every one below `m`. -/
theorem majorPeakScan_selects (p : Nat) (hp2 : 2 ≤ p) (hp : p ≤ 15) (vReal vImag : List ℝ)
    (fs : ℝ) (hre : vReal.length = 2 ^ p) (hnn : ∀ i, i < 2 ^ p → 0 ≤ vReal.getD i 0)
    (hex : ∃ i, 1 ≤ i ∧ i ≤ 2 ^ p / 2 ∧ IsPeak vReal i) :
    2 ^ p < 2 ^ 16 ∧
    ∃ maxY m,
      majorPeakScan { _vReal := vReal, _vImag := vImag, _samples := 2 ^ p,
                      _samplingFrequency := fs, _power := p } = some (maxY, m) ∧
      1 ≤ m ∧ m ≤ 2 ^ p / 2 ∧ IsPeak vReal m ∧ maxY = vReal.getD m 0 ∧
      ∀ i, 1 ≤ i → i ≤ 2 ^ p / 2 → IsPeak vReal i →
        vReal.getD i 0 ≤ vReal.getD m 0 ∧ (i < m → vReal.getD i 0 < vReal.getD m 0) := by
  have h4 := four_le_two_pow p hp2
  obtain ⟨⟨maxY, m⟩, hs, hinv⟩ := majorPeakScan_spec
    ({ _vReal := vReal, _vImag := vImag, _samples := 2 ^ p, _samplingFrequency := fs,
       _power := p } : Globals ℝ) (by simp only; omega) hre
  simp only at hinv
  refine ⟨Nat.pow_lt_pow_right (by norm_num) (by omega), maxY, m, hs, ?_⟩
  rcases hinv with ⟨_, _, hall⟩ | ⟨h1, h2, hpk, hv, _, hall⟩
  · exfalso
    obtain ⟨i, hi1, hi2, hpi⟩ := hex
    have hle := hall i hi1 (by omega) hpi
    have h0 := hnn (i - 1) (by omega)
    have := hpi.1
    linarith
  · simp only at h1 h2 hpk hv hall
    refine ⟨h1, by omega, hpk, hv, ?_⟩
    intro i hi1 hi2 hpi
    have := hall i hi1 (by omega) hpi
    rw [hv] at this
    exact this

/-- Witness of C13 at `p = 2`, `real = [0, 3, 1, 0]`. -/
theorem majorPeakScan_selects_witness :
    (2 ≤ 2 ∧ 2 ≤ 15 ∧ ([0, 3, 1, 0] : List ℝ).length = 2 ^ 2 ∧
      (∀ i, i < 2 ^ 2 → 0 ≤ ([0, 3, 1, 0] : List ℝ).getD i 0) ∧
      ∃ i, 1 ≤ i ∧ i ≤ 2 ^ 2 / 2 ∧ IsPeak ([0, 3, 1, 0] : List ℝ) i) ∧
    (2 ^ 2 < 2 ^ 16 ∧
    ∃ maxY m,
      majorPeakScan { _vReal := ([0, 3, 1, 0] : List ℝ), _vImag := [0, 0, 0, 0],
                      _samples := 2 ^ 2, _samplingFrequency := 1, _power := 2 } =
        some (maxY, m) ∧
      1 ≤ m ∧ m ≤ 2 ^ 2 / 2 ∧ IsPeak ([0, 3, 1, 0] : List ℝ) m ∧
      maxY = ([0, 3, 1, 0] : List ℝ).getD m 0 ∧
      ∀ i, 1 ≤ i → i ≤ 2 ^ 2 / 2 → IsPeak ([0, 3, 1, 0] : List ℝ) i →
        ([0, 3, 1, 0] : List ℝ).getD i 0 ≤ ([0, 3, 1, 0] : List ℝ).getD m 0 ∧
        (i < m → ([0, 3, 1, 0] : List ℝ).getD i 0 < ([0, 3, 1, 0] : List ℝ).getD m 0)) :=
  ⟨⟨le_refl _, by norm_num, rfl, example_nonneg, example_peak⟩,
    majorPeakScan_selects 2 (le_refl _) (by norm_num) [0, 3, 1, 0] [0, 0, 0, 0] 1 rfl
      example_nonneg example_peak⟩

/-- C14: for `N = 2 ^ p` with `2 ≤ p ≤ 15`, every sampling frequency and every
buffer on which the scan locates an index `m ≥ 1`, `FFT_MajorPeak` returns
`(m + delta) * fs / (N - 1)` when `m ≠ N/2` and `(m + delta) * fs / N` when
`m = N/2`, with
`delta = 0.5 * (real[m-1] - real[m+1]) / (real[m-1] - 2*real[m] + real[m+1])`;
when the only strict local maximum of `[1, N/2]` is at `N/2`, then `m = N/2` and
the divisor is `N`. -/
theorem FFT_MajorPeak_formula (p : Nat) (hp2 : 2 ≤ p) (hp : p ≤ 15) (vReal vImag : List ℝ)
    (fs : ℝ) (hre : vReal.length = 2 ^ p) (maxY : ℝ) (m : Nat)
    (hscan : majorPeakScan { _vReal := vReal, _vImag := vImag, _samples := 2 ^ p,
                             _samplingFrequency := fs, _power := p } = some (maxY, m))
    (hm : 1 ≤ m) :
    2 ^ p < 2 ^ 16 ∧
    FFT_MajorPeak { _vReal := vReal, _vImag := vImag, _samples := 2 ^ p,
                    _samplingFrequency := fs, _power := p } = some
      (if m = 2 ^ p / 2 then
        ((m : ℝ) + 0.5 * (vReal.getD (m - 1) 0 - vReal.getD (m + 1) 0) /
          (vReal.getD (m - 1) 0 - 2 * vReal.getD m 0 + vReal.getD (m + 1) 0)) * fs /
          ((2 ^ p : ℕ) : ℝ)
      else
        ((m : ℝ) + 0.5 * (vReal.getD (m - 1) 0 - vReal.getD (m + 1) 0) /
          (vReal.getD (m - 1) 0 - 2 * vReal.getD m 0 + vReal.getD (m + 1) 0)) * fs /
          (((2 ^ p : ℕ) : ℝ) - 1)) ∧
    ((∀ i, 1 ≤ i → i ≤ 2 ^ p / 2 → IsPeak vReal i → i = 2 ^ p / 2) →
      m = 2 ^ p / 2 ∧
      FFT_MajorPeak { _vReal := vReal, _vImag := vImag, _samples := 2 ^ p,
                      _samplingFrequency := fs, _power := p } = some
        (((m : ℝ) + 0.5 * (vReal.getD (m - 1) 0 - vReal.getD (m + 1) 0) /
          (vReal.getD (m - 1) 0 - 2 * vReal.getD m 0 + vReal.getD (m + 1) 0)) * fs /
          ((2 ^ p : ℕ) : ℝ))) := by
  have h4 := four_le_two_pow p hp2
  obtain ⟨s, hs, hinv⟩ := majorPeakScan_spec
    ({ _vReal := vReal, _vImag := vImag, _samples := 2 ^ p, _samplingFrequency := fs,
       _power := p } : Globals ℝ) (by simp only; omega) hre
  rw [hscan] at hs
  obtain rfl : (maxY, m) = s := Option.some.inj hs
  simp only at hinv
  have hmr : m < 2 ^ p / 2 + 1 ∧ IsPeak vReal m := by
    rcases hinv with ⟨h0, _⟩ | ⟨_, h2, hpk, _⟩
    · simp only at h0; omega
    · exact ⟨h2, hpk⟩
  have hform := FFT_MajorPeak_of_scan
    ({ _vReal := vReal, _vImag := vImag, _samples := 2 ^ p, _samplingFrequency := fs,
       _power := p } : Globals ℝ) maxY m hscan hm (by simp only; omega)
  simp only at hform
  refine ⟨Nat.pow_lt_pow_right (by norm_num) (by omega), hform, ?_⟩
  intro hsole
  have hmid := hsole m hm (by omega) hmr.2
  refine ⟨hmid, ?_⟩
  rw [hform, if_pos hmid]

/-- Witness of C14 at `p = 2`, `real = [0, 3, 1, 0]`, where the scan locates
index 1. -/
theorem FFT_MajorPeak_formula_witness :
    (2 ≤ 2 ∧ 2 ≤ 15 ∧ ([0, 3, 1, 0] : List ℝ).length = 2 ^ 2 ∧
      majorPeakScan { _vReal := ([0, 3, 1, 0] : List ℝ), _vImag := [0, 0, 0, 0],
                      _samples := 2 ^ 2, _samplingFrequency := 1000, _power := 2 } =
        some (3, 1) ∧ 1 ≤ 1) ∧
    (2 ^ 2 < 2 ^ 16 ∧
    FFT_MajorPeak { _vReal := ([0, 3, 1, 0] : List ℝ), _vImag := [0, 0, 0, 0],
                    _samples := 2 ^ 2, _samplingFrequency := 1000, _power := 2 } = some
      (if 1 = 2 ^ 2 / 2 then
        (((1 : Nat) : ℝ) + 0.5 * (([0, 3, 1, 0] : List ℝ).getD (1 - 1) 0 -
            ([0, 3, 1, 0] : List ℝ).getD (1 + 1) 0) /
          (([0, 3, 1, 0] : List ℝ).getD (1 - 1) 0 - 2 * ([0, 3, 1, 0] : List ℝ).getD 1 0 +
            ([0, 3, 1, 0] : List ℝ).getD (1 + 1) 0)) * 1000 /
          ((2 ^ 2 : ℕ) : ℝ)
      else
        (((1 : Nat) : ℝ) + 0.5 * (([0, 3, 1, 0] : List ℝ).getD (1 - 1) 0 -
            ([0, 3, 1, 0] : List ℝ).getD (1 + 1) 0) /
          (([0, 3, 1, 0] : List ℝ).getD (1 - 1) 0 - 2 * ([0, 3, 1, 0] : List ℝ).getD 1 0 +
            ([0, 3, 1, 0] : List ℝ).getD (1 + 1) 0)) * 1000 /
          (((2 ^ 2 : ℕ) : ℝ) - 1)) ∧
    ((∀ i, 1 ≤ i → i ≤ 2 ^ 2 / 2 → IsPeak ([0, 3, 1, 0] : List ℝ) i → i = 2 ^ 2 / 2) →
      1 = 2 ^ 2 / 2 ∧
      FFT_MajorPeak { _vReal := ([0, 3, 1, 0] : List ℝ), _vImag := [0, 0, 0, 0],
                      _samples := 2 ^ 2, _samplingFrequency := 1000, _power := 2 } = some
        ((((1 : Nat) : ℝ) + 0.5 * (([0, 3, 1, 0] : List ℝ).getD (1 - 1) 0 -
            ([0, 3, 1, 0] : List ℝ).getD (1 + 1) 0) /
          (([0, 3, 1, 0] : List ℝ).getD (1 - 1) 0 - 2 * ([0, 3, 1, 0] : List ℝ).getD 1 0 +
            ([0, 3, 1, 0] : List ℝ).getD (1 + 1) 0)) * 1000 /
          ((2 ^ 2 : ℕ) : ℝ)))) :=
  ⟨⟨le_refl _, by norm_num, rfl, example_scan _ _, le_refl _⟩,
    FFT_MajorPeak_formula 2 (le_refl _) (by norm_num) [0, 3, 1, 0] [0, 0, 0, 0] 1000 rfl 3 1
      (example_scan _ _) (le_refl _)⟩

/-- C15: for `N = 2 ^ p` with `2 ≤ p ≤ 15` and a buffer with no strict local
maximum at any index of `[1, N/2]`, the scan of `FFT_MajorPeak` ends with
`maxY = 0` and `IndexOfMaxY = 0`, the read of `_vReal[IndexOfMaxY-1]` is outside
the buffer, and `FFT_MajorPeak` returns no frequency. -/
theorem FFT_MajorPeak_no_peak (p : Nat) (hp2 : 2 ≤ p) (hp : p ≤ 15) (vReal vImag : List ℝ)
    (fs : ℝ) (hre : vReal.length = 2 ^ p)
    (hno : ∀ i, 1 ≤ i → i ≤ 2 ^ p / 2 → ¬ IsPeak vReal i) :
    2 ^ p < 2 ^ 16 ∧
    majorPeakScan { _vReal := vReal, _vImag := vImag, _samples := 2 ^ p,
                    _samplingFrequency := fs, _power := p } = some (0, 0) ∧
    rdI vReal (((0 : Nat) : Int) - 1) = none ∧
    FFT_MajorPeak { _vReal := vReal, _vImag := vImag, _samples := 2 ^ p,
                    _samplingFrequency := fs, _power := p } = none := by
  have h4 := four_le_two_pow p hp2
  obtain ⟨⟨maxY, m⟩, hs, hinv⟩ := majorPeakScan_spec
    ({ _vReal := vReal, _vImag := vImag, _samples := 2 ^ p, _samplingFrequency := fs,
       _power := p } : Globals ℝ) (by simp only; omega) hre
  simp only at hinv
  have h0 : maxY = 0 ∧ m = 0 := by
    rcases hinv with ⟨h1, h2, _⟩ | ⟨h1, h2, hpk, _⟩
    · exact ⟨h2, h1⟩
    · exact absurd hpk (hno m h1 (by simp only at h2; omega))
  obtain ⟨rfl, rfl⟩ := h0
  refine ⟨Nat.pow_lt_pow_right (by norm_num) (by omega), hs, rdI_neg vReal, ?_⟩
  unfold FFT_MajorPeak
  rw [hs]
  simp only [Option.some_bind, Option.bind_eq_bind]
  rw [rdI_neg]
  rfl

/-- Witness of C15 at `p = 2` and the increasing buffer `real = [0, 1, 2, 3]`. -/
theorem FFT_MajorPeak_no_peak_witness :
    (2 ≤ 2 ∧ 2 ≤ 15 ∧ ([0, 1, 2, 3] : List ℝ).length = 2 ^ 2 ∧
      ∀ i, 1 ≤ i → i ≤ 2 ^ 2 / 2 → ¬ IsPeak ([0, 1, 2, 3] : List ℝ) i) ∧
    (2 ^ 2 < 2 ^ 16 ∧
    majorPeakScan { _vReal := ([0, 1, 2, 3] : List ℝ), _vImag := [0, 0, 0, 0],
                    _samples := 2 ^ 2, _samplingFrequency := 1000, _power := 2 } =
      some (0, 0) ∧
    rdI ([0, 1, 2, 3] : List ℝ) (((0 : Nat) : Int) - 1) = none ∧
    FFT_MajorPeak { _vReal := ([0, 1, 2, 3] : List ℝ), _vImag := [0, 0, 0, 0],
                    _samples := 2 ^ 2, _samplingFrequency := 1000, _power := 2 } = none) :=
  ⟨⟨le_refl _, by norm_num, rfl, example_no_peak⟩,
    FFT_MajorPeak_no_peak 2 (le_refl _) (by norm_num) [0, 1, 2, 3] [0, 0, 0, 0] 1000 rfl
      example_no_peak⟩

/-- C16: for `N = 64`, every `fs > 0`, amplitude `A > 0`, phase `φ` and integer `k`
with `1 ≤ k ≤ 31`, on `real[n] = A * cos (2 π k n / 64 + φ)` and `imag[n] = 0` the
pipeline `FFT_Init`, `FFT_Compute` forward, `FFT_ComplexToMagnitude`,
`FFT_MajorPeak` (exact real arithmetic, enough fuel) locates bin `k` and returns
a frequency whose distance from `k * fs / 64` is less than `fs / 128`. -/
theorem FFT_single_tone_detection (fs A φ : ℝ) (hfs : 0 < fs) (hA : 0 < A) (k : Nat)
    (hk1 : 1 ≤ k) (hk : k ≤ 31) (fuel : Nat) (hfuel : 64 ≤ fuel) :
    ∃ g0 g1 g2 maxY f,
      FFT_Init fuel
        ((List.range 64).map (fun n : Nat => A * Real.cos (2 * Real.pi * k * n / 64 + φ)))
        (List.replicate 64 0) 64 fs = some g0 ∧
      FFT_Compute Real.sqrt fuel Direction.FFT_FORWARD g0 = some g1 ∧
      FFT_ComplexToMagnitude Real.sqrt g1 = some g2 ∧
      majorPeakScan g2 = some (maxY, k) ∧
      FFT_MajorPeak g2 = some f ∧
      |f - (k : ℝ) * fs / 64| < fs / 128 := by
  have h64 : (2 : ℕ) ^ 6 = 64 := by norm_num
  have hinit := FFT_Init_two_pow 6 (by norm_num)
    ((List.range (2 ^ 6)).map
      (fun n : Nat => A * Real.cos (2 * Real.pi * k * n / ((2 ^ 6 : ℕ) : ℝ) + φ)))
    (List.replicate (2 ^ 6) (0 : ℝ)) fs fuel (by omega)
  obtain ⟨re1, im1, re2, hc, hmag, hl2, hval⟩ := tone_magnitude 6 (by norm_num) fs A φ hA k hk1
    (by rw [h64]; omega) fuel (by rw [h64]; exact hfuel)
  have hM : 0 < A * ((2 ^ 6 : ℕ) : ℝ) / 2 := by positivity
  obtain ⟨hscan, hpeak⟩ := two_line_peak (2 ^ 6) (by norm_num) re2 im1 fs 6 hl2 _ hM k hk1
    (by rw [h64]; omega) hval
  rw [h64] at hinit hc hmag hscan hpeak
  simp only [Nat.cast_ofNat] at hinit hc
  exact ⟨_, _, _, _, _, hinit, hc, hmag, hscan, hpeak, tone_distance k hk fs hfs⟩

/-- Witness of C16 at `fs = 1000`, `A = 1`, `φ = 0`, `k = 5`, fuel 64. -/
theorem FFT_single_tone_detection_witness :
    ((0 : ℝ) < 1000 ∧ (0 : ℝ) < 1 ∧ 1 ≤ 5 ∧ 5 ≤ 31 ∧ 64 ≤ 64) ∧
    ∃ g0 g1 g2 maxY f,
      FFT_Init 64
        ((List.range 64).map
          (fun n : Nat => (1 : ℝ) * Real.cos (2 * Real.pi * (5 : Nat) * n / 64 + 0)))
        (List.replicate 64 0) 64 1000 = some g0 ∧
      FFT_Compute Real.sqrt 64 Direction.FFT_FORWARD g0 = some g1 ∧
      FFT_ComplexToMagnitude Real.sqrt g1 = some g2 ∧
      majorPeakScan g2 = some (maxY, 5) ∧
      FFT_MajorPeak g2 = some f ∧
      |f - ((5 : Nat) : ℝ) * 1000 / 64| < 1000 / 128 :=
  ⟨⟨by norm_num, by norm_num, by norm_num, by norm_num, le_refl _⟩,
    FFT_single_tone_detection 1000 1 0 (by norm_num) (by norm_num) 5 (by norm_num) (by norm_num)
      64 (le_refl _)⟩

/-- C17: for `N = 2 ^ p` with `p ≤ 15` and a real constant `c`, with `real[n] = c`
and `imag[n] = 0` for all `n`, `FFT_Compute` in the forward direction followed by
`FFT_ComplexToMagnitude` (exact real arithmetic, enough fuel) leaves
`real[0] = N * |c|` and `real[k] = 0` for every `k` with `1 ≤ k < N`. -/
theorem FFT_DC_input (p : Nat) (hp : p ≤ 15) (c fs : ℝ) (fuel : Nat) (hfuel : 2 ^ p ≤ fuel) :
    ∃ g0 g1 g2,
      FFT_Init fuel (List.replicate (2 ^ p) c) (List.replicate (2 ^ p) 0) (2 ^ p) fs = some g0 ∧
      FFT_Compute Real.sqrt fuel Direction.FFT_FORWARD g0 = some g1 ∧
      FFT_ComplexToMagnitude Real.sqrt g1 = some g2 ∧
      g2._vReal[0]? = some (((2 ^ p : ℕ) : ℝ) * |c|) ∧
      ∀ k, 1 ≤ k → k < 2 ^ p → g2._vReal[k]? = some 0 := by
  have hpf : p < fuel := lt_of_lt_of_le (Nat.lt_two_pow p) hfuel
  obtain ⟨re1, im1, re2, hc, hmag, hl2, hZ⟩ := forward_magnitude p hp (List.replicate (2 ^ p) c)
    (by simp) fs fuel hfuel
  have hval : ∀ j, j < 2 ^ p → re2.getD j 0 = if j = 0 then ((2 ^ p : ℕ) : ℝ) * |c| else 0 := by
    intro j hj
    rw [hZ j hj]
    have e : ∑ n in range (2 ^ p), (((List.replicate (2 ^ p) c).getD n 0 : ℝ) : ℂ) *
        ((Complex.exp ((dirSign Direction.FFT_REVERSE : ℂ) * (2 * Real.pi * Complex.I) /
          2 ^ p))⁻¹ ^ j) ^ n =
        (c : ℂ) * if j = 0 then ((2 ^ p : ℕ) : ℂ) else 0 := by
      rw [← root_pow_sum p j hj, mul_sum]
      apply sum_congr rfl
      intro n hn
      have hn' : n < 2 ^ p := mem_range.1 hn
      simp [List.getD_eq_getElem?_getD, List.getElem?_replicate, hn']
    rw [e]
    by_cases h0 : j = 0
    · rw [if_pos h0, if_pos h0, map_mul, Complex.abs_ofReal, Complex.abs_natCast, mul_comm]
    · rw [if_neg h0, if_neg h0, mul_zero, map_zero]
  refine ⟨_, _, _, FFT_Init_two_pow p hp _ _ fs fuel hpf, hc, hmag, ?_, ?_⟩
  · exact getElem?_of_getD re2 0 0 _ (by rw [hl2]; positivity) (by rw [hval 0 (by positivity)]; simp)
  · intro k hk1 hk
    exact getElem?_of_getD re2 k 0 _ (by omega) (by rw [hval k hk, if_neg (by omega)])

/-- Witness of C17 at `p = 2`, `c = -3`, fuel 4. -/
theorem FFT_DC_input_witness :
    (2 ≤ 15 ∧ 2 ^ 2 ≤ 4) ∧
    ∃ g0 g1 g2,
      FFT_Init 4 (List.replicate (2 ^ 2) (-3 : ℝ)) (List.replicate (2 ^ 2) 0) (2 ^ 2) 1000 =
        some g0 ∧
      FFT_Compute Real.sqrt 4 Direction.FFT_FORWARD g0 = some g1 ∧
      FFT_ComplexToMagnitude Real.sqrt g1 = some g2 ∧
      g2._vReal[0]? = some (((2 ^ 2 : ℕ) : ℝ) * |(-3 : ℝ)|) ∧
      ∀ k, 1 ≤ k → k < 2 ^ 2 → g2._vReal[k]? = some 0 :=
  ⟨⟨by norm_num, by norm_num⟩, FFT_DC_input 2 (by norm_num) (-3) 1000 4 (by norm_num)⟩

/-- C18: at a strict local maximum `m` of a buffer (`real[m-1] < real[m]` and
`real[m] > real[m+1]`) the denominator `real[m-1] - 2*real[m] + real[m+1]` of the
interpolation is strictly negative, the value of `delta` lies strictly between
`-1/2` and `1/2`, and `m + delta` strictly between `m - 1/2` and `m + 1/2`. -/
theorem interpolationDelta_bounds (vReal : List ℝ) (m : Nat) (h : IsPeak vReal m) :
    vReal.getD (m - 1) 0 - 2 * vReal.getD m 0 + vReal.getD (m + 1) 0 < 0 ∧
    -1 / 2 < interpolationDelta (vReal.getD (m - 1) 0) (vReal.getD m 0) (vReal.getD (m + 1) 0) ∧
    interpolationDelta (vReal.getD (m - 1) 0) (vReal.getD m 0) (vReal.getD (m + 1) 0) < 1 / 2 ∧
    (m : ℝ) - 1 / 2 <
      (m : ℝ) +
        interpolationDelta (vReal.getD (m - 1) 0) (vReal.getD m 0) (vReal.getD (m + 1) 0) ∧
    (m : ℝ) +
        interpolationDelta (vReal.getD (m - 1) 0) (vReal.getD m 0) (vReal.getD (m + 1) 0) <
      (m : ℝ) + 1 / 2 := by
  obtain ⟨hD, hl, hu⟩ := interpolationDelta_lt _ _ _ h.1 h.2
  exact ⟨hD, hl, hu, by linarith, by linarith⟩

/-- Witness of C18 at `real = [1, 4, 2]`, `m = 1`. -/
theorem interpolationDelta_bounds_witness :
    IsPeak ([1, 4, 2] : List ℝ) 1 ∧
    (([1, 4, 2] : List ℝ).getD (1 - 1) 0 - 2 * ([1, 4, 2] : List ℝ).getD 1 0 +
      ([1, 4, 2] : List ℝ).getD (1 + 1) 0 < 0 ∧
    -1 / 2 < interpolationDelta (([1, 4, 2] : List ℝ).getD (1 - 1) 0)
      (([1, 4, 2] : List ℝ).getD 1 0) (([1, 4, 2] : List ℝ).getD (1 + 1) 0) ∧
    interpolationDelta (([1, 4, 2] : List ℝ).getD (1 - 1) 0)
      (([1, 4, 2] : List ℝ).getD 1 0) (([1, 4, 2] : List ℝ).getD (1 + 1) 0) < 1 / 2 ∧
    ((1 : Nat) : ℝ) - 1 / 2 <
      ((1 : Nat) : ℝ) + interpolationDelta (([1, 4, 2] : List ℝ).getD (1 - 1) 0)
        (([1, 4, 2] : List ℝ).getD 1 0) (([1, 4, 2] : List ℝ).getD (1 + 1) 0) ∧
    ((1 : Nat) : ℝ) + interpolationDelta (([1, 4, 2] : List ℝ).getD (1 - 1) 0)
        (([1, 4, 2] : List ℝ).getD 1 0) (([1, 4, 2] : List ℝ).getD (1 + 1) 0) <
      ((1 : Nat) : ℝ) + 1 / 2) :=
  ⟨by simp [IsPeak]; norm_num,
    interpolationDelta_bounds [1, 4, 2] 1 (by simp [IsPeak]; norm_num)⟩

/-- C19: for `N = 2 ^ p` with `p ≤ 15` and `_power = p`, in every stage `l < p` of
`FFT_Compute` (reached with `l1 = 2 ^ l`), every group `j < l1` and every
iteration of the innermost loop (every state `i` at which its condition
`i < N` holds), the indices satisfy `i < i + l1 < N`, and the unreduced values of
`l2 <<= 1`, `i + l1` and `i += l2` are at most 65535. -/
theorem butterfly_index_safety (p : Nat) (hp : p ≤ 15) (dir : Direction)
    (vReal vImag : List ℝ) (hre : vReal.length = 2 ^ p) (him : vImag.length = 2 ^ p)
    (fuel : Nat) (hfuel : 2 ^ p ≤ fuel) (l : Nat) (hl : l < p) (j : Nat) (hj : j < 2 ^ l) :
    ∃ b c1 c2 reL imL u1 u2 reJ imJ,
      reverseBits fuel dir (2 ^ p) vReal vImag = some b ∧
      forLoop (stageBody Real.sqrt fuel dir (2 ^ p)) l 0 (-1, 0, 1, b.2.1, b.2.2) =
        some (c1, c2, 2 ^ l, reL, imL) ∧
      2 ^ l <<< 1 ≤ 65535 ∧
      forLoop (groupBody fuel (2 ^ p) (2 ^ l) ((2 ^ l <<< 1) % 2 ^ 16) c1 c2) j 0
        (1, 0, reL, imL) = some (u1, u2, reJ, imJ) ∧
      ∀ n s, iterWhile (fun s : Nat × List ℝ × List ℝ => decide (s.1 < 2 ^ p))
          (butterflyBody (2 ^ l) ((2 ^ l <<< 1) % 2 ^ 16) u1 u2) n (j, reJ, imJ) = some s →
        s.1 < 2 ^ p →
        s.1 < s.1 + 2 ^ l ∧ s.1 + 2 ^ l < 2 ^ p ∧ s.1 + 2 ^ l ≤ 65535 ∧
          s.1 + (2 ^ l <<< 1) % 2 ^ 16 ≤ 65535 := by
  have hN : 2 ^ p ≤ 2 ^ 15 := Nat.pow_le_pow_right (by norm_num) hp
  have hpf : p ≤ fuel := le_trans (Nat.lt_two_pow p).le hfuel
  have hpos : 0 < 2 ^ l := by positivity
  obtain ⟨hsh, hle⟩ := shiftLeft_two_pow p l hl hp
  have hsplit := two_pow_split p l hl
  have hT : 2 ^ (p - l - 1) < fuel := by
    have : 2 ^ (p - l - 1) < 2 ^ p := Nat.pow_lt_pow_right (by norm_num) (by omega)
    omega
  obtain ⟨j0, re1, im1, hrev, hr1, hm1, _⟩ := reverseBits_spec p hp dir vReal vImag hre him fuel hpf
  obtain ⟨c1, c2, reL, imL, hst, hrL, hmL⟩ := stageLoop_prefix p hp dir re1 im1 hr1 hm1 fuel hfuel
    l hl.le
  obtain ⟨u1, u2, reJ, imJ, hgr, hrJ, hmJ⟩ := groupLoop_prefix (2 ^ p) (2 ^ l) (2 ^ (p - l - 1))
    hpos hsplit hN c1 c2 reL imL hrL hmL fuel hT j hj.le
  refine ⟨(j0, re1, im1), c1, c2, reL, imL, u1, u2, reJ, imJ, hrev, hst, ?_, ?_, ?_⟩
  · rw [Nat.shiftLeft_eq, pow_one]; omega
  · rw [hsh]; exact hgr
  · intro n s h hs
    rw [hsh] at h ⊢
    have h0 : j = j + 0 * (2 * 2 ^ l) := by simp
    rw [h0] at h
    obtain ⟨h1, h2⟩ := butterfly_iter (2 ^ p) (2 ^ l) (2 ^ (p - l - 1)) hpos hsplit hN u1 u2 j hj
      n 0 reJ imJ s hrJ hmJ (Nat.zero_le _) h
    rw [Nat.zero_add] at h1 h2
    have hnT : n < 2 ^ (p - l - 1) := by
      by_contra hge
      have : 2 ^ (p - l - 1) * (2 * 2 ^ l) ≤ n * (2 * 2 ^ l) := Nat.mul_le_mul_right _ (by omega)
      omega
    have hle2 : (n + 1) * (2 * 2 ^ l) ≤ 2 ^ (p - l - 1) * (2 * 2 ^ l) :=
      Nat.mul_le_mul_right _ hnT
    have e : (n + 1) * (2 * 2 ^ l) = n * (2 * 2 ^ l) + 2 * 2 ^ l := by ring
    refine ⟨by omega, by omega, by omega, by omega⟩

/-- Witness of C19 at `p = 2`, Forward, fuel 4, stage `l = 1`, group `j = 1`. -/
theorem butterfly_index_safety_witness :
    (2 ≤ 15 ∧ ([1, 2, 3, 4] : List ℝ).length = 2 ^ 2 ∧ ([0, 0, 0, 0] : List ℝ).length = 2 ^ 2 ∧
      2 ^ 2 ≤ 4 ∧ 1 < 2 ∧ 1 < 2 ^ 1) ∧
    ∃ b c1 c2 reL imL u1 u2 reJ imJ,
      reverseBits 4 Direction.FFT_FORWARD (2 ^ 2) ([1, 2, 3, 4] : List ℝ) [0, 0, 0, 0] = some b ∧
      forLoop (stageBody Real.sqrt 4 Direction.FFT_FORWARD (2 ^ 2)) 1 0
        (-1, 0, 1, b.2.1, b.2.2) = some (c1, c2, 2 ^ 1, reL, imL) ∧
      2 ^ 1 <<< 1 ≤ 65535 ∧
      forLoop (groupBody 4 (2 ^ 2) (2 ^ 1) ((2 ^ 1 <<< 1) % 2 ^ 16) c1 c2) 1 0
        (1, 0, reL, imL) = some (u1, u2, reJ, imJ) ∧
      ∀ n s, iterWhile (fun s : Nat × List ℝ × List ℝ => decide (s.1 < 2 ^ 2))
          (butterflyBody (2 ^ 1) ((2 ^ 1 <<< 1) % 2 ^ 16) u1 u2) n (1, reJ, imJ) = some s →
        s.1 < 2 ^ 2 →
        s.1 < s.1 + 2 ^ 1 ∧ s.1 + 2 ^ 1 < 2 ^ 2 ∧ s.1 + 2 ^ 1 ≤ 65535 ∧
          s.1 + (2 ^ 1 <<< 1) % 2 ^ 16 ≤ 65535 :=
  ⟨⟨by norm_num, rfl, rfl, by norm_num, by norm_num, by norm_num⟩,
    butterfly_index_safety 2 (by norm_num) Direction.FFT_FORWARD [1, 2, 3, 4] [0, 0, 0, 0] rfl rfl
      4 (by norm_num) 1 (by norm_num) 1 (by norm_num)⟩

/-- C20: for `N = 2 ^ p` with `p ≤ 15` and every iteration `i` of the reordering
loop of `FFT_Compute` (`0 ≤ i ≤ N - 2`): the loop reaches the iteration with
`j = rev_p i < N` and buffers of length `N`, so the swap indices `i` and `j` are
inside the buffers; every state `(k, j)` of the carry loop has `k ≥ 1` and
`j < N`; the carry loop terminates (fuel `p` is enough) with `k ≥ 1`; and the
update `j += k` gives `rev_p (i + 1) < N` without wrapping. -/
theorem reverseBits_terminates_in_bounds {α : Type} (p : Nat) (hp : p ≤ 15) (dir : Direction)
    (vReal vImag : List α) (hre : vReal.length = 2 ^ p) (him : vImag.length = 2 ^ p)
    (fuel : Nat) (hfuel : p ≤ fuel) (i : Nat) (hi : i + 2 ≤ 2 ^ p) :
    ∃ j re' im',
      forLoop (reverseBitsBody fuel dir (2 ^ p)) i 0 (0, vReal, vImag) = some (j, re', im') ∧
      re'.length = 2 ^ p ∧ im'.length = 2 ^ p ∧ i < 2 ^ p ∧ j < 2 ^ p ∧
      (∀ n s, iterWhile (fun s : Nat × Nat => decide (s.1 ≤ s.2))
          (fun s => some (s.1 >>> 1, s.2 - s.1)) n (2 ^ p >>> 1, j) = some s →
        1 ≤ s.1 ∧ s.2 < 2 ^ p) ∧
      ∃ k j', carryLoop fuel (2 ^ p >>> 1) j = some (k, j') ∧ 1 ≤ k ∧ j' < 2 ^ p ∧
        j' + k < 2 ^ p ∧ j' + k < 2 ^ 16 := by
  have hN : 2 ^ p ≤ 2 ^ 15 := Nat.pow_le_pow_right (by norm_num) hp
  obtain ⟨re', im', hs, hl1, hl2⟩ := reverseBits_prefix p hp dir vReal vImag hre him fuel hfuel i
    (by omega)
  obtain ⟨q, rfl⟩ : ∃ q, p = q + 1 := by
    rcases p with _ | q
    · simp at hi
    · exact ⟨q, rfl⟩
  have hj := bitrev_lt (q + 1) i
  obtain ⟨k, j', hc, hk, hjk⟩ := carryLoop_bitrev q i fuel (by omega) (by omega)
  have hnext := bitrev_lt (q + 1) (i + 1)
  refine ⟨bitrev (q + 1) i, re', im', hs, hl1, hl2, by omega, hj, ?_, k, j', ?_, hk, by omega,
    by omega, by omega⟩
  · intro n s h
    rw [shiftRight_two_pow_succ] at h
    obtain ⟨h1, h2⟩ := carry_iter q i n s (by omega) h
    exact ⟨h1, by omega⟩
  · rw [shiftRight_two_pow_succ]; exact hc

/-- Witness of C20 at `p = 2`, Reverse, fuel 2, iteration `i = 1`. -/
theorem reverseBits_terminates_in_bounds_witness :
    (2 ≤ 15 ∧ ([10, 11, 12, 13] : List ℚ).length = 2 ^ 2 ∧
      ([20, 21, 22, 23] : List ℚ).length = 2 ^ 2 ∧ 2 ≤ 2 ∧ 1 + 2 ≤ 2 ^ 2) ∧
    ∃ j re' im',
      forLoop (reverseBitsBody 2 Direction.FFT_REVERSE (2 ^ 2)) 1 0
        (0, ([10, 11, 12, 13] : List ℚ), ([20, 21, 22, 23] : List ℚ)) = some (j, re', im') ∧
      re'.length = 2 ^ 2 ∧ im'.length = 2 ^ 2 ∧ 1 < 2 ^ 2 ∧ j < 2 ^ 2 ∧
      (∀ n s, iterWhile (fun s : Nat × Nat => decide (s.1 ≤ s.2))
          (fun s => some (s.1 >>> 1, s.2 - s.1)) n (2 ^ 2 >>> 1, j) = some s →
        1 ≤ s.1 ∧ s.2 < 2 ^ 2) ∧
      ∃ k j', carryLoop 2 (2 ^ 2 >>> 1) j = some (k, j') ∧ 1 ≤ k ∧ j' < 2 ^ 2 ∧
        j' + k < 2 ^ 2 ∧ j' + k < 2 ^ 16 :=
  ⟨⟨by decide, rfl, rfl, by decide, by decide⟩,
    reverseBits_terminates_in_bounds 2 (by decide) Direction.FFT_REVERSE [10, 11, 12, 13]
      [20, 21, 22, 23] rfl rfl 2 (by decide) 1 (by decide)⟩

end ArduinoFFT
